import Mathlib

/-!
# JITSim: circuit construction from a CoreIR netlist, and the lazy compilation engine

A shallow embedding of `src/src/coreir.cpp` together with the parts of
`include/jitsim/circuit.hpp` and `include/jitsim/JIT.hpp` it relies on.

* The CoreIR library is an external collaborator.  It is represented by the data a
  netlist exposes through the calls the builder makes: `getType()->getRecord()`,
  `getSize()`, `isInput()`, `getKind()`, `getInstances()`, `getModuleRef()`, `hasDef()`,
  `getDef()`, `sel(...)`, `getParent()`, `getSelStr()`, `getConnectedWireables()`.
* Pointers are indices or keys: a `CoreIR::Module *` is a natural number, a
  `CoreIR::Instance *` is the key of the instance in `getInstances()`, a `Definition *`
  is a position in the `deque<Definition>`, an `Instance *` a position in the
  `vector<Instance>` of the enclosing definition.
* Widths and offsets are `int` in the source and integers here.  A width comes from the
  unsigned `getSize()` and an offset from the `unsigned long` of `stoul`; both are
  converted to `int` by `toInt`, which keeps the low 32 bits and reads them as a signed
  number, so a size from `2^31` on gives a negative width.
* `assert` is taken as compiled in: a failed assertion ends the build with an error.
-/

namespace JITSim

/-! ## The netlist side (CoreIR) -/

/-- The `CoreIR::Type` of a port or of a part of a port: `Bit`, `BitIn` and arrays of them. -/
inductive CType where
  | bit : CType
  | bitIn : CType
  | array : Nat → CType → CType
deriving DecidableEq, Repr

/-- The `Type::getSize()` of CoreIR: the number of bits of a type.  CoreIR returns it as
an `unsigned`, the low 32 bits of this number; `toInt` below takes them. -/
def CType.getSize : CType → Nat
  | .bit => 1
  | .bitIn => 1
  | .array len elem => len * elem.getSize

/-- The conversion of an unsigned number to `int`, as in `int width = type->getSize()` and
`parent_idx = stoul(...)`: the low 32 bits, read as a signed number in two's complement. -/
def toInt (n : Nat) : Int :=
  if n % 4294967296 < 2147483648 then ((n % 4294967296 : Nat) : Int)
  else ((n % 4294967296 : Nat) : Int) - 4294967296

/-- The `Type::isInput()` of CoreIR: an array has the direction of its elements. -/
def CType.isInput : CType → Bool
  | .bit => false
  | .bitIn => true
  | .array _ elem => elem.isInput

/-- The test `getKind() == CoreIR::Type::TK_Array`. -/
def CType.isArray : CType → Bool
  | .array _ _ => true
  | _ => false

/-- A `CoreIR::Wireable` inside one module definition: the definition's interface
(`WK_Interface`), an instance (`WK_Instance`, by its key in `getInstances()`), or a select
of a parent wireable (`WK_Select`, with `getParent()` and `getSelStr()`). -/
inductive Wireable where
  | iface : Wireable
  | inst : String → Wireable
  | sel : Wireable → String → Wireable
deriving DecidableEq, Repr

/-- One entry of `ModuleDef::getInstances()`: the instance's name and `getModuleRef()`. -/
structure CoreInstance where
  name : String
  moduleRef : Nat
deriving DecidableEq, Repr

/-- A `CoreIR::ModuleDef`: its instances in iteration order and, for every wireable, the
set returned by `getConnectedWireables()`. -/
structure ModuleDef where
  instances : List CoreInstance
  connected : Wireable → List Wireable

/-- A `CoreIR::Module`: `getName()`, the port record `getType()->getRecord()` in iteration
order, and `getDef()` (`none` when `hasDef()` is false). -/
structure CoreModule where
  name : String
  record : List (String × CType)
  getDef : Option ModuleDef

/-- The type of port `name` in a port record. -/
def lookupPort (record : List (String × CType)) (name : String) : Option CType :=
  (record.find? (fun rpair => rpair.1 == name)).map (fun rpair => rpair.2)

/-- The test `isspace` of the C locale: the space and the characters 9 to 13. -/
def isspace (c : Char) : Bool := c.toNat == 32 || (9 ≤ c.toNat && c.toNat ≤ 13)

/-- The `std::stoul` of the source on a select string, in base 10 and with a 64-bit
`unsigned long`: leading white space is skipped, one sign is accepted, and the longest run
of decimal digits that follows is the numeral; what comes after it is ignored.  The result
is `none` (an exception in the source) when there is no digit (`invalid_argument`) or the
numeral is above `ULONG_MAX` (`out_of_range`); a numeral after a minus sign is negated in
`unsigned long`. -/
def stoul (s : String) : Option Nat :=
  let rest := s.data.dropWhile isspace
  let negative := rest.head? == some '-'
  let body := if rest.head? == some '-' || rest.head? == some '+' then rest.tail else rest
  let digits := body.takeWhile Char.isDigit
  let value := digits.foldl (fun acc c => 10 * acc + (c.toNat - 48)) 0
  if digits.isEmpty then none
  else if 18446744073709551615 < value then none
  else if negative then some ((18446744073709551616 - value) % 18446744073709551616)
  else some value

/-- What a module definition is built in: all modules by reference, the module being
processed and its definition. -/
structure CoreCtx where
  env : Nat → CoreModule
  core_mod : CoreModule
  core_def : ModuleDef

/-- The `getType()` of a wireable that is a port, or an element of an array port, of the
interface or of an instance: the type the port has in the record of its module, and the
element type for a select of an array.  Interfaces and instances themselves have record
types, which the builder never asks for beyond `getKind()`; they give `none`. -/
def CoreCtx.getType (ctx : CoreCtx) : Wireable → Option CType
  | .iface => none
  | .inst _ => none
  | .sel .iface p => lookupPort ctx.core_mod.record p
  | .sel (.inst n) p =>
    match ctx.core_def.instances.find? (fun ci => ci.name == n) with
    | some ci => lookupPort (ctx.env ci.moduleRef).record p
    | none => none
  | .sel (.sel q p) _ =>
    match ctx.getType (.sel q p) with
    | some (.array _ elem) => some elem
    | _ => none

/-- The test `w->getType()->getKind() == CoreIR::Type::TK_Array`. -/
def CoreCtx.isArrayKind (ctx : CoreCtx) (w : Wireable) : Bool :=
  match ctx.getType w with
  | some t => t.isArray
  | none => false

/-! ## The circuit side (`circuit.hpp`) -/

/-- How a build ends without a circuit: a failed `assert` (with its line in `coreir.cpp`),
a dereference the source does not guard (an `end()` iterator, a null `Value`, an exception
of `stoul`), or the recursion bound of the embedding being reached. -/
inductive BuildError where
  | assertion : Nat → BuildError
  | undefined : Nat → BuildError
  | outOfFuel : BuildError
deriving DecidableEq, Repr

/-- The class `Value`: a named signal of a fixed width. -/
structure Value where
  name : String
  width : Int
deriving DecidableEq, Repr

/-- A `const IFace *` as `CreateSlice` produces it: the interface of the definition being
built, or the interface of one of its instances. -/
inductive IFaceRef where
  | defn : IFaceRef
  | inst : Nat → IFaceRef
deriving DecidableEq, Repr

/-- The class `ValueSlice`, with the members `CreateSlice` passes to its constructor
(`iface`, `val`, `offset`, `width`) and the ones the constructor derives. -/
structure ValueSlice where
  iface : Option IFaceRef
  val : Option Value
  offset : Int
  width : Int
  is_whole : Bool
  constant : Option (List Bool)
deriving DecidableEq, Repr

/-- The member `ValueSlice::getEndIdx`, with the sum taken in the integers (an overflow of
`int` is undefined in the source). -/
def ValueSlice.getEndIdx (s : ValueSlice) : Int := s.offset + s.width

/-- Modelled from the spec: the constructor `ValueSlice(iface, val, offset, width)`, whose
body is in `circuit.cpp`.  The slice is not a constant and `is_whole` is set exactly when
the offset is 0 and the width is the width of the source value. -/
def ValueSlice.create (iface : IFaceRef) (val : Value) (offset width : Int) : ValueSlice :=
  { iface := some iface, val := some val, offset := offset, width := width,
    is_whole := decide (offset = 0 ∧ width = val.width), constant := none }

/-- Modelled from the spec: the merge test of the compaction pass (`Select::compressSlices`,
body in `circuit.cpp`): `other` continues `s` when neither is a constant, both reference
the same source and `other` starts at the bit where `s` ends. -/
def ValueSlice.continuedBy (s other : ValueSlice) : Bool :=
  s.constant.isNone && other.constant.isNone && s.iface == other.iface &&
    s.val == other.val && s.getEndIdx == other.offset

/-- Modelled from the spec: the member `ValueSlice::extend` (declared in `circuit.hpp`, body
in `circuit.cpp`): the slice grows by the width of `other`, and `is_whole` keeps meaning
"offset 0 and the width of the source". -/
def ValueSlice.extend (s other : ValueSlice) : ValueSlice :=
  { s with
    width := s.width + other.width
    is_whole := match s.val with
      | some v => decide (s.offset = 0 ∧ s.width + other.width = v.width)
      | none => false }

/-- The compaction pass with the slice under construction held in `prev`. -/
def compressFrom (prev : ValueSlice) : List ValueSlice → List ValueSlice
  | [] => [prev]
  | cur :: rest =>
    if prev.continuedBy cur then compressFrom (prev.extend cur) rest
    else prev :: compressFrom cur rest

/-- Modelled from the spec: the pass `Select::compressSlices` (declared in `circuit.hpp`,
body in `circuit.cpp`): adjacent slices that reference the same source and are
bit-contiguous are merged into one slice, from the front of the list to its end. -/
def compressSlices : List ValueSlice → List ValueSlice
  | [] => []
  | s :: rest => compressFrom s rest

/-- The class `Select`: the ordered slices driving one input.  (The members
`has_many_slices` and `direct_value` are caches computed from `slices`.) -/
structure Select where
  slices : List ValueSlice
deriving DecidableEq, Repr

/-- Modelled from the spec: the constructor `Select(ValueSlice &&)`, body in `circuit.cpp`:
a select of the one slice given. -/
def Select.ofSlice (slice_ : ValueSlice) : Select := { slices := [slice_] }

/-- Modelled from the spec: the constructor `Select(std::vector<ValueSlice> &&)`, body in
`circuit.cpp`: the raw slice list is taken over and compacted. -/
def Select.ofSlices (slices_ : List ValueSlice) : Select := { slices := compressSlices slices_ }

/-- The sum of the widths of the slices of a select. -/
def Select.totalWidth (s : Select) : Int := (s.slices.map ValueSlice.width).sum

/-- The class `Input`: a named port of a fixed width with an optional `Select`.
`connects` is a ghost member, not part of the C++ object: the number of times
`connect` has been called on this input. -/
structure Input where
  name : String
  width : Int
  select : Option Select
  connects : Nat
deriving DecidableEq, Repr

/-- The constructor `Input(name, w)`: no select. -/
def Input.create (name_ : String) (w : Int) : Input :=
  { name := name_, width := w, select := none, connects := 0 }

/-- The member `Input::isConnected`. -/
def Input.isConnected (i : Input) : Bool := i.select.isSome

/-- The member `Input::connect`: the select is stored, with no check against the width. -/
def Input.connect (i : Input) (conn : Select) : Input :=
  { i with select := some conn, connects := i.connects + 1 }

/-- The class `IFace`.  The lookup tables `input_lookup` and `output_lookup` are the
name lookups `getInput` and `getOutput` below. -/
structure IFace where
  name : String
  inputs : List Input
  outputs : List Value
  is_definition : Bool
deriving DecidableEq, Repr

/-- Modelled from the spec: the member `IFace::getOutput`, body in `circuit.cpp`: the
name to port lookup of the outputs, `none` for a name that is not an output. -/
def IFace.getOutput (iface : IFace) (name : String) : Option Value :=
  iface.outputs.find? (fun v => v.name == name)

/-- Modelled from the spec: the member `IFace::getInput`, body in `circuit.cpp`: the name
to port lookup of the inputs, `none` for a name that is not an input. -/
def IFace.getInput (iface : IFace) (name : String) : Option Input :=
  iface.inputs.find? (fun i => i.name == name)

/-- The class `Instance`; `defn` is the position of its definition in the deque. -/
structure Instance where
  name : String
  interface : IFace
  defn : Nat
deriving DecidableEq, Repr

/-- The class `Definition` (without the derived `SimInfo`). -/
structure Definition where
  name : String
  interface : IFace
  instances : List Instance
deriving DecidableEq, Repr

/-- Modelled from the spec: the member `Definition::makeInstance` (body in `circuit.cpp`):
the instance has its own interface, mirroring the definition's: what the definition reads
(its outputs) the parent must drive (inputs of the instance), and what the definition
drives (its inputs) the parent can read (outputs of the instance).  `self` is the position
of the definition in the deque. -/
def Definition.makeInstance (d : Definition) (self : Nat) (name : String) : Instance :=
  { name := name
    interface :=
      { name := name
        inputs := d.interface.outputs.map (fun v => Input.create v.name v.width)
        outputs := d.interface.inputs.map (fun i => Value.mk i.name i.width)
        is_definition := false }
    defn := self }

/-- Modelled from the spec: the constructor of a primitive definition as `ProcessPrimitive`
calls it (body in `circuit.cpp`): the interface is derived directly from the port list, and
there are no instances. -/
def Definition.primitive (name : String) (inputs : List Input) (outputs : List Value) :
    Definition :=
  { name := name
    interface := { name := name, inputs := inputs, outputs := outputs, is_definition := true }
    instances := [] }

/-- Modelled from the spec: the constructor of a composite definition (body in
`circuit.cpp`): the interface is made from the inputs and outputs, the instances are taken
over, and `make_connections` is run once on the interface and the instances, as the
callback `ProcessModules` passes expects, to resolve the wiring. -/
def Definition.composite (name : String) (inputs : List Input) (outputs : List Value)
    (instances : List Instance)
    (make_connections : IFace → List Instance → Except BuildError (IFace × List Instance)) :
    Except BuildError Definition :=
  match make_connections
      { name := name, inputs := inputs, outputs := outputs, is_definition := true }
      instances with
  | .ok (iface, insts) => .ok { name := name, interface := iface, instances := insts }
  | .error e => .error e

/-- The class `Circuit`: the definitions and `top_defn`, the last of them. -/
structure Circuit where
  definitions : List Definition
  top_defn : Option Definition
deriving DecidableEq, Repr

/-- The constructor `Circuit(std::deque<Definition> &&)`. -/
def Circuit.create (defns : List Definition) : Circuit :=
  { definitions := defns, top_defn := defns.getLast? }

/-! ## The builder (`coreir.cpp`) -/

/-- The function `GenInterface`: a port whose type is an input becomes an output `Value`
of the interface, every other port an `Input`; both get the port's name and, as width,
the size of its type converted to `int` (line 29). -/
def GenInterface (core_mod : CoreModule) : List Input × List Value :=
  core_mod.record.foldl
    (fun (acc : List Input × List Value) (rpair : String × CType) =>
      if rpair.2.isInput then (acc.1, acc.2 ++ [Value.mk rpair.1 (toInt rpair.2.getSize)])
      else (acc.1 ++ [Input.create rpair.1 (toInt rpair.2.getSize)], acc.2))
    ([], [])

/-- An `unordered_map` of the builder, as the list of its assignments, newest first. -/
abbrev UMap (κ : Type) (ν : Type) := List (κ × ν)

/-- The lookup `m.find(k)`: the value last assigned to `k`, `none` for `end()`. -/
def UMap.find {κ ν : Type} [BEq κ] (m : UMap κ ν) (k : κ) : Option ν := List.lookup k m

/-- The assignment `m[k] = v`. -/
def UMap.assign {κ ν : Type} (m : UMap κ ν) (k : κ) (v : ν) : UMap κ ν := (k, v) :: m

/-- The first loop of `GenInstances`: one `Instance` per entry of `getInstances()`, made by
the definition `mod_map` holds for the instance's module. -/
def genInstancesLoop (definitions : List Definition) (mod_map : UMap Nat Nat) :
    List CoreInstance → Except BuildError (List Instance)
  | [] => .ok []
  | coreinst :: rest =>
    match mod_map.find coreinst.moduleRef with
    | none => .error (.undefined 55)
    | some idx =>
      match definitions[idx]? with
      | none => .error (.undefined 57)
      | some defn =>
        match genInstancesLoop definitions mod_map rest with
        | .ok insts => .ok (defn.makeInstance idx coreinst.name :: insts)
        | .error e => .error e

/-- The second loop of `GenInstances`: `instance_map[core_instances[i]] = &instances[i]`. -/
def genInstanceMap (core_instances : List CoreInstance) : UMap String Nat :=
  (List.range core_instances.length).foldl
    (fun (m : UMap String Nat) i =>
      match core_instances[i]? with
      | some ci => m.assign ci.name i
      | none => m)
    []

/-- The function `GenInstances`. -/
def GenInstances (core_def : ModuleDef) (definitions : List Definition)
    (mod_map : UMap Nat Nat) : Except BuildError (List Instance × UMap String Nat) :=
  match genInstancesLoop definitions mod_map core_def.instances with
  | .ok instances => .ok (instances, genInstanceMap core_def.instances)
  | .error e => .error e

/-- The state `ProcessModules` works on: the deque of definitions and `mod_map`, from a
module to the position of its definition. -/
structure BuildState where
  definitions : List Definition
  mod_map : UMap Nat Nat

/-- The function `ProcessPrimitive`. -/
def ProcessPrimitive (core_mod : CoreModule) (core_ref : Nat) (st : BuildState) : BuildState :=
  let interface := GenInterface core_mod
  { definitions := st.definitions ++ [Definition.primitive core_mod.name interface.1 interface.2]
    mod_map := st.mod_map.assign core_ref st.definitions.length }

/-- The end of `CreateSlice` (lines 95 to 108): the interface and the value the slice reads,
from the parent of the driving select. -/
def sliceOfParent (parent_w : Wireable) (selStr : String) (parent_idx : Int)
    (is_arrslice : Bool) (defn_iface : IFace) (instances : List Instance)
    (inst_map : UMap String Nat) : Except BuildError ValueSlice :=
  match parent_w with
  | .inst n =>
    match inst_map.find n with
    | none => .error (.undefined 99)
    | some k =>
      match instances[k]? with
      | none => .error (.undefined 100)
      | some sourceinst =>
        match sourceinst.interface.getOutput selStr with
        | none => .error (.undefined 108)
        | some val =>
          .ok (ValueSlice.create (.inst k) val parent_idx
            (if is_arrslice then 1 else val.width))
  | .iface =>
    match defn_iface.getOutput selStr with
    | none => .error (.undefined 108)
    | some val =>
      .ok (ValueSlice.create .defn val parent_idx (if is_arrslice then 1 else val.width))
  | .sel _ _ => .error (.assertion 106)

/-- The function `CreateSlice`.  The index of an array element is the result of `stoul`
converted to `int` (line 89). -/
def CreateSlice (ctx : CoreCtx) (source_w : Wireable) (defn_iface : IFace)
    (instances : List Instance) (inst_map : UMap String Nat) : Except BuildError ValueSlice :=
  match source_w with
  | .sel parent_w selStr =>
    if ctx.isArrayKind parent_w then
      match stoul selStr with
      | none => .error (.undefined 89)
      | some parent_idx =>
        match parent_w with
        | .sel parent_w2 selStr2 =>
          sliceOfParent parent_w2 selStr2 (toInt parent_idx) true defn_iface instances
            inst_map
        | _ => .error (.undefined 90)
    else sliceOfParent parent_w selStr 0 false defn_iface instances inst_map
  | _ => .error (.assertion 81)

/-- The loop of `SetupIFaceConnections` at lines 125 to 130, over the indices `0` to
`width - 1` (none when the width is not positive): the raw slice list of an array input
driven element by element. -/
def elementSlices (ctx : CoreCtx) (in_sel : Wireable) (defn_iface : IFace)
    (instances : List Instance) (inst_map : UMap String Nat) :
    List Nat → Except BuildError (List ValueSlice)
  | [] => .ok []
  | i :: rest =>
    match ctx.core_def.connected (.sel in_sel (toString i)) with
    | [w] =>
      match CreateSlice ctx w defn_iface instances inst_map with
      | .ok slice =>
        match elementSlices ctx in_sel defn_iface instances inst_map rest with
        | .ok slices => .ok (slice :: slices)
        | .error e => .error e
      | .error e => .error e
    | _ => .error (.assertion 128)

/-- The body of the loop of `SetupIFaceConnections` (lines 115 to 136) for one input. -/
def connectInput (ctx : CoreCtx) (core_w : Wireable) (defn_iface : IFace)
    (instances : List Instance) (inst_map : UMap String Nat) (new_input : Input) :
    Except BuildError Input :=
  match ctx.core_def.connected (.sel core_w new_input.name) with
  | [] =>
    if ctx.isArrayKind (.sel core_w new_input.name) then
      match elementSlices ctx (.sel core_w new_input.name) defn_iface instances inst_map
          (List.range new_input.width.toNat) with
      | .ok slices => .ok (new_input.connect (Select.ofSlices slices))
      | .error e => .error e
    else .error (.assertion 122)
  | [w] =>
    match CreateSlice ctx w defn_iface instances inst_map with
    | .ok slice => .ok (new_input.connect (Select.ofSlice slice))
    | .error e => .error e
  | _ => .error (.assertion 133)

/-- The loop of `SetupIFaceConnections` over the inputs of the interface, in order. -/
def connectInputs (ctx : CoreCtx) (core_w : Wireable) (defn_iface : IFace)
    (instances : List Instance) (inst_map : UMap String Nat) :
    List Input → Except BuildError (List Input)
  | [] => .ok []
  | new_input :: rest =>
    match connectInput ctx core_w defn_iface instances inst_map new_input with
    | .ok i =>
      match connectInputs ctx core_w defn_iface instances inst_map rest with
      | .ok is => .ok (i :: is)
      | .error e => .error e
    | .error e => .error e

/-- The function `SetupIFaceConnections`: every input of `iface` is connected. -/
def SetupIFaceConnections (ctx : CoreCtx) (core_w : Wireable) (iface : IFace)
    (defn_iface : IFace) (instances : List Instance) (inst_map : UMap String Nat) :
    Except BuildError IFace :=
  match connectInputs ctx core_w defn_iface instances inst_map iface.inputs with
  | .ok inputs => .ok { iface with inputs := inputs }
  | .error e => .error e

/-- The loop of `SetupModuleConnections` over `getInstances()`: the interface of the
instance `inst_map` gives for each entry is connected in place. -/
def setupInstances (ctx : CoreCtx) (defn_iface : IFace) (inst_map : UMap String Nat) :
    List CoreInstance → List Instance → Except BuildError (List Instance)
  | [], instances => .ok instances
  | coreinst :: rest, instances =>
    match inst_map.find coreinst.name with
    | none => .error (.undefined 146)
    | some k =>
      match instances[k]? with
      | none => .error (.undefined 147)
      | some jitinst =>
        match SetupIFaceConnections ctx (.inst coreinst.name) jitinst.interface defn_iface
            instances inst_map with
        | .ok iface =>
          setupInstances ctx defn_iface inst_map rest
            (instances.set k { jitinst with interface := iface })
        | .error e => .error e

/-- The function `SetupModuleConnections`: the instances first, then the interface of the
definition itself. -/
def SetupModuleConnections (ctx : CoreCtx) (defn_iface : IFace) (instances : List Instance)
    (inst_map : UMap String Nat) : Except BuildError (IFace × List Instance) :=
  match setupInstances ctx defn_iface inst_map ctx.core_def.instances instances with
  | .ok insts =>
    match SetupIFaceConnections ctx .iface defn_iface defn_iface insts inst_map with
    | .ok iface => .ok (iface, insts)
    | .error e => .error e
  | .error e => .error e

/-- The loop of `ProcessModules` over `getInstances()`, with the recursive call as `rec`. -/
def processInstances (rec : Nat → BuildState → Except BuildError BuildState) :
    List CoreInstance → BuildState → Except BuildError BuildState
  | [], st => .ok st
  | inst :: rest, st =>
    match rec inst.moduleRef st with
    | .ok st1 => processInstances rec rest st1
    | .error e => .error e

/-- The part of `ProcessModules` after the recursion (lines 176 to 188): the definition of
a module with a definition is built and registered. -/
def buildComposite (env : Nat → CoreModule) (core_ref : Nat) (core_def : ModuleDef)
    (st : BuildState) : Except BuildError BuildState :=
  match GenInstances core_def st.definitions st.mod_map with
  | .error e => .error e
  | .ok (defn_instances, defn_instmap) =>
    match Definition.composite (env core_ref).name (GenInterface (env core_ref)).1
        (GenInterface (env core_ref)).2 defn_instances
        (fun defn_iface instances =>
          SetupModuleConnections
            { env := env, core_mod := env core_ref, core_def := core_def }
            defn_iface instances defn_instmap) with
    | .error e => .error e
    | .ok d =>
      .ok { definitions := st.definitions ++ [d]
            mod_map := st.mod_map.assign core_ref st.definitions.length }

/-- The function `ProcessModules`.  The recursion of the source has no bound of its own;
here it is cut at depth `fuel`, where it gives `outOfFuel`. -/
def ProcessModules (env : Nat → CoreModule) :
    Nat → Nat → BuildState → Except BuildError BuildState
  | 0, _, _ => .error .outOfFuel
  | fuel + 1, core_ref, st =>
    match st.mod_map.find core_ref with
    | some _ => .ok st
    | none =>
      match (env core_ref).getDef with
      | none => .ok (ProcessPrimitive (env core_ref) core_ref st)
      | some core_def =>
        match processInstances (ProcessModules env fuel) core_def.instances st with
        | .error e => .error e
        | .ok st1 => buildComposite env core_ref core_def st1

/-- The first lines of `BuildFromCoreIR`: `ProcessModules` from an empty deque and an
empty `mod_map`. -/
def buildState (env : Nat → CoreModule) (fuel : Nat) (core_ref : Nat) :
    Except BuildError BuildState :=
  ProcessModules env fuel core_ref { definitions := [], mod_map := [] }

/-- The function `BuildFromCoreIR`. -/
def BuildFromCoreIR (env : Nat → CoreModule) (fuel : Nat) (core_ref : Nat) :
    Except BuildError Circuit :=
  match buildState env fuel core_ref with
  | .ok st => .ok (Circuit.create st.definitions)
  | .error e => .error e

/-! ## The lazy compilation engine (`JIT.hpp`) -/

/-- Modelled from the spec: the state of the class `JIT`, whose members are declared in
`JIT.hpp` and defined in `JIT.cpp`.  `live_modules` maps a name to the handle of its
compiled module; `callback_addrs` holds the lazily submitted units whose stub has not been
compiled yet, each by the name of its unit; `next_handle` is the next handle to give out.
`generated` is a ghost member: the units whose generator has been invoked, newest first. -/
structure JIT where
  live_modules : List (String × Nat)
  callback_addrs : List String
  generated : List String
  next_handle : Nat
deriving DecidableEq, Repr

/-- The operations of the engine: eager submission (`addModule`), lazy submission
(`addLazyModule`), resolution (`getSymbolAddress`), the first call through the address of
a stub, `precompileIR` (the `forceCompileAll` of the spec) and `removeModule`. -/
inductive JITOp where
  | addModule : String → JITOp
  | addLazyModule : String → JITOp
  | getSymbolAddress : String → JITOp
  | callThrough : String → JITOp
  | precompileIR : JITOp
  | removeModule : String → JITOp
deriving DecidableEq, Repr

/-- The name has a compiled module. -/
def JIT.isLive (j : JIT) (name : String) : Bool := j.live_modules.any (fun e => e.1 == name)

/-- The name has a stub that has not been compiled yet. -/
def JIT.isPending (j : JIT) (name : String) : Bool := j.callback_addrs.contains name

/-- Modelled from the spec: a code unit is compiled and linked, and its handle becomes
live under its name. -/
def JIT.link (j : JIT) (name : String) : JIT :=
  { j with
    live_modules := (name, j.next_handle) :: j.live_modules
    next_handle := j.next_handle + 1 }

/-- Modelled from the spec: the compile callback of a lazily submitted unit: the stub
stops being outstanding, the generator is invoked and its code unit is linked. -/
def JIT.compileLazy (j : JIT) (name : String) : JIT :=
  JIT.link
    { j with
      callback_addrs := j.callback_addrs.filter (fun n => n != name)
      generated := name :: j.generated }
    name

/-- Modelled from the spec: one operation of the engine.  A submission under a name that
is live or pending is rejected; a lazy submission installs a stub and nothing else;
resolution returns an address and changes nothing; the first call through a stub runs the
compile callback; `precompileIR` runs the compile callback of every outstanding stub;
removal discards the compiled module of the name. -/
def JIT.step (j : JIT) : JITOp → JIT
  | .addModule name => if j.isLive name || j.isPending name then j else j.link name
  | .addLazyModule name =>
    if j.isLive name || j.isPending name then j
    else { j with callback_addrs := name :: j.callback_addrs }
  | .getSymbolAddress _ => j
  | .callThrough name => if j.isPending name then j.compileLazy name else j
  | .precompileIR => j.callback_addrs.foldl (fun acc n => acc.compileLazy n) j
  | .removeModule name =>
    { j with live_modules := j.live_modules.filter (fun e => e.1 != name) }

/-- A sequence of operations, from left to right. -/
def JIT.run (j : JIT) (ops : List JITOp) : JIT := ops.foldl JIT.step j

/-! ## Predicates the statements are written with -/

/-- The keys of `mod_map`: the modules that have a definition. -/
def BuildState.keys (st : BuildState) : List Nat := st.mod_map.map Prod.fst

/-- A run of the loop over the instances, with `R` relating the state before and after the
processing of one instance's module. -/
inductive LoopRun (R : Nat → BuildState → BuildState → Prop) :
    List CoreInstance → BuildState → BuildState → Prop
  | nil (s : BuildState) : LoopRun R [] s s
  | cons {c : CoreInstance} {cs : List CoreInstance} {s s1 s2 : BuildState} :
      R c.moduleRef s s1 → LoopRun R cs s1 s2 → LoopRun R (c :: cs) s s2

/-- The state `st2` is `st` with definitions appended and assignments added. -/
def BuildState.Extends (st st2 : BuildState) : Prop :=
  ∃ ks ds, st2.mod_map = ks ++ st.mod_map ∧ st2.definitions = st.definitions ++ ds

/-- Module `a` has a definition with an instance of module `b`. -/
def Child (env : Nat → CoreModule) (a b : Nat) : Prop :=
  ∃ d inst, (env a).getDef = some d ∧ inst ∈ d.instances ∧ inst.moduleRef = b

/-- No module of `S` gets registered between `st` and `st2`, for every set `S` of modules
that are unregistered in `st` and each instantiate `m` or a module of `S`. -/
def KeepsOut (env : Nat → CoreModule) (m : Nat) (st st2 : BuildState) : Prop :=
  ∀ S : Nat → Prop,
    (∀ x, S x → x ∉ st.keys ∧ (Child env x m ∨ ∃ y, S y ∧ Child env x y)) →
    ∀ x, S x → x ∉ st2.keys

/-- Input `b` is input `a` after `n` calls of `connect`. -/
def Input.Bumped (n : Nat) (a b : Input) : Prop :=
  b.name = a.name ∧ b.width = a.width ∧ b.connects = a.connects + n ∧
    (n = 0 → b = a) ∧ (0 < n → b.isConnected = true)

/-- Instance `b` is instance `a` after `n` connection passes over its interface: only the
inputs of the interface changed, each by `n` calls of `connect`. -/
def Instance.Stepped (n : Nat) (a b : Instance) : Prop :=
  b.name = a.name ∧ b.defn = a.defn ∧ b.interface.name = a.interface.name ∧
    b.interface.outputs = a.interface.outputs ∧
    b.interface.is_definition = a.interface.is_definition ∧
    List.Forall₂ (Input.Bumped n) a.interface.inputs b.interface.inputs

/-- How many entries of `cs` the instance map sends to position `k`. -/
def visits (inst_map : UMap String Nat) : List CoreInstance → Nat → Nat
  | [], _ => 0
  | c :: rest, k => (if inst_map.find c.name = some k then 1 else 0) + visits inst_map rest k

/-- The name and width of every input of a list. -/
def inputShapes (l : List Input) : List (String × Int) := l.map (fun i => (i.name, i.width))

/-- Instance `inst` of a definition at position `idx` is the instance made for the entry
`c` of `getInstances()`: it has the entry's name, its definition is registered in `mod_map`
for the entry's module at an earlier position, and its interface mirrors the interface
`GenInterface` gives for that module. -/
def InstanceOf (env : Nat → CoreModule) (mod_map : UMap Nat Nat) (idx : Nat)
    (c : CoreInstance) (inst : Instance) : Prop :=
  inst.name = c.name ∧ inst.defn < idx ∧ (c.moduleRef, inst.defn) ∈ mod_map ∧
    inst.interface.outputs =
      (GenInterface (env c.moduleRef)).1.map (fun i => Value.mk i.name i.width) ∧
    inputShapes inst.interface.inputs =
      (GenInterface (env c.moduleRef)).2.map (fun v => (v.name, v.width))

/-- Definition `dfn`, at position `idx` of the deque, is the one built for module `m`: it
has the module's name, the outputs and the input names and widths of `GenInterface`, and
one instance per entry of `getInstances()` (none for a module without a definition). -/
def BuiltFrom (env : Nat → CoreModule) (mod_map : UMap Nat Nat) (m idx : Nat)
    (dfn : Definition) : Prop :=
  dfn.name = (env m).name ∧ dfn.interface.outputs = (GenInterface (env m)).2 ∧
    inputShapes dfn.interface.inputs = inputShapes (GenInterface (env m)).1 ∧
    match (env m).getDef with
    | none => dfn.instances = []
    | some d => List.Forall₂ (InstanceOf env mod_map idx) d.instances dfn.instances

/-- The build state is a registry: every module is registered once, the registered
positions are the positions of the deque in the order of registration, and the definition
at a registered position is the one built for its module. -/
structure Registry (env : Nat → CoreModule) (st : BuildState) : Prop where
  nodup : st.keys.Nodup
  index : st.mod_map.map Prod.snd = (List.range st.definitions.length).reverse
  built : ∀ m idx, (m, idx) ∈ st.mod_map →
    ∃ dfn, st.definitions[idx]? = some dfn ∧ BuiltFrom env st.mod_map m idx dfn

/-- Module `m` is reachable from `root`: it is `root`, or a module instantiated by the
definition of a reachable module. -/
def Reachable (env : Nat → CoreModule) (root m : Nat) : Prop :=
  Relation.ReflTransGen (Child env) root m

/-- Every module instantiated by a registered module is registered. -/
def Closed (env : Nat → CoreModule) (st : BuildState) : Prop :=
  ∀ a, a ∈ st.keys → ∀ b, Child env a b → b ∈ st.keys

/-- Definition `dfn` has the name of module `m` and the interface `GenInterface` gives for
it: the same outputs, and inputs of the same names and widths. -/
def IsDefinitionOf (env : Nat → CoreModule) (m : Nat) (dfn : Definition) : Prop :=
  dfn.name = (env m).name ∧ dfn.interface.outputs = (GenInterface (env m)).2 ∧
    inputShapes dfn.interface.inputs = inputShapes (GenInterface (env m)).1

/-- Two slices that start alike: same constant payload, same source, same offset. -/
def ValueSlice.SameStart (a b : ValueSlice) : Prop :=
  a.constant = b.constant ∧ a.iface = b.iface ∧ a.val = b.val ∧ a.offset = b.offset

/-- No slice of the list is continued by its successor. -/
def Compacted : List ValueSlice → Prop
  | [] => True
  | [_] => True
  | a :: b :: rest => a.continuedBy b = false ∧ Compacted (b :: rest)

/-- The input `name` of width `width` of the wireable `core_w` has no connected driver: no
wireable is connected to the port as a whole and either the port is not an array, or one
of its indices below `width` does not have exactly one connected wireable. -/
def Dangling (ctx : CoreCtx) (core_w : Wireable) (name : String) (width : Int) : Prop :=
  ctx.core_def.connected (.sel core_w name) = [] ∧
    (ctx.isArrayKind (.sel core_w name) = false ∨
      ∃ i : Nat, (i : Int) < width ∧
        (ctx.core_def.connected (.sel (.sel core_w name) (toString i))).length ≠ 1)

/-- No input of the interface of module `m`, and (when the instances of its definition `d`
have distinct names) no input of an instance of `d`, is dangling. -/
def NoDangling (env : Nat → CoreModule) (m : Nat) (d : ModuleDef) : Prop :=
  (∀ p ∈ (env m).record, p.2.isInput = false →
    ¬ Dangling { env := env, core_mod := env m, core_def := d } .iface p.1
        (toInt p.2.getSize)) ∧
  ((d.instances.map (fun c => c.name)).Nodup →
    ∀ c ∈ d.instances, ∀ p ∈ (env c.moduleRef).record, p.2.isInput = true →
      ¬ Dangling { env := env, core_mod := env m, core_def := d } (.inst c.name) p.1
          (toInt p.2.getSize))

/-- Every registered module with a definition has no dangling input. -/
def Checked (env : Nat → CoreModule) (st : BuildState) : Prop :=
  ∀ m, m ∈ st.keys → ∀ d, (env m).getDef = some d → NoDangling env m d

/-- The input has not been connected: `isConnected` is false and `connect` was never
called on it. -/
def Input.Fresh (i : Input) : Prop := i.isConnected = false ∧ i.connects = 0

/-- The wireable is an element of an array: a select whose parent has an array type, the
case in which `CreateSlice` makes a slice of one bit. -/
def CoreCtx.isElement (ctx : CoreCtx) : Wireable → Bool
  | .sel parent_w _ => ctx.isArrayKind parent_w
  | _ => false

/-- The driver `w` fits a sink of type `t`: it has a type of the size of `t` (CoreIR
connects a wireable to one of the flipped type) and, when it is an element of an array, it
is one bit wide. -/
def Fits (ctx : CoreCtx) (w : Wireable) (t : CType) : Prop :=
  ∃ t2, ctx.getType w = some t2 ∧ t2.getSize = t.getSize ∧
    (ctx.isElement w = true → t2.getSize = 1)

/-- The port `name`, of type `t`, of the wireable `core_w` is wired within what the builder
represents.  The one driver of the whole port, if there is one, fits the port.  When the
port is an array of `len` elements and nothing is connected to it as a whole, it has fewer
than `2^31` bits; if it has more bits than elements, nothing is connected to the element of
index `len`, which the array does not have; and the one driver of an element, if there is
one, fits the element. -/
def PortWired (ctx : CoreCtx) (core_w : Wireable) (name : String) (t : CType) : Prop :=
  (∀ w, ctx.core_def.connected (.sel core_w name) = [w] → Fits ctx w t) ∧
  (ctx.core_def.connected (.sel core_w name) = [] → ∀ len elem, t = .array len elem →
    len * elem.getSize < 2147483648 ∧
    (len < len * elem.getSize →
      ctx.core_def.connected (.sel (.sel core_w name) (toString len)) = []) ∧
    ∀ (i : Nat) w, ctx.core_def.connected (.sel (.sel core_w name) (toString i)) = [w] →
      Fits ctx w elem)

/-- The netlist is well typed, for a builder of bit-level wiring: port names are distinct
in every module and instance names in every definition (both are keys of maps in CoreIR),
and in every definition the ports the builder connects, the outputs of the module and the
inputs of its instances, are wired within what the builder represents. -/
structure WellTyped (env : Nat → CoreModule) : Prop where
  ports_nodup : ∀ m, ((env m).record.map Prod.fst).Nodup
  instances_nodup : ∀ m d, (env m).getDef = some d →
    (d.instances.map (fun c => c.name)).Nodup
  wired_iface : ∀ m d, (env m).getDef = some d → ∀ p ∈ (env m).record,
    p.2.isInput = false →
    PortWired { env := env, core_mod := env m, core_def := d } .iface p.1 p.2
  wired_instances : ∀ m d, (env m).getDef = some d → ∀ c ∈ d.instances,
    ∀ p ∈ (env c.moduleRef).record, p.2.isInput = true →
    PortWired { env := env, core_mod := env m, core_def := d } (.inst c.name) p.1 p.2

/-- The widths of the slices of the select attached to the input, if any, sum to the
declared width of the input. -/
def Input.WidthOK (i : Input) : Prop := ∀ s, i.select = some s → s.totalWidth = i.width

/-- Every input of the definition's own interface and of its instances' interfaces has a
select of its declared width, if it has one. -/
def Definition.WidthOK (dfn : Definition) : Prop :=
  (∀ inp ∈ dfn.interface.inputs, inp.WidthOK) ∧
  ∀ inst ∈ dfn.instances, ∀ inp ∈ inst.interface.inputs, inp.WidthOK

/-- The interfaces a definition is connected in agree with the netlist: the outputs of
the definition's interface are those `GenInterface` gives for the module, and the
instances stand, one for one, for the entries of `getInstances()`, each with the outputs
and the input names and widths its module's ports give. -/
def IFacesAgree (ctx : CoreCtx) (defn_iface : IFace) (instances : List Instance) : Prop :=
  defn_iface.outputs = (GenInterface ctx.core_mod).2 ∧
  List.Forall₂
    (fun c inst =>
      inst.interface.outputs =
        (GenInterface (ctx.env c.moduleRef)).1.map (fun i => Value.mk i.name i.width) ∧
      inputShapes inst.interface.inputs =
        (GenInterface (ctx.env c.moduleRef)).2.map (fun v => (v.name, v.width)))
    ctx.core_def.instances instances

/-- The slice `s` is the slice of the driver `source_w`, with an explicit offset and
width.  The driver is a select and the slice reads a value `v`.  If the driver is not an
element of an array, the slice is the whole of `v`: offset 0 and the width of `v`, which
is the size of the driver's type converted to `int`.  If the driver is element `idx` of an
array of `len` elements, `v` has the size of the array converted to `int` and the slice has
width 1 and the offset `idx` converted to `int`; when the array has more than `idx`
elements, none of them empty, and fewer than `2^31` bits, the offset is `idx` and
`offset + width` does not exceed the width of `v`. -/
def ValueSlice.FromDriver (s : ValueSlice) (ctx : CoreCtx) (source_w : Wireable) : Prop :=
  ∃ parent_w selStr v, source_w = .sel parent_w selStr ∧ s.val = some v ∧
    s.constant = none ∧
    (ctx.isArrayKind parent_w = false →
      s.offset = 0 ∧ s.width = v.width ∧ s.is_whole = true ∧
      s.offset + s.width ≤ v.width ∧
      ∀ t, ctx.getType source_w = some t → v.width = toInt t.getSize) ∧
    (ctx.isArrayKind parent_w = true →
      ∃ idx len elem, stoul selStr = some idx ∧
        ctx.getType parent_w = some (.array len elem) ∧
        v.width = toInt (len * elem.getSize) ∧
        s.offset = toInt idx ∧ s.width = 1 ∧
        (idx < len → 0 < elem.getSize → len * elem.getSize < 2147483648 →
          s.offset = (idx : Int) ∧ s.offset + s.width ≤ v.width))

/-- The module graph under `root` is finite and acyclic: the modules reachable from `root`
are references below `N`, and none of them reaches itself through one or more
instantiations. -/
def Acyclic (env : Nat → CoreModule) (root N : Nat) : Prop :=
  (∀ x, Reachable env root x → x < N) ∧
  ∀ x, Reachable env root x → ¬ Relation.TransGen (Child env) x x

/-! ## Example netlists -/

/-- The `getConnectedWireables()` of a netlist given by its list of connections. -/
def connectedIn (cs : List (Wireable × Wireable)) (w : Wireable) : List Wireable :=
  cs.filterMap (fun c => if c.1 = w then some c.2 else if c.2 = w then some c.1 else none)

/-- A two-input, one-bit AND primitive: a module without a definition. -/
def andModule : CoreModule :=
  { name := "and", record := [("in0", .bitIn), ("in1", .bitIn), ("out", .bit)], getDef := none }

/-- A module that instantiates the AND primitive twice: `out = (a & b) & c`. -/
def and3Def : ModuleDef where
  instances := [⟨"a0", 1⟩, ⟨"a1", 1⟩]
  connected := connectedIn
    [(.sel (.inst "a0") "in0", .sel .iface "a"), (.sel (.inst "a0") "in1", .sel .iface "b"),
     (.sel (.inst "a1") "in0", .sel (.inst "a0") "out"), (.sel (.inst "a1") "in1", .sel .iface "c"),
     (.sel .iface "out", .sel (.inst "a1") "out")]

/-- The module of `and3Def`. -/
def and3Module : CoreModule :=
  { name := "and3", record := [("a", .bitIn), ("b", .bitIn), ("c", .bitIn), ("out", .bit)],
    getDef := some and3Def }

/-- Module 0 is `and3`, every other reference is the AND primitive. -/
def and3Env : Nat → CoreModule := fun n => if n = 0 then and3Module else andModule

/-- The circuit built from `and3`. -/
def and3Circuit : Circuit :=
  match BuildFromCoreIR and3Env 2 0 with
  | .ok c => c
  | .error _ => Circuit.create []

/-- A leaf module with an output `p : Array(0, Bit)` and an input `q : Array(0, BitIn)`,
both of width 0. -/
def zeroLeaf : CoreModule :=
  { name := "leaf", record := [("p", .array 0 .bit), ("q", .array 0 .bitIn)], getDef := none }

/-- The circuit built from `zeroLeaf`. -/
def zeroLeafCircuit : Circuit :=
  match BuildFromCoreIR (fun _ => zeroLeaf) 1 0 with
  | .ok c => c
  | .error _ => Circuit.create []

/-- A module with a definition and one output port of width 0, `p : Array(0, Bit)`. -/
def zeroModule : CoreModule :=
  { name := "zero", record := [("p", .array 0 .bit)],
    getDef := some { instances := [], connected := fun _ => [] } }

/-- Every reference is `zeroModule`. -/
def zeroEnv : Nat → CoreModule := fun _ => zeroModule

/-- The circuit built from `zeroModule`. -/
def zeroCircuit : Circuit :=
  match BuildFromCoreIR zeroEnv 1 0 with
  | .ok c => c
  | .error _ => Circuit.create []

/-- A leaf module with a four-bit output `y : Array(4, Bit)`. -/
def wordSource : CoreModule :=
  { name := "word", record := [("y", .array 4 .bit)], getDef := none }

/-- The definition of `wordPair`: two instances of `wordSource`, each driving one element
of the output `o : Array(2, Array(4, Bit))`. -/
def wordPairDef : ModuleDef where
  instances := [⟨"w0", 1⟩, ⟨"w1", 1⟩]
  connected := connectedIn
    [(.sel (.sel .iface "o") "0", .sel (.inst "w0") "y"),
     (.sel (.sel .iface "o") "1", .sel (.inst "w1") "y")]

/-- A module whose output is an array of two four-bit words, driven word by word. -/
def wordPair : CoreModule :=
  { name := "pair", record := [("o", .array 2 (.array 4 .bit))], getDef := some wordPairDef }

/-- Module 0 is `wordPair`, every other reference is `wordSource`. -/
def wordEnv : Nat → CoreModule := fun n => if n = 0 then wordPair else wordSource

/-- The context `wordPair` is built in. -/
def wordCtx : CoreCtx := { env := wordEnv, core_mod := wordPair, core_def := wordPairDef }

/-- The definition of `bitCopy`: each bit of the output `o` is driven by the same bit of
the input `a`. -/
def bitCopyDef : ModuleDef where
  instances := []
  connected := connectedIn
    [(.sel (.sel .iface "o") "0", .sel (.sel .iface "a") "0"),
     (.sel (.sel .iface "o") "1", .sel (.sel .iface "a") "1"),
     (.sel (.sel .iface "o") "2", .sel (.sel .iface "a") "2")]

/-- A module copying a three-bit input to a three-bit output, bit by bit. -/
def bitCopy : CoreModule :=
  { name := "copy", record := [("a", .array 3 .bitIn), ("o", .array 3 .bit)],
    getDef := some bitCopyDef }

/-- The context `bitCopy` is built in. -/
def bitCopyCtx : CoreCtx := { env := fun _ => bitCopy, core_mod := bitCopy, core_def := bitCopyDef }

/-- The interface of the definition of `bitCopy` at construction. -/
def bitCopyIFace : IFace :=
  { name := "copy", inputs := (GenInterface bitCopy).1, outputs := (GenInterface bitCopy).2,
    is_definition := true }

/-- The slice of bit `i` of the input `a` of `bitCopy`. -/
def bitCopySlice (i : Int) : ValueSlice := ValueSlice.create .defn (Value.mk "a" 3) i 1

/-- A leaf module with an output `o : Array(2, Array(0, Bit))`, an array of two empty
elements, and an empty input `i : Array(0, BitIn)`. -/
def emptyElems : CoreModule :=
  { name := "empty", record := [("o", .array 2 (.array 0 .bit)), ("i", .array 0 .bitIn)],
    getDef := none }

/-- The definition of `emptyTop`: one instance `p` of `emptyElems`, whose input `i` is
driven by element 1 of its output `o`. -/
def emptyTopDef : ModuleDef where
  instances := [⟨"p", 1⟩]
  connected := connectedIn [(.sel (.inst "p") "i", .sel (.sel (.inst "p") "o") "1")]

/-- A module without ports around one instance of `emptyElems`. -/
def emptyTop : CoreModule := { name := "top", record := [], getDef := some emptyTopDef }

/-- Module 0 is `emptyTop`, every other reference is `emptyElems`. -/
def emptyEnv : Nat → CoreModule := fun n => if n = 0 then emptyTop else emptyElems

/-- The context `emptyTop` is built in. -/
def emptyCtx : CoreCtx := { env := emptyEnv, core_mod := emptyTop, core_def := emptyTopDef }

/-- The instance `p` of `emptyTop` as `GenInstances` makes it. -/
def emptyInstance : Instance :=
  (Definition.primitive "empty" (GenInterface emptyElems).1 (GenInterface emptyElems).2).makeInstance
    0 "p"

/-- The interface of the definition of `wordPair` at construction. -/
def wordIFace : IFace :=
  { name := "pair", inputs := (GenInterface wordPair).1, outputs := (GenInterface wordPair).2,
    is_definition := true }

/-- The instances of `wordPair` as `GenInstances` makes them. -/
def wordInstances : List Instance :=
  [(Definition.primitive "word" (GenInterface wordSource).1
      (GenInterface wordSource).2).makeInstance 0 "w0",
   (Definition.primitive "word" (GenInterface wordSource).1
      (GenInterface wordSource).2).makeInstance 0 "w1"]

/-- The interface of the definition of `emptyTop` at construction. -/
def emptyIFace : IFace := { name := "top", inputs := [], outputs := [], is_definition := true }

/-- The circuit built from `emptyTop`. -/
def emptyCircuit : Circuit :=
  match BuildFromCoreIR emptyEnv 2 0 with
  | .ok c => c
  | .error _ => Circuit.create []

/-- A module with a definition whose one-bit output `port` is connected to nothing. -/
def danglingModule (port : String) : CoreModule :=
  { name := "dangling", record := [(port, .bit)],
    getDef := some { instances := [], connected := fun _ => [] } }

/-- Every reference is the module with the dangling output `port`. -/
def danglingEnv (port : String) : Nat → CoreModule := fun _ => danglingModule port

/-- A leaf module with an output `o : Array(3, Array(4, Bit))`, an array of three four-bit
words, and a four-bit input `i : Array(4, BitIn)`. -/
def wordBank : CoreModule :=
  { name := "bank", record := [("o", .array 3 (.array 4 .bit)), ("i", .array 4 .bitIn)],
    getDef := none }

/-- The definition of `bankTop`: one instance `p` of `wordBank`, whose input `i` is driven
by word 2 of its output `o`. -/
def bankTopDef : ModuleDef where
  instances := [⟨"p", 1⟩]
  connected := connectedIn [(.sel (.inst "p") "i", .sel (.sel (.inst "p") "o") "2")]

/-- A module without ports around one instance of `wordBank`. -/
def bankTop : CoreModule := { name := "top", record := [], getDef := some bankTopDef }

/-- Module 0 is `bankTop`, every other reference is `wordBank`. -/
def bankEnv : Nat → CoreModule := fun n => if n = 0 then bankTop else wordBank

/-- The context `bankTop` is built in. -/
def bankCtx : CoreCtx := { env := bankEnv, core_mod := bankTop, core_def := bankTopDef }

/-- The circuit built from `bankTop`. -/
def bankCircuit : Circuit :=
  match BuildFromCoreIR bankEnv 2 0 with
  | .ok c => c
  | .error _ => Circuit.create []

/-- The circuit built from `bitCopy`. -/
def bitCopyCircuit : Circuit :=
  match BuildFromCoreIR (fun _ => bitCopy) 1 0 with
  | .ok c => c
  | .error _ => Circuit.create []

/-- A module with a definition, without instances and without connections, whose two
ports have `2^31 + 1` bits: an input `i : Array(2147483649, BitIn)` and an output
`o : Array(2147483649, Bit)`. -/
def hugeModule : CoreModule :=
  { name := "huge",
    record := [("i", .array 2147483649 .bitIn), ("o", .array 2147483649 .bit)],
    getDef := some { instances := [], connected := fun _ => [] } }

/-- Every reference is `hugeModule`. -/
def hugeEnv : Nat → CoreModule := fun _ => hugeModule

/-- The context `hugeModule` is built in. -/
def hugeCtx : CoreCtx :=
  { env := hugeEnv, core_mod := hugeModule,
    core_def := { instances := [], connected := fun _ => [] } }

/-- The interface of the definition of `hugeModule` at construction. -/
def hugeIFace : IFace :=
  { name := "huge", inputs := (GenInterface hugeModule).1,
    outputs := (GenInterface hugeModule).2, is_definition := true }

/-- The circuit built from `hugeModule`. -/
def hugeCircuit : Circuit :=
  match BuildFromCoreIR hugeEnv 1 0 with
  | .ok c => c
  | .error _ => Circuit.create []

/-- The definition of `wordCopy`: the output `o` is driven, as a whole, by the input `a`. -/
def wordCopyDef : ModuleDef where
  instances := []
  connected := connectedIn [(.sel .iface "o", .sel .iface "a")]

/-- A module copying an array of two two-bit words, `a : Array(2, Array(2, BitIn))`, to its
output `o : Array(2, Array(2, Bit))` by one connection of the whole ports. -/
def wordCopy : CoreModule :=
  { name := "wcopy",
    record := [("a", .array 2 (.array 2 .bitIn)), ("o", .array 2 (.array 2 .bit))],
    getDef := some wordCopyDef }

/-- The circuit built from `wordCopy`. -/
def wordCopyCircuit : Circuit :=
  match BuildFromCoreIR (fun _ => wordCopy) 1 0 with
  | .ok c => c
  | .error _ => Circuit.create []

/-! ## How `ProcessModules` runs -/

theorem find_eq_none_iff (st : BuildState) (m : Nat) :
    st.mod_map.find m = none ↔ m ∉ st.keys := by
  unfold UMap.find BuildState.keys
  induction st.mod_map with
  | nil => simp
  | cons e rest ih =>
    obtain ⟨k, v⟩ := e
    by_cases h : m = k
    · subst h; simp [List.lookup]
    · have h' : (m == k) = false := by simpa using h
      simp [List.lookup, h', ih, h]

theorem processInstances_run (rec : Nat → BuildState → Except BuildError BuildState)
    {R : Nat → BuildState → BuildState → Prop}
    (hR : ∀ m s s1, rec m s = .ok s1 → R m s s1) :
    ∀ (cs : List CoreInstance) (s s2 : BuildState),
      processInstances rec cs s = .ok s2 → LoopRun R cs s s2 := by
  intro cs
  induction cs with
  | nil =>
    intro s s2 h
    simp [processInstances] at h
    subst h
    exact LoopRun.nil s
  | cons c cs ih =>
    intro s s2 h
    simp only [processInstances] at h
    cases hc : rec c.moduleRef s with
    | error e => simp [hc] at h
    | ok s1 =>
      simp only [hc] at h
      exact LoopRun.cons (hR _ _ _ hc) (ih s1 s2 h)

/-- Induction over a successful run of `ProcessModules`: a relation between the module, the
state before and the state after holds of every run when it holds of a module already
registered, of a primitive, and of a composite whose instances' modules were processed. -/
theorem ProcessModules_induct (env : Nat → CoreModule)
    (P : Nat → BuildState → BuildState → Prop)
    (h_hit : ∀ m st, m ∈ st.keys → P m st st)
    (h_prim : ∀ m st, m ∉ st.keys → (env m).getDef = none →
      P m st (ProcessPrimitive (env m) m st))
    (h_comp : ∀ m d st st1 st2, m ∉ st.keys → (env m).getDef = some d →
      LoopRun (fun c s s1 => (∃ fuel, ProcessModules env fuel c s = .ok s1) ∧ P c s s1)
        d.instances st st1 →
      buildComposite env m d st1 = .ok st2 → P m st st2) :
    ∀ fuel m st st2, ProcessModules env fuel m st = .ok st2 → P m st st2 := by
  intro fuel
  induction fuel with
  | zero => intro m st st2 h; simp [ProcessModules] at h
  | succ fuel ih =>
    intro m st st2 h
    simp only [ProcessModules] at h
    cases hf : st.mod_map.find m with
    | some idx =>
      simp only [hf] at h
      have : st = st2 := by simpa using h
      subst this
      apply h_hit
      by_contra hm
      rw [← find_eq_none_iff] at hm
      simp [hm] at hf
    | none =>
      have hm : m ∉ st.keys := (find_eq_none_iff st m).1 hf
      simp only [hf] at h
      cases hd : (env m).getDef with
      | none =>
        simp only [hd] at h
        have : ProcessPrimitive (env m) m st = st2 := by simpa using h
        subst this
        exact h_prim m st hm hd
      | some d =>
        simp only [hd] at h
        cases hl : processInstances (ProcessModules env fuel) d.instances st with
        | error e => simp [hl] at h
        | ok st1 =>
          simp only [hl] at h
          exact h_comp m d st st1 st2 hm hd
            (processInstances_run (ProcessModules env fuel)
              (fun c s s1 hc => ⟨⟨fuel, hc⟩, ih c s s1 hc⟩) d.instances st st1 hl) h

theorem LoopRun.imp {R R' : Nat → BuildState → BuildState → Prop}
    (h : ∀ m s s1, R m s s1 → R' m s s1) :
    ∀ {cs : List CoreInstance} {s s2 : BuildState}, LoopRun R cs s s2 → LoopRun R' cs s s2 := by
  intro cs s s2 hl
  induction hl with
  | nil s => exact LoopRun.nil s
  | cons hr _ ih => exact LoopRun.cons (h _ _ _ hr) ih

theorem BuildState.Extends.refl (st : BuildState) : st.Extends st := ⟨[], [], by simp, by simp⟩

theorem BuildState.Extends.trans {a b c : BuildState} (h1 : a.Extends b) (h2 : b.Extends c) :
    a.Extends c := by
  obtain ⟨k1, d1, e1, f1⟩ := h1
  obtain ⟨k2, d2, e2, f2⟩ := h2
  exact ⟨k2 ++ k1, d1 ++ d2, by simp [e2, e1], by simp [f2, f1]⟩

theorem BuildState.Extends.keys_subset {a b : BuildState} (h : a.Extends b) :
    ∀ x, x ∈ a.keys → x ∈ b.keys := by
  obtain ⟨k, d, e, f⟩ := h
  intro x hx
  simp only [BuildState.keys, e, List.map_append, List.mem_append]
  exact Or.inr hx

theorem BuildState.Extends.getElem? {a b : BuildState} (h : a.Extends b) {i : Nat}
    {d : Definition} (hd : a.definitions[i]? = some d) : b.definitions[i]? = some d := by
  obtain ⟨k, ds, e, f⟩ := h
  rw [f]
  have hi : i < a.definitions.length := by
    by_contra hc
    rw [List.getElem?_eq_none (by omega)] at hd
    cases hd
  rw [List.getElem?_append_left hi]
  exact hd

/-- What a successful `buildComposite` did. -/
theorem buildComposite_ok {env : Nat → CoreModule} {m : Nat} {d : ModuleDef}
    {st st2 : BuildState} (h : buildComposite env m d st = .ok st2) :
    ∃ insts0 imap iface insts,
      GenInstances d st.definitions st.mod_map = .ok (insts0, imap) ∧
      SetupModuleConnections { env := env, core_mod := env m, core_def := d }
        { name := (env m).name, inputs := (GenInterface (env m)).1,
          outputs := (GenInterface (env m)).2, is_definition := true } insts0 imap
        = .ok (iface, insts) ∧
      st2 = { definitions := st.definitions ++
                [{ name := (env m).name, interface := iface, instances := insts }]
              mod_map := (m, st.definitions.length) :: st.mod_map } := by
  unfold buildComposite at h
  cases hg : GenInstances d st.definitions st.mod_map with
  | error e => simp [hg] at h
  | ok p =>
    obtain ⟨insts0, imap⟩ := p
    simp only [hg] at h
    unfold Definition.composite at h
    cases hs : SetupModuleConnections { env := env, core_mod := env m, core_def := d }
        { name := (env m).name, inputs := (GenInterface (env m)).1,
          outputs := (GenInterface (env m)).2, is_definition := true } insts0 imap with
    | error e => simp [hs] at h
    | ok q =>
      obtain ⟨iface, insts⟩ := q
      simp only [hs] at h
      refine ⟨insts0, imap, iface, insts, rfl, hs, ?_⟩
      simpa [UMap.assign] using h.symm

theorem buildComposite_extends {env : Nat → CoreModule} {m : Nat} {d : ModuleDef}
    {st st2 : BuildState} (h : buildComposite env m d st = .ok st2) :
    st.Extends st2 ∧ st2.keys = m :: st.keys := by
  obtain ⟨_, _, iface, insts, _, _, e⟩ := buildComposite_ok h
  subst e
  exact ⟨⟨[(m, st.definitions.length)], [_], rfl, rfl⟩, rfl⟩

theorem ProcessPrimitive_extends (cm : CoreModule) (m : Nat) (st : BuildState) :
    st.Extends (ProcessPrimitive cm m st) ∧ (ProcessPrimitive cm m st).keys = m :: st.keys :=
  ⟨⟨[(m, st.definitions.length)], [_], rfl, rfl⟩, rfl⟩

theorem LoopRun.extends {R : Nat → BuildState → BuildState → Prop}
    (h : ∀ m s s1, R m s s1 → s.Extends s1) :
    ∀ {cs : List CoreInstance} {s s2 : BuildState}, LoopRun R cs s s2 → s.Extends s2 := by
  intro cs s s2 hl
  induction hl with
  | nil s => exact BuildState.Extends.refl s
  | cons hr _ ih => exact (h _ _ _ hr).trans ih

/-- A successful run of `ProcessModules` only adds to the state, and leaves the module
registered. -/
theorem ProcessModules_extends (env : Nat → CoreModule) :
    ∀ fuel m st st2, ProcessModules env fuel m st = .ok st2 →
      st.Extends st2 ∧ m ∈ st2.keys := by
  apply ProcessModules_induct env (fun m st st2 => st.Extends st2 ∧ m ∈ st2.keys)
  · intro m st hm
    exact ⟨BuildState.Extends.refl st, hm⟩
  · intro m st _ _
    obtain ⟨h1, h2⟩ := ProcessPrimitive_extends (env m) m st
    exact ⟨h1, by simp [h2]⟩
  · intro m d st st1 st2 _ _ hl hb
    obtain ⟨h1, h2⟩ := buildComposite_extends hb
    exact ⟨(LoopRun.extends (fun _ _ _ hr => hr.2.1) hl).trans h1, by simp [h2]⟩

theorem LoopRun.keepsOut (env : Nat → CoreModule)
    {R : Nat → BuildState → BuildState → Prop}
    (hin : ∀ m s s1, R m s s1 → m ∈ s1.keys)
    (hout : ∀ m s s1, R m s s1 → KeepsOut env m s s1) :
    ∀ {cs : List CoreInstance} {s s2 : BuildState}, LoopRun R cs s s2 →
      ∀ S : Nat → Prop,
        (∀ x, S x → x ∉ s.keys ∧
          ((∀ c ∈ cs, Child env x c.moduleRef) ∨ ∃ y, S y ∧ Child env x y)) →
        (∀ x, S x → x ∉ s2.keys) ∧ ∀ c ∈ cs, ¬ S c.moduleRef := by
  intro cs s s2 hl
  induction hl with
  | nil s =>
    intro S hS
    exact ⟨fun x hx => (hS x hx).1, by simp⟩
  | @cons c cs s s1 s2 hr _ ih =>
    intro S hS
    have h1 : ∀ x, S x → x ∉ s1.keys := by
      apply hout _ _ _ hr S
      intro x hx
      refine ⟨(hS x hx).1, ?_⟩
      rcases (hS x hx).2 with h | h
      · exact Or.inl (h c (by simp))
      · exact Or.inr h
    have h2 := ih S (fun x hx => ⟨h1 x hx, by
      rcases (hS x hx).2 with h | h
      · exact Or.inl (fun c' hc' => h c' (by simp [hc']))
      · exact Or.inr h⟩)
    refine ⟨h2.1, ?_⟩
    intro c' hc'
    rcases List.mem_cons.1 hc' with e | e
    · subst e
      intro hSc
      exact h1 _ hSc (hin _ _ _ hr)
    · exact h2.2 c' e

/-- A successful run of `ProcessModules` registers no module that was waiting for it:
the run of a module on a cycle of unregistered modules cannot succeed. -/
theorem ProcessModules_keepsOut (env : Nat → CoreModule) :
    ∀ fuel m st st2, ProcessModules env fuel m st = .ok st2 → KeepsOut env m st st2 := by
  apply ProcessModules_induct env (KeepsOut env)
  · intro m st _ S hS x hx
    exact (hS x hx).1
  · intro m st _ hd S hS x hx
    rw [(ProcessPrimitive_extends (env m) m st).2]
    have hne : x ≠ m := by
      rintro rfl
      rcases (hS x hx).2 with ⟨d, _, h, _⟩ | ⟨_, _, d, _, h, _⟩ <;> simp [hd] at h
    simp [hne, (hS x hx).1]
  · intro m d st st1 st2 hm hd hl hb S hS x hx
    rw [(buildComposite_extends hb).2]
    have key := LoopRun.keepsOut env
      (fun c s s1 (hr : (∃ fuel, ProcessModules env fuel c s = .ok s1) ∧ KeepsOut env c s s1) => by
        obtain ⟨⟨fuel, hrun⟩, _⟩ := hr
        exact (ProcessModules_extends env fuel c s s1 hrun).2)
      (fun c s s1 hr => hr.2) hl (fun y => S y ∨ y = m)
      (by
        intro y hy
        rcases hy with hy | rfl
        · refine ⟨(hS y hy).1, Or.inr ?_⟩
          rcases (hS y hy).2 with h | ⟨z, hz, h⟩
          · exact ⟨m, Or.inr rfl, h⟩
          · exact ⟨z, Or.inl hz, h⟩
        · exact ⟨hm, Or.inl (fun c hc => ⟨d, c, hd, hc, rfl⟩)⟩)
    have hne : x ≠ m := by
      rintro rfl
      rcases (hS x hx).2 with ⟨d', inst, h1, h2, h3⟩ | ⟨y, hy, d', inst, h1, h2, h3⟩
      · rw [hd] at h1
        cases h1
        exact key.2 inst h2 (Or.inr h3)
      · rw [hd] at h1
        cases h1
        exact key.2 inst h2 (Or.inl (h3 ▸ hy))
    simp [hne, key.1 x (Or.inl hx)]

/-- After the loop over the instances of an unregistered module, the module is still
unregistered. -/
theorem LoopRun.not_mem_keys {env : Nat → CoreModule} {m : Nat} {d : ModuleDef}
    {st st1 : BuildState} (hm : m ∉ st.keys) (hd : (env m).getDef = some d)
    (hl : LoopRun (fun c s s1 => ∃ fuel, ProcessModules env fuel c s = .ok s1)
      d.instances st st1) : m ∉ st1.keys := by
  have key := LoopRun.keepsOut env
    (fun c s s1 (hr : ∃ fuel, ProcessModules env fuel c s = .ok s1) => by
      obtain ⟨fuel, hrun⟩ := hr
      exact (ProcessModules_extends env fuel c s s1 hrun).2)
    (fun c s s1 hr => by
      obtain ⟨fuel, hrun⟩ := hr
      exact ProcessModules_keepsOut env fuel c s s1 hrun) hl (fun y => y = m)
    (by
      rintro y rfl
      exact ⟨hm, Or.inl (fun c hc => ⟨d, c, hd, hc, rfl⟩)⟩)
  exact key.1 m rfl

/-! ## What the connection pass does to an interface -/

theorem connectInput_ok {ctx : CoreCtx} {core_w : Wireable} {defn_iface : IFace}
    {instances : List Instance} {inst_map : UMap String Nat} {inp inp2 : Input}
    (h : connectInput ctx core_w defn_iface instances inst_map inp = .ok inp2) :
    ∃ s, inp2 = inp.connect s := by
  unfold connectInput at h
  split at h
  · split at h
    · split at h
      · exact ⟨_, by simpa using h.symm⟩
      · simp at h
    · simp at h
  · split at h
    · exact ⟨_, by simpa using h.symm⟩
    · simp at h
  · simp at h

theorem connectInputs_ok {ctx : CoreCtx} {core_w : Wireable} {defn_iface : IFace}
    {instances : List Instance} {inst_map : UMap String Nat} :
    ∀ {inputs inputs2 : List Input},
      connectInputs ctx core_w defn_iface instances inst_map inputs = .ok inputs2 →
      List.Forall₂ (fun a b => ∃ s, b = a.connect s) inputs inputs2 := by
  intro inputs
  induction inputs with
  | nil =>
    intro inputs2 h
    simp [connectInputs] at h
    subst h
    exact List.Forall₂.nil
  | cons a rest ih =>
    intro inputs2 h
    simp only [connectInputs] at h
    cases h1 : connectInput ctx core_w defn_iface instances inst_map a with
    | error e => simp [h1] at h
    | ok b =>
      simp only [h1] at h
      cases h2 : connectInputs ctx core_w defn_iface instances inst_map rest with
      | error e => simp [h2] at h
      | ok bs =>
        simp only [h2] at h
        have : inputs2 = b :: bs := by simpa using h.symm
        subst this
        exact List.Forall₂.cons (connectInput_ok h1) (ih h2)

theorem SetupIFaceConnections_ok {ctx : CoreCtx} {core_w : Wireable} {iface defn_iface : IFace}
    {instances : List Instance} {inst_map : UMap String Nat} {iface2 : IFace}
    (h : SetupIFaceConnections ctx core_w iface defn_iface instances inst_map = .ok iface2) :
    iface2.name = iface.name ∧ iface2.outputs = iface.outputs ∧
      iface2.is_definition = iface.is_definition ∧
      connectInputs ctx core_w defn_iface instances inst_map iface.inputs = .ok iface2.inputs := by
  unfold SetupIFaceConnections at h
  cases h1 : connectInputs ctx core_w defn_iface instances inst_map iface.inputs with
  | error e => simp [h1] at h
  | ok inputs =>
    simp only [h1] at h
    have : iface2 = { iface with inputs := inputs } := by simpa using h.symm
    subst this
    exact ⟨rfl, rfl, rfl, rfl⟩

theorem Input.Bumped.zero_calls (a : Input) : Input.Bumped 0 a a :=
  ⟨rfl, rfl, rfl, fun _ => rfl, fun h => absurd h (by decide)⟩

theorem Input.Bumped.connect (a : Input) (s : Select) : Input.Bumped 1 a (a.connect s) :=
  ⟨rfl, rfl, rfl, fun h => absurd h (by decide), fun _ => rfl⟩

theorem Input.Bumped.add_calls {n k : Nat} {a b c : Input} (hab : Input.Bumped n a b)
    (hbc : Input.Bumped k b c) : Input.Bumped (n + k) a c := by
  unfold Input.Bumped at hab hbc ⊢
  refine ⟨by rw [hbc.1, hab.1], by rw [hbc.2.1, hab.2.1], by rw [hbc.2.2.1, hab.2.2.1]; omega,
    ?_, ?_⟩
  · intro hz
    rw [hbc.2.2.2.1 (by omega), hab.2.2.2.1 (by omega)]
  · intro hpos
    by_cases hk : k = 0
    · rw [hbc.2.2.2.1 hk]
      exact hab.2.2.2.2 (by omega)
    · exact hbc.2.2.2.2 (by omega)

theorem forall₂_bumped_zero (l : List Input) : List.Forall₂ (Input.Bumped 0) l l := by
  induction l with
  | nil => exact List.Forall₂.nil
  | cons a l ih => exact List.Forall₂.cons (Input.Bumped.zero_calls a) ih

theorem forall₂_bumped_trans {n k : Nat} :
    ∀ {l1 l2 l3 : List Input}, List.Forall₂ (Input.Bumped n) l1 l2 →
      List.Forall₂ (Input.Bumped k) l2 l3 → List.Forall₂ (Input.Bumped (n + k)) l1 l3 := by
  intro l1 l2 l3 h1
  induction h1 generalizing l3 with
  | nil =>
    intro h2
    cases h2
    exact List.Forall₂.nil
  | cons hab _ ih =>
    intro h2
    cases h2 with
    | cons hbc hrest => exact List.Forall₂.cons (hab.add_calls hbc) (ih hrest)

theorem connectInputs_bumped {ctx : CoreCtx} {core_w : Wireable} {defn_iface : IFace}
    {instances : List Instance} {inst_map : UMap String Nat} {inputs inputs2 : List Input}
    (h : connectInputs ctx core_w defn_iface instances inst_map inputs = .ok inputs2) :
    List.Forall₂ (Input.Bumped 1) inputs inputs2 := by
  have h1 := connectInputs_ok h
  refine List.Forall₂.imp ?_ h1
  rintro a b ⟨s, rfl⟩
  exact Input.Bumped.connect a s

theorem Instance.Stepped.zero_passes (a : Instance) : Instance.Stepped 0 a a :=
  ⟨rfl, rfl, rfl, rfl, rfl, forall₂_bumped_zero _⟩

theorem Instance.Stepped.add_passes {n k : Nat} {a b c : Instance}
    (hab : Instance.Stepped n a b) (hbc : Instance.Stepped k b c) :
    Instance.Stepped (n + k) a c := by
  unfold Instance.Stepped at hab hbc ⊢
  refine ⟨by rw [hbc.1, hab.1], by rw [hbc.2.1, hab.2.1], by rw [hbc.2.2.1, hab.2.2.1],
    by rw [hbc.2.2.2.1, hab.2.2.2.1], by rw [hbc.2.2.2.2.1, hab.2.2.2.2.1], ?_⟩
  exact forall₂_bumped_trans hab.2.2.2.2.2 hbc.2.2.2.2.2

/-- The loop over the instances changes nothing but the inputs of the instances'
interfaces: the instance at position `k` has had one connection pass for each entry the
instance map sends to `k`. -/
theorem setupInstances_spec {ctx : CoreCtx} {defn_iface : IFace} {inst_map : UMap String Nat} :
    ∀ (cs : List CoreInstance) (instances insts2 : List Instance),
      setupInstances ctx defn_iface inst_map cs instances = .ok insts2 →
      insts2.length = instances.length ∧
      ∀ k a, instances[k]? = some a →
        ∃ b, insts2[k]? = some b ∧ Instance.Stepped (visits inst_map cs k) a b := by
  intro cs
  induction cs with
  | nil =>
    intro instances insts2 h
    simp [setupInstances] at h
    subst h
    exact ⟨rfl, fun k a ha => ⟨a, ha, Instance.Stepped.zero_passes a⟩⟩
  | cons c rest ih =>
    intro instances insts2 h
    simp only [setupInstances] at h
    cases hf : inst_map.find c.name with
    | none => simp [hf] at h
    | some k0 =>
      simp only [hf] at h
      cases hj : instances[k0]? with
      | none => simp [hj] at h
      | some jitinst =>
        simp only [hj] at h
        cases hs : SetupIFaceConnections ctx (.inst c.name) jitinst.interface defn_iface
            instances inst_map with
        | error e => simp [hs] at h
        | ok iface =>
          simp only [hs] at h
          obtain ⟨hlen, hall⟩ := ih _ _ h
          obtain ⟨s1, s2, s3, s4⟩ := SetupIFaceConnections_ok hs
          have hk0 : k0 < instances.length := by
            by_contra hc
            rw [List.getElem?_eq_none (by omega)] at hj
            cases hj
          refine ⟨by simpa using hlen, ?_⟩
          intro k a ha
          by_cases hk : k0 = k
          · subst hk
            rw [hj] at ha
            cases ha
            obtain ⟨b, hb, hst⟩ := hall k0 { jitinst with interface := iface }
              (by simp [List.getElem?_set, hk0])
            refine ⟨b, hb, ?_⟩
            have h1 : Instance.Stepped 1 jitinst { jitinst with interface := iface } :=
              ⟨rfl, rfl, s1, s2, s3, connectInputs_bumped s4⟩
            simpa [visits, hf] using h1.add_passes hst
          · obtain ⟨b, hb, hst⟩ := hall k a (by simp [List.getElem?_set, hk, ha])
            refine ⟨b, hb, ?_⟩
            have hne : ¬ (some k0 = some k) := by simpa using hk
            simpa [visits, hf, hne] using hst

/-! ## Lists and maps -/

theorem forall₂_of_pointwise {α β : Type} {R : α → β → Prop} :
    ∀ (l1 : List α) (l2 : List β), l2.length = l1.length →
      (∀ (k : Nat) a, l1[k]? = some a → ∃ b, l2[k]? = some b ∧ R a b) → List.Forall₂ R l1 l2 := by
  intro l1
  induction l1 with
  | nil =>
    intro l2 hlen _
    cases l2 with
    | nil => exact List.Forall₂.nil
    | cons b l2 => simp at hlen
  | cons a l1 ih =>
    intro l2 hlen h
    cases l2 with
    | nil => simp at hlen
    | cons b l2 =>
      obtain ⟨b', hb', hr⟩ := h 0 a (by simp)
      simp at hb'
      subst hb'
      refine List.Forall₂.cons hr (ih l2 (by simpa using hlen) ?_)
      intro k a' ha'
      simpa using h (k + 1) a' (by simpa using ha')

theorem forall₂_pointwise {α β : Type} {R : α → β → Prop} :
    ∀ {l1 : List α} {l2 : List β}, List.Forall₂ R l1 l2 →
      ∀ (k : Nat) a, l1[k]? = some a → ∃ b, l2[k]? = some b ∧ R a b := by
  intro l1 l2 h
  induction h with
  | nil => intro k a ha; simp at ha
  | cons hr _ ih =>
    intro k a ha
    cases k with
    | zero =>
      simp at ha
      subst ha
      exact ⟨_, by simp, hr⟩
    | succ k => simpa using ih k a (by simpa using ha)

theorem lookup_mem {κ ν : Type} [BEq κ] [LawfulBEq κ] {k : κ} {v : ν} :
    ∀ {l : List (κ × ν)}, List.lookup k l = some v → (k, v) ∈ l := by
  intro l
  induction l with
  | nil => intro h; simp at h
  | cons e rest ih =>
    obtain ⟨k', v'⟩ := e
    intro h
    by_cases hk : k = k'
    · subst hk
      simp [List.lookup] at h
      subst h
      simp
    · have : (k == k') = false := by simpa using hk
      simp [List.lookup, this] at h
      exact List.mem_cons_of_mem _ (ih h)

theorem mem_lookup {κ ν : Type} [BEq κ] [LawfulBEq κ] {k : κ} {v : ν} :
    ∀ {l : List (κ × ν)}, (l.map Prod.fst).Nodup → (k, v) ∈ l → List.lookup k l = some v := by
  intro l
  induction l with
  | nil => intro _ h; simp at h
  | cons e rest ih =>
    obtain ⟨k', v'⟩ := e
    intro hnd h
    simp only [List.map_cons, List.nodup_cons] at hnd
    rcases List.mem_cons.1 h with e | e
    · cases e
      simp [List.lookup]
    · have hk : k ≠ k' := by
        rintro rfl
        exact hnd.1 (List.mem_map.2 ⟨(k, v), e, rfl⟩)
      have : (k == k') = false := by simpa using hk
      simp [List.lookup, this]
      exact ih hnd.2 e

/-! ## The instances of a definition -/

theorem genInstancesLoop_spec {definitions : List Definition} {mod_map : UMap Nat Nat} :
    ∀ {cs : List CoreInstance} {insts : List Instance},
      genInstancesLoop definitions mod_map cs = .ok insts →
      List.Forall₂ (fun c inst => ∃ idx defn, mod_map.find c.moduleRef = some idx ∧
        definitions[idx]? = some defn ∧ inst = defn.makeInstance idx c.name) cs insts := by
  intro cs
  induction cs with
  | nil =>
    intro insts h
    simp [genInstancesLoop] at h
    subst h
    exact List.Forall₂.nil
  | cons c rest ih =>
    intro insts h
    simp only [genInstancesLoop] at h
    cases hf : mod_map.find c.moduleRef with
    | none => simp [hf] at h
    | some idx =>
      simp only [hf] at h
      cases hd : definitions[idx]? with
      | none => simp [hd] at h
      | some defn =>
        simp only [hd] at h
        cases hr : genInstancesLoop definitions mod_map rest with
        | error e => simp [hr] at h
        | ok insts' =>
          simp only [hr] at h
          have : insts = defn.makeInstance idx c.name :: insts' := by simpa using h.symm
          subst this
          exact List.Forall₂.cons ⟨idx, defn, hf, hd, rfl⟩ (ih hr)

theorem genInstanceMap_foldl (cs : List CoreInstance) :
    ∀ n, n ≤ cs.length →
      (List.range n).foldl
        (fun (m : UMap String Nat) i =>
          match cs[i]? with
          | some ci => m.assign ci.name i
          | none => m) []
      = ((cs.take n).enum.map (fun p => (p.2.name, p.1))).reverse := by
  intro n
  induction n with
  | zero => intro _; simp
  | succ n ih =>
    intro hn
    have hlt : n < cs.length := by omega
    rw [List.range_succ, List.foldl_append, ih (by omega)]
    simp only [List.foldl_cons, List.foldl_nil]
    rw [List.getElem?_eq_getElem hlt]
    simp only [UMap.assign]
    have ht : List.take (n + 1) cs = List.take n cs ++ [cs[n]] := by
      rw [List.take_succ, List.getElem?_eq_getElem hlt]
      rfl
    rw [ht, List.enum_append, List.map_append, List.reverse_append]
    simp only [List.enumFrom_singleton, List.map_cons, List.map_nil, List.reverse_cons,
      List.reverse_nil, List.nil_append, List.singleton_append, List.length_take, zero_add,
      Nat.min_eq_left (Nat.le_of_lt hlt)]

theorem genInstanceMap_eq (cs : List CoreInstance) :
    genInstanceMap cs = (cs.enum.map (fun p => (p.2.name, p.1))).reverse := by
  unfold genInstanceMap
  rw [genInstanceMap_foldl cs cs.length (Nat.le_refl _), List.take_length]

theorem genInstanceMap_find {cs : List CoreInstance}
    (hnd : (cs.map (fun c => c.name)).Nodup) {j : Nat} {c : CoreInstance}
    (hj : cs[j]? = some c) : (genInstanceMap cs).find c.name = some j := by
  unfold UMap.find
  rw [genInstanceMap_eq]
  apply mem_lookup
  · rw [List.map_reverse, List.map_map, List.nodup_reverse]
    have : (Prod.fst ∘ fun p : Nat × CoreInstance => (p.2.name, p.1))
        = (fun c : CoreInstance => c.name) ∘ Prod.snd := by
      funext p; rfl
    rw [this, ← List.map_map, List.enum_map_snd]
    exact hnd
  · rw [List.mem_reverse, List.mem_map]
    exact ⟨(j, c), List.mk_mem_enum_iff_getElem?.2 hj, rfl⟩

theorem SetupModuleConnections_ok {ctx : CoreCtx} {defn_iface : IFace}
    {instances : List Instance} {inst_map : UMap String Nat} {iface : IFace}
    {insts : List Instance}
    (h : SetupModuleConnections ctx defn_iface instances inst_map = .ok (iface, insts)) :
    setupInstances ctx defn_iface inst_map ctx.core_def.instances instances = .ok insts ∧
      SetupIFaceConnections ctx .iface defn_iface defn_iface insts inst_map = .ok iface := by
  unfold SetupModuleConnections at h
  cases h1 : setupInstances ctx defn_iface inst_map ctx.core_def.instances instances with
  | error e => simp [h1] at h
  | ok insts' =>
    simp only [h1] at h
    cases h2 : SetupIFaceConnections ctx .iface defn_iface defn_iface insts' inst_map with
    | error e => simp [h2] at h
    | ok iface' =>
      simp only [h2] at h
      have : iface' = iface ∧ insts' = insts := by simpa using h
      obtain ⟨rfl, rfl⟩ := this
      exact ⟨rfl, h2⟩

theorem inputShapes_of_bumped {n : Nat} {l1 l2 : List Input}
    (h : List.Forall₂ (Input.Bumped n) l1 l2) : inputShapes l2 = inputShapes l1 := by
  induction h with
  | nil => rfl
  | cons hab _ ih =>
    simp only [inputShapes, List.map_cons] at ih ⊢
    rw [ih, hab.1, hab.2.1]

/-! ## The registry of definitions -/

theorem InstanceOf.stepped {env : Nat → CoreModule} {mod_map : UMap Nat Nat} {idx n : Nat}
    {c : CoreInstance} {a b : Instance} (h : InstanceOf env mod_map idx c a)
    (hs : Instance.Stepped n a b) : InstanceOf env mod_map idx c b := by
  obtain ⟨h1, h2, h3, h4, h5⟩ := h
  obtain ⟨s1, s2, _, s4, _, s6⟩ := hs
  exact ⟨s1.trans h1, s2 ▸ h2, s2 ▸ h3, s4.trans h4, (inputShapes_of_bumped s6).trans h5⟩

theorem InstanceOf.mono_map {env : Nat → CoreModule} {mm mm2 : UMap Nat Nat} {idx : Nat}
    {c : CoreInstance} {a : Instance} (hsub : ∀ e, e ∈ mm → e ∈ mm2)
    (h : InstanceOf env mm idx c a) : InstanceOf env mm2 idx c a := by
  obtain ⟨h1, h2, h3, h4, h5⟩ := h
  exact ⟨h1, h2, hsub _ h3, h4, h5⟩

theorem BuiltFrom.mono {env : Nat → CoreModule} {mm mm2 : UMap Nat Nat} {m idx : Nat}
    {dfn : Definition} (hsub : ∀ e, e ∈ mm → e ∈ mm2) (h : BuiltFrom env mm m idx dfn) :
    BuiltFrom env mm2 m idx dfn := by
  obtain ⟨h1, h2, h3, h4⟩ := h
  refine ⟨h1, h2, h3, ?_⟩
  cases hd : (env m).getDef with
  | none => simpa [hd] using h4
  | some d =>
    simp only [hd] at h4 ⊢
    exact List.Forall₂.imp (fun _ _ hi => hi.mono_map hsub) h4

theorem Registry.find_built {env : Nat → CoreModule} {st : BuildState} (hreg : Registry env st)
    {m idx : Nat} (h : st.mod_map.find m = some idx) :
    ∃ dfn, st.definitions[idx]? = some dfn ∧ BuiltFrom env st.mod_map m idx dfn :=
  hreg.built m idx (lookup_mem h)

theorem Registry.empty (env : Nat → CoreModule) :
    Registry env { definitions := [], mod_map := [] } :=
  ⟨by simp [BuildState.keys], by simp, by simp⟩

/-- Appending the definition built for an unregistered module keeps the registry. -/
theorem Registry.push {env : Nat → CoreModule} {st : BuildState} (hreg : Registry env st)
    {m : Nat} (hm : m ∉ st.keys) {dfn : Definition}
    (hb : BuiltFrom env ((m, st.definitions.length) :: st.mod_map) m st.definitions.length dfn) :
    Registry env { definitions := st.definitions ++ [dfn]
                   mod_map := (m, st.definitions.length) :: st.mod_map } := by
  refine ⟨?_, ?_, ?_⟩
  · simpa [BuildState.keys] using ⟨by simpa [BuildState.keys] using hm, hreg.nodup⟩
  · simp [hreg.index, List.range_succ]
  · intro x idx hx
    rcases List.mem_cons.1 hx with e | e
    · cases e
      exact ⟨dfn, by simp, hb⟩
    · obtain ⟨dfn', h1, h2⟩ := hreg.built x idx e
      have hlt : idx < st.definitions.length := by
        by_contra hc
        rw [List.getElem?_eq_none (by omega)] at h1
        cases h1
      refine ⟨dfn', ?_, h2.mono (fun e he => List.mem_cons_of_mem _ he)⟩
      show (st.definitions ++ [dfn])[idx]? = some dfn'
      rw [List.getElem?_append_left hlt]
      exact h1

theorem makeInstance_instanceOf {env : Nat → CoreModule} {st : BuildState}
    (hreg : Registry env st) {c : CoreInstance} {idx : Nat} {defn : Definition}
    (hf : st.mod_map.find c.moduleRef = some idx) (hd : st.definitions[idx]? = some defn) :
    InstanceOf env st.mod_map st.definitions.length c (defn.makeInstance idx c.name) := by
  obtain ⟨dfn', h1, h2, h3, h4, _⟩ := hreg.find_built hf
  rw [hd] at h1
  cases h1
  have hlt : idx < st.definitions.length := by
    by_contra hc
    rw [List.getElem?_eq_none (by omega)] at hd
    cases hd
  refine ⟨rfl, hlt, lookup_mem hf, ?_, ?_⟩
  · show defn.interface.inputs.map (fun i => Value.mk i.name i.width) = _
    have e1 : ∀ l : List Input, l.map (fun i => Value.mk i.name i.width)
        = (inputShapes l).map (fun p => Value.mk p.1 p.2) := by
      intro l; simp [inputShapes]
    rw [e1, e1, h4]
  · show inputShapes (defn.interface.outputs.map (fun v => Input.create v.name v.width)) = _
    rw [h3]
    simp [inputShapes, Input.create]

/-- What a successful `buildComposite` appends, from a registry: the definition of the
module, with one instance per entry of `getInstances()`, each the instance `GenInstances`
made with as many connection passes over its interface as the instance map sends entries
to its position, and with the inputs of `GenInterface` connected once. -/
theorem buildComposite_spec {env : Nat → CoreModule} {m : Nat} {d : ModuleDef}
    {st st2 : BuildState} (hreg : Registry env st)
    (h : buildComposite env m d st = .ok st2) :
    ∃ insts0 dfn,
      GenInstances d st.definitions st.mod_map = .ok (insts0, genInstanceMap d.instances) ∧
      st2 = { definitions := st.definitions ++ [dfn]
              mod_map := (m, st.definitions.length) :: st.mod_map } ∧
      dfn.name = (env m).name ∧
      dfn.interface.outputs = (GenInterface (env m)).2 ∧
      List.Forall₂ (Input.Bumped 1) (GenInterface (env m)).1 dfn.interface.inputs ∧
      List.Forall₂ (InstanceOf env st.mod_map st.definitions.length) d.instances insts0 ∧
      List.Forall₂ (fun inst0 inst => ∃ k, insts0[k]? = some inst0 ∧
          Instance.Stepped (visits (genInstanceMap d.instances) d.instances k) inst0 inst)
        insts0 dfn.instances := by
  obtain ⟨insts0, imap, iface, insts, hg, hs, e⟩ := buildComposite_ok h
  unfold GenInstances at hg
  cases hl : genInstancesLoop st.definitions st.mod_map d.instances with
  | error e => simp [hl] at hg
  | ok insts0' =>
    simp only [hl] at hg
    have hh : insts0' = insts0 ∧ genInstanceMap d.instances = imap := by simpa using hg
    obtain ⟨rfl, rfl⟩ := hh
    obtain ⟨hs1, hs2⟩ := SetupModuleConnections_ok hs
    obtain ⟨i1, i2, i3, i4⟩ := SetupIFaceConnections_ok hs2
    obtain ⟨hlen, hall⟩ := setupInstances_spec _ _ _ hs1
    refine ⟨insts0', { name := (env m).name, interface := iface, instances := insts },
      by simp [GenInstances, hl], e, rfl, i2, connectInputs_bumped i4, ?_, ?_⟩
    · refine List.Forall₂.imp ?_ (genInstancesLoop_spec hl)
      rintro c inst ⟨idx, defn, hf, hd, rfl⟩
      exact makeInstance_instanceOf hreg hf hd
    · apply forall₂_of_pointwise _ _ hlen
      intro k a ha
      obtain ⟨b, hb, hst⟩ := hall k a ha
      exact ⟨b, hb, k, ha, hst⟩

theorem buildComposite_registry {env : Nat → CoreModule} {m : Nat} {d : ModuleDef}
    {st st2 : BuildState} (hreg : Registry env st) (hm : m ∉ st.keys)
    (hd : (env m).getDef = some d) (h : buildComposite env m d st = .ok st2) :
    Registry env st2 := by
  obtain ⟨insts0, dfn, _, e, h1, h2, h3, h4, h5⟩ := buildComposite_spec hreg h
  subst e
  apply hreg.push hm
  refine ⟨h1, h2, inputShapes_of_bumped h3, ?_⟩
  simp only [hd]
  have hlen : dfn.instances.length = d.instances.length := by
    rw [← h5.length_eq, h4.length_eq]
  apply forall₂_of_pointwise _ _ hlen
  intro k c hc
  obtain ⟨a, ha, hia⟩ := forall₂_pointwise h4 k c hc
  obtain ⟨b, hb, k', _, hst⟩ := forall₂_pointwise h5 k a ha
  exact ⟨b, hb, (hia.stepped hst).mono_map (fun e he => List.mem_cons_of_mem _ he)⟩

theorem ProcessPrimitive_registry {env : Nat → CoreModule} {m : Nat} {st : BuildState}
    (hreg : Registry env st) (hm : m ∉ st.keys) (hd : (env m).getDef = none) :
    Registry env (ProcessPrimitive (env m) m st) := by
  apply hreg.push hm
  refine ⟨rfl, rfl, rfl, ?_⟩
  simp [hd, Definition.primitive]

theorem LoopRun.preserves {R : Nat → BuildState → BuildState → Prop} {I : BuildState → Prop}
    (h : ∀ m s s1, R m s s1 → I s → I s1) :
    ∀ {cs : List CoreInstance} {s s2 : BuildState}, LoopRun R cs s s2 → I s → I s2 := by
  intro cs s s2 hl
  induction hl with
  | nil s => exact id
  | cons hr _ ih => exact fun hi => ih (h _ _ _ hr hi)

/-- A run of `ProcessModules` keeps the registry. -/
theorem ProcessModules_registry (env : Nat → CoreModule) :
    ∀ fuel m st st2, ProcessModules env fuel m st = .ok st2 →
      Registry env st → Registry env st2 := by
  apply ProcessModules_induct env (fun _ st st2 => Registry env st → Registry env st2)
  · intro m st _ h
    exact h
  · intro m st hm hd hreg
    exact ProcessPrimitive_registry hreg hm hd
  · intro m d st st1 st2 hm hd hl hb hreg
    have hm1 : m ∉ st1.keys := LoopRun.not_mem_keys hm hd (LoopRun.imp (fun _ _ _ hr => hr.1) hl)
    have hreg1 : Registry env st1 := LoopRun.preserves (fun _ _ _ hr hi => hr.2 hi) hl hreg
    exact buildComposite_registry hreg1 hm1 hd hb

/-! ## Which modules get a definition -/

theorem LoopRun.mem_keys {R : Nat → BuildState → BuildState → Prop}
    (hin : ∀ m s s1, R m s s1 → m ∈ s1.keys) (hext : ∀ m s s1, R m s s1 → s.Extends s1) :
    ∀ {cs : List CoreInstance} {s s2 : BuildState}, LoopRun R cs s s2 →
      ∀ c ∈ cs, c.moduleRef ∈ s2.keys := by
  intro cs s s2 hl
  induction hl with
  | nil s => simp
  | @cons c cs s s1 s2 hr hrest ih =>
    intro c' hc'
    rcases List.mem_cons.1 hc' with e | e
    · subst e
      exact (LoopRun.extends hext hrest).keys_subset _ (hin _ _ _ hr)
    · exact ih c' e

theorem ProcessModules_closed (env : Nat → CoreModule) :
    ∀ fuel m st st2, ProcessModules env fuel m st = .ok st2 → Closed env st → Closed env st2 := by
  apply ProcessModules_induct env (fun _ st st2 => Closed env st → Closed env st2)
  · intro m st _ h
    exact h
  · intro m st _ hd hc a ha b hab
    rw [(ProcessPrimitive_extends (env m) m st).2] at ha ⊢
    rcases List.mem_cons.1 ha with e | e
    · subst e
      obtain ⟨d, _, h, _⟩ := hab
      simp [hd] at h
    · exact List.mem_cons_of_mem _ (hc a e b hab)
  · intro m d st st1 st2 _ hd hl hb hc a ha b hab
    have hc1 : Closed env st1 := LoopRun.preserves (fun _ _ _ hr hi => hr.2 hi) hl hc
    have hin : ∀ c ∈ d.instances, c.moduleRef ∈ st1.keys :=
      LoopRun.mem_keys
        (fun c s s1 (hr : (∃ fuel, ProcessModules env fuel c s = .ok s1) ∧ _) => by
          obtain ⟨⟨fuel, hrun⟩, _⟩ := hr
          exact (ProcessModules_extends env fuel c s s1 hrun).2)
        (fun c s s1 hr => by
          obtain ⟨⟨fuel, hrun⟩, _⟩ := hr
          exact (ProcessModules_extends env fuel c s s1 hrun).1) hl
    rw [(buildComposite_extends hb).2] at ha ⊢
    rcases List.mem_cons.1 ha with e | e
    · subst e
      obtain ⟨d', inst, h1, h2, h3⟩ := hab
      rw [hd] at h1
      cases h1
      exact List.mem_cons_of_mem _ (h3 ▸ hin inst h2)
    · exact List.mem_cons_of_mem _ (hc1 a e b hab)

theorem LoopRun.sound {env : Nat → CoreModule} {R : Nat → BuildState → BuildState → Prop}
    (h : ∀ m s s1, R m s s1 → ∀ x, x ∈ s1.keys → x ∈ s.keys ∨ Reachable env m x) :
    ∀ {cs : List CoreInstance} {s s2 : BuildState}, LoopRun R cs s s2 →
      ∀ x, x ∈ s2.keys → x ∈ s.keys ∨ ∃ c ∈ cs, Reachable env c.moduleRef x := by
  intro cs s s2 hl
  induction hl with
  | nil s => intro x hx; exact Or.inl hx
  | @cons c cs s s1 s2 hr _ ih =>
    intro x hx
    rcases ih x hx with h1 | ⟨c', hc', h1⟩
    · rcases h _ _ _ hr x h1 with h2 | h2
      · exact Or.inl h2
      · exact Or.inr ⟨c, by simp, h2⟩
    · exact Or.inr ⟨c', by simp [hc'], h1⟩

theorem ProcessModules_sound (env : Nat → CoreModule) :
    ∀ fuel m st st2, ProcessModules env fuel m st = .ok st2 →
      ∀ x, x ∈ st2.keys → x ∈ st.keys ∨ Reachable env m x := by
  apply ProcessModules_induct env
    (fun m st st2 => ∀ x, x ∈ st2.keys → x ∈ st.keys ∨ Reachable env m x)
  · intro m st _ x hx
    exact Or.inl hx
  · intro m st _ _ x hx
    rw [(ProcessPrimitive_extends (env m) m st).2] at hx
    rcases List.mem_cons.1 hx with e | e
    · subst e; exact Or.inr Relation.ReflTransGen.refl
    · exact Or.inl e
  · intro m d st st1 st2 _ hd hl hb x hx
    rw [(buildComposite_extends hb).2] at hx
    rcases List.mem_cons.1 hx with e | e
    · subst e; exact Or.inr Relation.ReflTransGen.refl
    · rcases LoopRun.sound (fun _ _ _ hr => hr.2) hl x e with h1 | ⟨c, hc, h1⟩
      · exact Or.inl h1
      · exact Or.inr (Relation.ReflTransGen.head ⟨d, c, hd, hc, rfl⟩ h1)

/-- After a successful build from the empty state, the registered modules are exactly the
modules reachable from the root. -/
theorem buildState_keys {env : Nat → CoreModule} {fuel root : Nat} {st : BuildState}
    (h : buildState env fuel root = .ok st) (m : Nat) : m ∈ st.keys ↔ Reachable env root m := by
  unfold buildState at h
  constructor
  · intro hm
    rcases ProcessModules_sound env fuel root _ st h m hm with h1 | h1
    · simp [BuildState.keys] at h1
    · exact h1
  · intro hr
    have hc : Closed env st :=
      ProcessModules_closed env fuel root _ st h (by intro a ha; simp [BuildState.keys] at ha)
    have hroot : root ∈ st.keys := (ProcessModules_extends env fuel root _ st h).2
    induction hr with
    | refl => exact hroot
    | tail _ hbc ih => exact hc _ ih _ hbc

theorem buildState_registry {env : Nat → CoreModule} {fuel root : Nat} {st : BuildState}
    (h : buildState env fuel root = .ok st) : Registry env st :=
  ProcessModules_registry env fuel root _ st h (Registry.empty env)

/-- In a registry the module registered `k`-th holds position `k`. -/
theorem Registry.order {env : Nat → CoreModule} {st : BuildState} (hreg : Registry env st)
    {k m : Nat} (h : st.keys.reverse[k]? = some m) : (m, k) ∈ st.mod_map := by
  have hlen : st.mod_map.length = st.definitions.length := by
    have := congrArg List.length hreg.index
    simpa using this
  have hk : k < st.mod_map.length := by
    have := List.getElem?_eq_some_iff.1 h
    obtain ⟨hlt, _⟩ := this
    simpa [BuildState.keys] using hlt
  have hk' : k < st.mod_map.reverse.length := by simpa using hk
  have e1 : (st.mod_map.reverse[k]).1 = m := by
    have : (st.mod_map.reverse.map Prod.fst)[k]? = some m := by
      simpa [BuildState.keys, List.map_reverse] using h
    rw [List.getElem?_map, List.getElem?_eq_getElem hk'] at this
    simpa using this
  have e2 : (st.mod_map.reverse[k]).2 = k := by
    have h2 : (st.mod_map.reverse.map Prod.snd) = List.range st.definitions.length := by
      rw [List.map_reverse, hreg.index, List.reverse_reverse]
    have h3 : (st.mod_map.reverse.map Prod.snd)[k]? = some k := by
      rw [h2]
      simp [List.getElem?_range, ← hlen, hk]
    rw [List.getElem?_map, List.getElem?_eq_getElem hk'] at h3
    simpa using h3
  have hmem : st.mod_map.reverse[k] ∈ st.mod_map := by
    rw [← List.mem_reverse]
    exact List.getElem_mem hk'
  have : st.mod_map.reverse[k] = (m, k) := Prod.ext e1 e2
  rw [this] at hmem
  exact hmem

/-- The definitions of a built state are, one for one and in the order of registration,
the definitions of the modules reachable from the root. -/
theorem buildState_definitions {env : Nat → CoreModule} {fuel root : Nat} {st : BuildState}
    (h : buildState env fuel root = .ok st) :
    st.keys.reverse.Nodup ∧ (∀ m, m ∈ st.keys.reverse ↔ Reachable env root m) ∧
      List.Forall₂ (IsDefinitionOf env) st.keys.reverse st.definitions := by
  have hreg := buildState_registry h
  refine ⟨List.nodup_reverse.2 hreg.nodup, fun m => by
    rw [List.mem_reverse]; exact buildState_keys h m, ?_⟩
  apply forall₂_of_pointwise
  · have := congrArg List.length hreg.index
    simp [BuildState.keys] at this ⊢
    exact this.symm
  · intro k m hk
    obtain ⟨dfn, h1, h2, h3, h4, _⟩ := hreg.built m k (hreg.order hk)
    exact ⟨dfn, h1, h2, h3, h4⟩

/-! ## Termination -/

theorem sliceOfParent_fuel {parent_w : Wireable} {selStr : String} {parent_idx : Int}
    {is_arrslice : Bool} {defn_iface : IFace} {instances : List Instance}
    {inst_map : UMap String Nat} :
    sliceOfParent parent_w selStr parent_idx is_arrslice defn_iface instances inst_map
      ≠ .error .outOfFuel := by
  unfold sliceOfParent
  repeat' split
  all_goals simp

theorem CreateSlice_fuel (ctx : CoreCtx) {source_w : Wireable} {defn_iface : IFace}
    {instances : List Instance} {inst_map : UMap String Nat} :
    CreateSlice ctx source_w defn_iface instances inst_map ≠ .error .outOfFuel := by
  unfold CreateSlice
  repeat' split
  all_goals first | exact sliceOfParent_fuel | simp

theorem elementSlices_fuel (ctx : CoreCtx) {in_sel : Wireable} {defn_iface : IFace}
    {instances : List Instance} {inst_map : UMap String Nat} :
    ∀ l, elementSlices ctx in_sel defn_iface instances inst_map l ≠ .error .outOfFuel := by
  intro l
  induction l with
  | nil => simp [elementSlices]
  | cons i rest ih =>
    unfold elementSlices
    split
    · split
      · split
        · simp
        · rename_i e he
          intro h
          apply ih
          rw [he, Except.error.inj h]
      · rename_i e he
        intro h
        apply CreateSlice_fuel ctx
        rw [he, Except.error.inj h]
    · simp

theorem connectInput_fuel (ctx : CoreCtx) {core_w : Wireable} {defn_iface : IFace}
    {instances : List Instance} {inst_map : UMap String Nat} {inp : Input} :
    connectInput ctx core_w defn_iface instances inst_map inp ≠ .error .outOfFuel := by
  unfold connectInput
  split
  · split
    · split
      · simp
      · rename_i e he
        intro h
        apply elementSlices_fuel ctx _
        rw [he, Except.error.inj h]
    · simp
  · split
    · simp
    · rename_i e he
      intro h
      apply CreateSlice_fuel ctx
      rw [he, Except.error.inj h]
  · simp

theorem connectInputs_fuel (ctx : CoreCtx) {core_w : Wireable} {defn_iface : IFace}
    {instances : List Instance} {inst_map : UMap String Nat} :
    ∀ l, connectInputs ctx core_w defn_iface instances inst_map l ≠ .error .outOfFuel := by
  intro l
  induction l with
  | nil => simp [connectInputs]
  | cons i rest ih =>
    unfold connectInputs
    split
    · split
      · simp
      · rename_i e he
        intro h
        apply ih
        rw [he, Except.error.inj h]
    · rename_i e he
      intro h
      apply connectInput_fuel ctx
      rw [he, Except.error.inj h]

theorem SetupIFaceConnections_fuel (ctx : CoreCtx) {core_w : Wireable} {iface defn_iface : IFace}
    {instances : List Instance} {inst_map : UMap String Nat} :
    SetupIFaceConnections ctx core_w iface defn_iface instances inst_map
      ≠ .error .outOfFuel := by
  unfold SetupIFaceConnections
  split
  · simp
  · rename_i e he
    intro h
    apply connectInputs_fuel ctx _
    rw [he, Except.error.inj h]

theorem setupInstances_fuel (ctx : CoreCtx) {defn_iface : IFace} {inst_map : UMap String Nat} :
    ∀ cs instances,
      setupInstances ctx defn_iface inst_map cs instances ≠ .error .outOfFuel := by
  intro cs
  induction cs with
  | nil => intro instances; simp [setupInstances]
  | cons c rest ih =>
    intro instances
    unfold setupInstances
    split
    · simp
    · split
      · simp
      · split
        · exact ih _
        · rename_i e he
          intro h
          apply SetupIFaceConnections_fuel ctx
          rw [he, Except.error.inj h]

theorem SetupModuleConnections_fuel (ctx : CoreCtx) {defn_iface : IFace}
    {instances : List Instance} {inst_map : UMap String Nat} :
    SetupModuleConnections ctx defn_iface instances inst_map ≠ .error .outOfFuel := by
  unfold SetupModuleConnections
  split
  · split
    · simp
    · rename_i e he
      intro h
      apply SetupIFaceConnections_fuel ctx
      rw [he, Except.error.inj h]
  · rename_i e he
    intro h
    apply setupInstances_fuel ctx _ _
    rw [he, Except.error.inj h]

theorem genInstancesLoop_fuel (definitions : List Definition) (mod_map : UMap Nat Nat) :
    ∀ cs, genInstancesLoop definitions mod_map cs ≠ .error .outOfFuel := by
  intro cs
  induction cs with
  | nil => simp [genInstancesLoop]
  | cons c rest ih =>
    unfold genInstancesLoop
    split
    · simp
    · split
      · simp
      · split
        · simp
        · rename_i e he
          intro h
          apply ih
          rw [he, Except.error.inj h]

theorem GenInstances_fuel (d : ModuleDef) (definitions : List Definition)
    (mod_map : UMap Nat Nat) : GenInstances d definitions mod_map ≠ .error .outOfFuel := by
  unfold GenInstances
  split
  · simp
  · rename_i e he
    intro h
    apply genInstancesLoop_fuel definitions mod_map d.instances
    rw [he, Except.error.inj h]

theorem buildComposite_fuel {env : Nat → CoreModule} {m : Nat} {d : ModuleDef}
    {st : BuildState} : buildComposite env m d st ≠ .error .outOfFuel := by
  unfold buildComposite
  cases hg : GenInstances d st.definitions st.mod_map with
  | error e =>
    intro h
    apply GenInstances_fuel d st.definitions st.mod_map
    rw [hg, Except.error.inj h]
  | ok p =>
    obtain ⟨insts0, imap⟩ := p
    simp only
    unfold Definition.composite
    cases hs : SetupModuleConnections { env := env, core_mod := env m, core_def := d }
        { name := (env m).name, inputs := (GenInterface (env m)).1,
          outputs := (GenInterface (env m)).2, is_definition := true } insts0 imap with
    | error e =>
      intro h
      apply SetupModuleConnections_fuel { env := env, core_mod := env m, core_def := d }
      simp only [hs] at h
      rw [hs, Except.error.inj h]
    | ok q =>
      obtain ⟨iface, insts⟩ := q
      simp [hs]

theorem processInstances_fuel (rec : Nat → BuildState → Except BuildError BuildState) :
    ∀ (cs : List CoreInstance), (∀ c ∈ cs, ∀ s, rec c.moduleRef s ≠ .error .outOfFuel) →
      ∀ s, processInstances rec cs s ≠ .error .outOfFuel := by
  intro cs
  induction cs with
  | nil => intro _ s; simp [processInstances]
  | cons c rest ih =>
    intro h s
    unfold processInstances
    split
    · exact ih (fun c' hc' => h c' (by simp [hc'])) _
    · rename_i e he
      intro h2
      apply h c (by simp) s
      rw [he, h2]

theorem length_le_of_nodup_lt {N : Nat} {l : List Nat} (hnd : l.Nodup)
    (hlt : ∀ x ∈ l, x < N) : l.length ≤ N := by
  have hsub : l ⊆ List.range N := fun x hx => List.mem_range.2 (hlt x hx)
  have := (List.subperm_of_subset hnd hsub).length_le
  simpa using this

/-- In a finite, acyclic module graph the recursion of `ProcessModules` is no deeper than
the number of modules: with the call stack `anc` of distinct modules ending in `m`, fuel
for the modules not yet on the stack is enough. -/
theorem ProcessModules_fuel (env : Nat → CoreModule) (root N : Nat)
    (hfin : ∀ x, Reachable env root x → x < N)
    (hacyc : ∀ x, Reachable env root x → ¬ Relation.TransGen (Child env) x x) :
    ∀ fuel m st (anc : List Nat), Reachable env root m → anc.Nodup →
      (∀ x ∈ anc, Reachable env root x ∧ Relation.ReflTransGen (Child env) x m) →
      m ∈ anc → N < fuel + anc.length →
      ProcessModules env fuel m st ≠ .error .outOfFuel := by
  intro fuel
  induction fuel with
  | zero =>
    intro m st anc _ hnd hanc _ hlen
    have := length_le_of_nodup_lt hnd (fun x hx => hfin x (hanc x hx).1)
    omega
  | succ fuel ih =>
    intro m st anc hm hnd hanc hmem hlen
    unfold ProcessModules
    split
    · simp
    · split
      · simp
      · rename_i d hd
        split
        · rename_i e he
          intro h
          apply processInstances_fuel (ProcessModules env fuel) d.instances ?_ st
          · rw [he, Except.error.inj h]
          · intro c hc s
            have hch : Child env m c.moduleRef := ⟨d, c, hd, hc, rfl⟩
            have hcr : Reachable env root c.moduleRef := Relation.ReflTransGen.tail hm hch
            have hnot : c.moduleRef ∉ anc := by
              intro hin
              exact hacyc _ hcr (Relation.TransGen.tail' (hanc _ hin).2 hch)
            apply ih c.moduleRef s (c.moduleRef :: anc) hcr (List.nodup_cons.2 ⟨hnot, hnd⟩)
            · intro x hx
              rcases List.mem_cons.1 hx with e | e
              · subst e
                exact ⟨hcr, Relation.ReflTransGen.refl⟩
              · exact ⟨(hanc x e).1, Relation.ReflTransGen.tail (hanc x e).2 hch⟩
            · simp
            · simp only [List.length_cons]
              omega
        · exact buildComposite_fuel

/-! ## The order of the definitions -/

theorem ProcessModules_head (env : Nat → CoreModule) :
    ∀ fuel m st st2, ProcessModules env fuel m st = .ok st2 →
      m ∉ st.keys → ∃ rest, st2.keys = m :: rest := by
  apply ProcessModules_induct env (fun m st st2 => m ∉ st.keys → ∃ rest, st2.keys = m :: rest)
  · intro m st hm hn
    exact absurd hm hn
  · intro m st _ _ _
    exact ⟨_, (ProcessPrimitive_extends (env m) m st).2⟩
  · intro m d st st1 st2 _ _ _ hb _
    exact ⟨_, (buildComposite_extends hb).2⟩

/-- In a registry a module registered at position `k` is the `k`-th registered. -/
theorem Registry.position {env : Nat → CoreModule} {st : BuildState} (hreg : Registry env st)
    {k m : Nat} (h : (m, k) ∈ st.mod_map) : st.keys.reverse[k]? = some m := by
  have hlen : st.mod_map.length = st.definitions.length := by
    have := congrArg List.length hreg.index
    simpa using this
  obtain ⟨dfn, hd, _⟩ := hreg.built m k h
  have hk : k < st.keys.reverse.length := by
    have : k < st.definitions.length := by
      by_contra hc
      rw [List.getElem?_eq_none (by omega)] at hd
      cases hd
    simpa [BuildState.keys, hlen] using this
  have hsome : st.keys.reverse[k]? = some st.keys.reverse[k] := List.getElem?_eq_getElem hk
  have h2 := hreg.order hsome
  -- both `m` and the `k`-th registered module hold position `k`; positions are distinct
  have hsnd : (st.mod_map.map Prod.snd).Nodup := by
    rw [hreg.index]
    exact List.nodup_reverse.2 (List.nodup_range _)
  have : m = st.keys.reverse[k] := by
    have inj : ∀ {l : List (Nat × Nat)}, (l.map Prod.snd).Nodup → ∀ {a b : Nat},
        (a, k) ∈ l → (b, k) ∈ l → a = b := by
      intro l
      induction l with
      | nil => intro _ a b ha; simp at ha
      | cons e rest ih =>
        intro hn a b ha hb
        simp only [List.map_cons, List.nodup_cons] at hn
        rcases List.mem_cons.1 ha with ea | ea <;> rcases List.mem_cons.1 hb with eb | eb
        · rw [← ea] at eb
          exact (Prod.mk.inj eb).1.symm
        · exfalso
          apply hn.1
          rw [← ea]
          exact List.mem_map.2 ⟨(b, k), eb, rfl⟩
        · exfalso
          apply hn.1
          rw [← eb]
          exact List.mem_map.2 ⟨(a, k), ea, rfl⟩
        · exact ih hn.2 ea eb
    exact inj hsnd h h2
  rw [hsome, this]

/-- In a registry the modules a registered module instantiates are registered at earlier
positions. -/
theorem Registry.children_before {env : Nat → CoreModule} {st : BuildState}
    (hreg : Registry env st) {i m : Nat} (h : st.keys.reverse[i]? = some m) {b : Nat}
    (hb : Child env m b) : ∃ j, j < i ∧ st.keys.reverse[j]? = some b := by
  obtain ⟨dfn, _, _, _, _, h4⟩ := hreg.built m i (hreg.order h)
  obtain ⟨d, c, hd, hc, rfl⟩ := hb
  simp only [hd] at h4
  obtain ⟨k, hk⟩ := List.getElem?_of_mem hc
  obtain ⟨inst, _, _, hlt, hmem, _⟩ := forall₂_pointwise h4 k c hk
  exact ⟨inst.defn, hlt, hreg.position hmem⟩

/-- In a registry the instances of a definition point to earlier positions. -/
theorem Registry.instances_before {env : Nat → CoreModule} {st : BuildState}
    (hreg : Registry env st) {i : Nat} {dfn : Definition}
    (h : st.definitions[i]? = some dfn) : ∀ inst ∈ dfn.instances, inst.defn < i := by
  have hlen : st.keys.reverse.length = st.definitions.length := by
    have := congrArg List.length hreg.index
    simpa [BuildState.keys] using this
  have hi : i < st.definitions.length := by
    by_contra hc
    rw [List.getElem?_eq_none (by omega)] at h
    cases h
  have hsome : st.keys.reverse[i]? = some st.keys.reverse[i] :=
    List.getElem?_eq_getElem (by omega)
  obtain ⟨dfn', h1, _, _, _, h4⟩ := hreg.built _ i (hreg.order hsome)
  rw [h] at h1
  cases h1
  intro inst hinst
  cases hd : (env st.keys.reverse[i]).getDef with
  | none =>
    simp only [hd] at h4
    rw [h4] at hinst
    cases hinst
  | some d =>
    simp only [hd] at h4
    obtain ⟨k, hk⟩ := List.getElem?_of_mem hinst
    obtain ⟨c, _, hio⟩ := forall₂_pointwise h4.flip k inst hk
    exact hio.2.1

/-! ## Compaction -/

theorem ValueSlice.sameStart_extend (a b : ValueSlice) : (a.extend b).SameStart a := by
  simp [ValueSlice.SameStart, ValueSlice.extend]

theorem ValueSlice.continuedBy_congr {p a b : ValueSlice} (h : a.SameStart b) :
    p.continuedBy a = p.continuedBy b := by
  unfold ValueSlice.SameStart at h
  simp [ValueSlice.continuedBy, h.1, h.2.1, h.2.2.1, h.2.2.2]

theorem compressFrom_compacted (l : List ValueSlice) :
    ∀ prev, ∃ h t, compressFrom prev l = h :: t ∧ h.SameStart prev ∧ Compacted (h :: t) := by
  induction l with
  | nil => intro prev; exact ⟨prev, [], rfl, ⟨rfl, rfl, rfl, rfl⟩, trivial⟩
  | cons cur rest ih =>
    intro prev
    by_cases hc : prev.continuedBy cur = true
    · obtain ⟨h, t, e, hs, hC⟩ := ih (prev.extend cur)
      refine ⟨h, t, by simp [compressFrom, hc, e], ?_, hC⟩
      have hx := ValueSlice.sameStart_extend prev cur
      unfold ValueSlice.SameStart at hs hx ⊢
      exact ⟨hs.1.trans hx.1, hs.2.1.trans hx.2.1, hs.2.2.1.trans hx.2.2.1,
        hs.2.2.2.trans hx.2.2.2⟩
    · obtain ⟨h, t, e, hs, hC⟩ := ih cur
      refine ⟨prev, h :: t, by simp [compressFrom, hc, e], ⟨rfl, rfl, rfl, rfl⟩, ?_, hC⟩
      rw [ValueSlice.continuedBy_congr hs]
      simpa using hc

theorem compressFrom_of_compacted (l : List ValueSlice) :
    ∀ a, Compacted (a :: l) → compressFrom a l = a :: l := by
  induction l with
  | nil => intro a _; rfl
  | cons b rest ih =>
    intro a h
    simp [compressFrom, h.1, ih b h.2]

theorem compressSlices_idem (l : List ValueSlice) :
    compressSlices (compressSlices l) = compressSlices l := by
  cases l with
  | nil => rfl
  | cons s rest =>
    obtain ⟨h, t, e, _, hC⟩ := compressFrom_compacted rest s
    simp only [compressSlices, e]
    exact compressFrom_of_compacted t h hC

theorem compressFrom_width (l : List ValueSlice) :
    ∀ prev, ((compressFrom prev l).map ValueSlice.width).sum
      = prev.width + (l.map ValueSlice.width).sum := by
  induction l with
  | nil => intro prev; simp [compressFrom]
  | cons cur rest ih =>
    intro prev
    by_cases hc : prev.continuedBy cur = true
    · simp only [compressFrom, hc, if_true, ih, List.map_cons, List.sum_cons]
      simp [ValueSlice.extend, add_assoc]
    · simp [compressFrom, hc, ih]

/-- Compaction keeps the total width of a slice list. -/
theorem compressSlices_width (l : List ValueSlice) :
    ((compressSlices l).map ValueSlice.width).sum = (l.map ValueSlice.width).sum := by
  cases l with
  | nil => rfl
  | cons s rest => simp [compressSlices, compressFrom_width]

/-! ## Interface generation -/

theorem GenInterface_foldl (l : List (String × CType)) :
    ∀ acc : List Input × List Value,
      l.foldl
        (fun (acc : List Input × List Value) (rpair : String × CType) =>
          if rpair.2.isInput then (acc.1, acc.2 ++ [Value.mk rpair.1 (toInt rpair.2.getSize)])
          else (acc.1 ++ [Input.create rpair.1 (toInt rpair.2.getSize)], acc.2)) acc
      = (acc.1 ++ (l.filter (fun p => !p.2.isInput)).map
            (fun p => Input.create p.1 (toInt p.2.getSize)),
         acc.2 ++ (l.filter (fun p => p.2.isInput)).map
            (fun p => Value.mk p.1 (toInt p.2.getSize))) := by
  induction l with
  | nil => intro acc; simp
  | cons p rest ih =>
    intro acc
    by_cases hp : p.2.isInput = true
    · simp [List.foldl_cons, hp, ih]
    · simp [List.foldl_cons, hp, ih]

/-- The function `GenInterface` splits the port record by direction, keeping the order. -/
theorem GenInterface_eq (core_mod : CoreModule) :
    GenInterface core_mod
      = ((core_mod.record.filter (fun p => !p.2.isInput)).map
            (fun p => Input.create p.1 (toInt p.2.getSize)),
         (core_mod.record.filter (fun p => p.2.isInput)).map
            (fun p => Value.mk p.1 (toInt p.2.getSize))) := by
  unfold GenInterface
  rw [GenInterface_foldl]
  simp

/-! ## Slices -/

theorem sliceOfParent_ok {parent_w : Wireable} {selStr : String} {parent_idx : Int}
    {is_arrslice : Bool} {defn_iface : IFace} {instances : List Instance}
    {inst_map : UMap String Nat} {s : ValueSlice}
    (h : sliceOfParent parent_w selStr parent_idx is_arrslice defn_iface instances inst_map
      = .ok s) :
    ∃ ref v, s = ValueSlice.create ref v parent_idx (if is_arrslice then 1 else v.width) ∧
      ((parent_w = .iface ∧ ref = .defn ∧ defn_iface.getOutput selStr = some v) ∨
       ∃ n k inst, parent_w = .inst n ∧ ref = .inst k ∧ inst_map.find n = some k ∧
         instances[k]? = some inst ∧ inst.interface.getOutput selStr = some v) := by
  unfold sliceOfParent at h
  split at h
  · rename_i n
    split at h
    · simp at h
    · rename_i k hk
      split at h
      · simp at h
      · rename_i inst hinst
        split at h
        · simp at h
        · rename_i v hv
          exact ⟨.inst k, v, (Except.ok.inj h).symm, Or.inr ⟨n, k, inst, rfl, rfl, hk, hinst, hv⟩⟩
  · split at h
    · simp at h
    · rename_i v hv
      exact ⟨.defn, v, (Except.ok.inj h).symm, Or.inl ⟨rfl, rfl, hv⟩⟩
  · simp at h

/-- What a successful `CreateSlice` returns, by the kind of the parent of the driver. -/
theorem CreateSlice_ok {ctx : CoreCtx} {source_w : Wireable} {defn_iface : IFace}
    {instances : List Instance} {inst_map : UMap String Nat} {s : ValueSlice}
    (h : CreateSlice ctx source_w defn_iface instances inst_map = .ok s) :
    ∃ parent_w selStr ref v, source_w = .sel parent_w selStr ∧
      ((ctx.isArrayKind parent_w = false ∧ s = ValueSlice.create ref v 0 v.width ∧
          ((parent_w = .iface ∧ ref = .defn ∧ defn_iface.getOutput selStr = some v) ∨
           ∃ n k inst, parent_w = .inst n ∧ ref = .inst k ∧ inst_map.find n = some k ∧
             instances[k]? = some inst ∧ inst.interface.getOutput selStr = some v)) ∨
       (ctx.isArrayKind parent_w = true ∧ ∃ i parent_w2 selStr2, stoul selStr = some i ∧
          parent_w = .sel parent_w2 selStr2 ∧ s = ValueSlice.create ref v (toInt i) 1 ∧
          ((parent_w2 = .iface ∧ ref = .defn ∧ defn_iface.getOutput selStr2 = some v) ∨
           ∃ n k inst, parent_w2 = .inst n ∧ ref = .inst k ∧ inst_map.find n = some k ∧
             instances[k]? = some inst ∧ inst.interface.getOutput selStr2 = some v))) := by
  unfold CreateSlice at h
  split at h
  · rename_i parent_w selStr
    split at h
    · rename_i harr
      split at h
      · simp at h
      · rename_i i hi
        split at h
        · rename_i parent_w2 selStr2
          obtain ⟨ref, v, hs, hsrc⟩ := sliceOfParent_ok h
          exact ⟨_, selStr, ref, v, rfl, Or.inr ⟨harr, i, parent_w2, selStr2, hi, rfl,
            by simpa using hs, hsrc⟩⟩
        · simp at h
    · rename_i harr
      obtain ⟨ref, v, hs, hsrc⟩ := sliceOfParent_ok h
      exact ⟨parent_w, selStr, ref, v, rfl, Or.inl ⟨by simpa using harr, by simpa using hs, hsrc⟩⟩
  · simp at h

theorem getOutput_congr {a b : IFace} (h : a.outputs = b.outputs) (name : String) :
    a.getOutput name = b.getOutput name := by
  unfold IFace.getOutput
  rw [h]

/-- The end of `CreateSlice` reads the outputs of the interfaces only. -/
theorem sliceOfParent_congr {parent_w : Wireable} {selStr : String} {parent_idx : Int}
    {is_arrslice : Bool} {defn_iface defn_iface2 : IFace} {instances instances2 : List Instance}
    {inst_map : UMap String Nat} (h1 : defn_iface.outputs = defn_iface2.outputs)
    (h2 : List.Forall₂ (fun a b => a.interface.outputs = b.interface.outputs)
      instances instances2) :
    sliceOfParent parent_w selStr parent_idx is_arrslice defn_iface instances inst_map
      = sliceOfParent parent_w selStr parent_idx is_arrslice defn_iface2 instances2
          inst_map := by
  cases parent_w with
  | iface => simp only [sliceOfParent, getOutput_congr h1]
  | sel _ _ => rfl
  | inst n =>
    simp only [sliceOfParent]
    cases hk : inst_map.find n with
    | none => rfl
    | some k =>
      cases ha : instances[k]? with
      | none =>
        have hlen : instances2.length ≤ k := by
          rw [← h2.length_eq]
          exact List.getElem?_eq_none_iff.1 ha
        simp only [ha, List.getElem?_eq_none hlen]
      | some a =>
        obtain ⟨b, hb, hab⟩ := forall₂_pointwise h2 k a ha
        simp only [ha, hb, getOutput_congr hab]

/-- The function `CreateSlice` reads the outputs of the interfaces only: it gives the same
slice for interfaces that differ in their inputs. -/
theorem CreateSlice_congr {ctx : CoreCtx} {source_w : Wireable}
    {defn_iface defn_iface2 : IFace} {instances instances2 : List Instance}
    {inst_map : UMap String Nat} (h1 : defn_iface.outputs = defn_iface2.outputs)
    (h2 : List.Forall₂ (fun a b => a.interface.outputs = b.interface.outputs)
      instances instances2) :
    CreateSlice ctx source_w defn_iface instances inst_map
      = CreateSlice ctx source_w defn_iface2 instances2 inst_map := by
  cases source_w with
  | iface => rfl
  | inst _ => rfl
  | sel parent_w selStr =>
    simp only [CreateSlice]
    cases ctx.isArrayKind parent_w with
    | false => simpa using sliceOfParent_congr h1 h2
    | true =>
      cases stoul selStr with
      | none => rfl
      | some idx =>
        cases parent_w with
        | iface => rfl
        | inst _ => rfl
        | sel parent_w2 selStr2 => simpa using sliceOfParent_congr h1 h2

theorem elementSlices_spec {ctx : CoreCtx} {in_sel : Wireable} {defn_iface : IFace}
    {instances : List Instance} {inst_map : UMap String Nat} :
    ∀ (l : List Nat) (slices : List ValueSlice),
      elementSlices ctx in_sel defn_iface instances inst_map l = .ok slices →
      List.Forall₂ (fun i sl => ∃ w, ctx.core_def.connected (.sel in_sel (toString i)) = [w] ∧
        CreateSlice ctx w defn_iface instances inst_map = .ok sl) l slices := by
  intro l
  induction l with
  | nil =>
    intro slices h
    simp [elementSlices] at h
    subst h
    exact List.Forall₂.nil
  | cons i rest ih =>
    intro slices h
    unfold elementSlices at h
    split at h
    · rename_i w hw
      split at h
      · rename_i sl hsl
        split at h
        · rename_i sls hsls
          have : slices = sl :: sls := (Except.ok.inj h).symm
          subst this
          exact List.Forall₂.cons ⟨w, hw, hsl⟩ (ih sls hsls)
        · simp at h
      · simp at h
    · simp at h

theorem elementSlices_complete (ctx : CoreCtx) (in_sel : Wireable) (defn_iface : IFace)
    (instances : List Instance) (inst_map : UMap String Nat) :
    ∀ (l : List Nat),
      (∀ i ∈ l, ∃ w sl, ctx.core_def.connected (.sel in_sel (toString i)) = [w] ∧
        CreateSlice ctx w defn_iface instances inst_map = .ok sl) →
      ∃ slices, elementSlices ctx in_sel defn_iface instances inst_map l = .ok slices := by
  intro l
  induction l with
  | nil => intro _; exact ⟨[], rfl⟩
  | cons i rest ih =>
    intro h
    obtain ⟨w, sl, hw, hsl⟩ := h i (by simp)
    obtain ⟨sls, hsls⟩ := ih (fun j hj => h j (by simp [hj]))
    exact ⟨sl :: sls, by simp [elementSlices, hw, hsl, hsls]⟩

/-! ## Dangling inputs -/

theorem elementSlices_fails (ctx : CoreCtx) (in_sel : Wireable) (defn_iface : IFace)
    (instances : List Instance) (inst_map : UMap String Nat) {i : Nat}
    (hi : (ctx.core_def.connected (.sel in_sel (toString i))).length ≠ 1) :
    ∀ l : List Nat, i ∈ l →
      ∃ e, elementSlices ctx in_sel defn_iface instances inst_map l = .error e := by
  intro l
  induction l with
  | nil => intro h; simp at h
  | cons j rest ih =>
    intro h
    unfold elementSlices
    split
    · rename_i w hw
      split
      · split
        · rename_i sls hsls
          rcases List.mem_cons.1 h with e | e
          · subst e
            rw [hw] at hi
            simp at hi
          · obtain ⟨e', he'⟩ := ih e
            rw [he'] at hsls
            cases hsls
        · exact ⟨_, rfl⟩
      · exact ⟨_, rfl⟩
    · exact ⟨_, rfl⟩

/-- A dangling input makes the loop body fail; when the port is not an array, by the
assertion at line 122. -/
theorem connectInput_dangling (ctx : CoreCtx) (core_w : Wireable) (defn_iface : IFace)
    (instances : List Instance) (inst_map : UMap String Nat) {inp : Input}
    (h : Dangling ctx core_w inp.name inp.width) :
    ∃ e, connectInput ctx core_w defn_iface instances inst_map inp = .error e ∧
      (ctx.isArrayKind (.sel core_w inp.name) = false → e = .assertion 122) := by
  obtain ⟨hnone, hcase⟩ := h
  unfold connectInput
  rw [hnone]
  cases harr : ctx.isArrayKind (.sel core_w inp.name) with
  | false => exact ⟨_, by simp, fun _ => rfl⟩
  | true =>
    rcases hcase with hc | ⟨i, hi, hlen⟩
    · rw [harr] at hc
      cases hc
    · obtain ⟨e, he⟩ := elementSlices_fails ctx (.sel core_w inp.name) defn_iface instances
        inst_map hlen (List.range inp.width.toNat) (List.mem_range.2 (by omega))
      exact ⟨e, by simp [he], fun hf => by cases hf⟩

theorem connectInputs_dangling (ctx : CoreCtx) (core_w : Wireable) (defn_iface : IFace)
    (instances : List Instance) (inst_map : UMap String Nat) :
    ∀ (inputs : List Input),
      (∃ inp ∈ inputs, Dangling ctx core_w inp.name inp.width) →
      ∃ e, connectInputs ctx core_w defn_iface instances inst_map inputs = .error e := by
  intro inputs
  induction inputs with
  | nil => rintro ⟨_, h, _⟩; simp at h
  | cons a rest ih =>
    rintro ⟨inp, hmem, hd⟩
    unfold connectInputs
    split
    · rename_i b hb
      split
      · rename_i bs hbs
        rcases List.mem_cons.1 hmem with e | e
        · subst e
          obtain ⟨e', he', _⟩ := connectInput_dangling ctx core_w defn_iface instances
            inst_map hd
          rw [he'] at hb
          cases hb
        · obtain ⟨e', he'⟩ := ih ⟨inp, e, hd⟩
          rw [he'] at hbs
          cases hbs
      · exact ⟨_, rfl⟩
    · exact ⟨_, rfl⟩

/-- The connection pass fails on an interface that has a dangling input. -/
theorem SetupIFaceConnections_dangling (ctx : CoreCtx) (core_w : Wireable)
    (iface defn_iface : IFace) (instances : List Instance) (inst_map : UMap String Nat)
    (h : ∃ inp ∈ iface.inputs, Dangling ctx core_w inp.name inp.width) :
    ∃ e, SetupIFaceConnections ctx core_w iface defn_iface instances inst_map = .error e := by
  obtain ⟨e, he⟩ := connectInputs_dangling ctx core_w defn_iface instances inst_map
    iface.inputs h
  exact ⟨e, by simp [SetupIFaceConnections, he]⟩

theorem mem_of_inputShapes {l1 l2 : List Input} (h : inputShapes l2 = inputShapes l1)
    {inp : Input} (hmem : inp ∈ l1) :
    ∃ inp2 ∈ l2, inp2.name = inp.name ∧ inp2.width = inp.width := by
  have : (inp.name, inp.width) ∈ inputShapes l2 := by
    rw [h]
    exact List.mem_map.2 ⟨inp, hmem, rfl⟩
  obtain ⟨inp2, h2, e⟩ := List.mem_map.1 this
  exact ⟨inp2, h2, (Prod.mk.inj e).1, (Prod.mk.inj e).2⟩

/-- The loop over the instances fails when an instance it visits has a dangling input. -/
theorem setupInstances_dangling (ctx : CoreCtx) (defn_iface : IFace)
    (inst_map : UMap String Nat) {c : CoreInstance} {k : Nat}
    (hfind : inst_map.find c.name = some k) {name : String} {width : Int}
    (hd : Dangling ctx (.inst c.name) name width) :
    ∀ (cs : List CoreInstance) (instances : List Instance), c ∈ cs →
      (∃ inst, instances[k]? = some inst ∧
        ∃ inp ∈ inst.interface.inputs, inp.name = name ∧ inp.width = width) →
      ∃ e, setupInstances ctx defn_iface inst_map cs instances = .error e := by
  intro cs
  induction cs with
  | nil => intro _ h; simp at h
  | cons c0 rest ih =>
    rintro instances hmem ⟨inst, hinst, inp, hinp, hn, hw⟩
    unfold setupInstances
    split
    · exact ⟨_, rfl⟩
    · rename_i k0 hk0
      split
      · exact ⟨_, rfl⟩
      · rename_i jit hjit
        split
        · rename_i iface hiface
          have hk0lt : k0 < instances.length := by
            by_contra hc
            rw [List.getElem?_eq_none (by omega)] at hjit
            cases hjit
          obtain ⟨_, _, _, hci⟩ := SetupIFaceConnections_ok hiface
          rcases List.mem_cons.1 hmem with e | e
          · subst e
            rw [hfind] at hk0
            cases hk0
            rw [hinst] at hjit
            cases hjit
            obtain ⟨e', he'⟩ := SetupIFaceConnections_dangling ctx (.inst c.name)
              inst.interface defn_iface instances inst_map
              ⟨inp, hinp, by rw [hn, hw]; exact hd⟩
            rw [he'] at hiface
            cases hiface
          · apply ih _ e
            by_cases hk : k0 = k
            · subst hk
              rw [hinst] at hjit
              cases hjit
              obtain ⟨inp2, h2, e1, e2⟩ := mem_of_inputShapes
                (inputShapes_of_bumped (connectInputs_bumped hci)) hinp
              exact ⟨{ inst with interface := iface }, by simp [List.getElem?_set, hk0lt],
                inp2, h2, e1.trans hn, e2.trans hw⟩
            · exact ⟨inst, by simp [List.getElem?_set, hk, hinst], inp, hinp, hn, hw⟩
        · exact ⟨_, rfl⟩

theorem mem_GenInterface_inputs {core_mod : CoreModule} {p : String × CType}
    (hp : p ∈ core_mod.record) (hdir : p.2.isInput = false) :
    Input.create p.1 (toInt p.2.getSize) ∈ (GenInterface core_mod).1 := by
  rw [GenInterface_eq]
  simp only [List.mem_map, List.mem_filter]
  exact ⟨p, ⟨hp, by simp [hdir]⟩, rfl⟩

theorem mem_GenInterface_outputs {core_mod : CoreModule} {p : String × CType}
    (hp : p ∈ core_mod.record) (hdir : p.2.isInput = true) :
    Value.mk p.1 (toInt p.2.getSize) ∈ (GenInterface core_mod).2 := by
  rw [GenInterface_eq]
  simp only [List.mem_map, List.mem_filter]
  exact ⟨p, ⟨hp, hdir⟩, rfl⟩

/-- A composite definition is built only from a module without dangling inputs. -/
theorem buildComposite_noDangling {env : Nat → CoreModule} {m : Nat} {d : ModuleDef}
    {st st2 : BuildState} (hreg : Registry env st)
    (h : buildComposite env m d st = .ok st2) : NoDangling env m d := by
  obtain ⟨insts0, _, hg, _, _, _, _, hinsts, _⟩ := buildComposite_spec hreg h
  obtain ⟨insts0', imap, iface, insts, hg', hs, _⟩ := buildComposite_ok h
  rw [hg] at hg'
  obtain ⟨rfl, rfl⟩ : insts0 = insts0' ∧ genInstanceMap d.instances = imap := by
    simpa using hg'
  obtain ⟨hs1, hs2⟩ := SetupModuleConnections_ok hs
  constructor
  · intro p hp hdir hdang
    obtain ⟨e, he⟩ := SetupIFaceConnections_dangling
      { env := env, core_mod := env m, core_def := d } .iface
      { name := (env m).name, inputs := (GenInterface (env m)).1,
        outputs := (GenInterface (env m)).2, is_definition := true }
      { name := (env m).name, inputs := (GenInterface (env m)).1,
        outputs := (GenInterface (env m)).2, is_definition := true }
      insts (genInstanceMap d.instances)
      ⟨Input.create p.1 (toInt p.2.getSize), mem_GenInterface_inputs hp hdir, hdang⟩
    rw [he] at hs2
    cases hs2
  · intro hnd c hc p hp hdir hdang
    obtain ⟨j, hj⟩ := List.getElem?_of_mem hc
    obtain ⟨inst0, hinst0, _, _, _, _, hshape⟩ := forall₂_pointwise hinsts j c hj
    have hv : (p.1, toInt p.2.getSize) ∈ inputShapes inst0.interface.inputs := by
      rw [hshape]
      exact List.mem_map.2 ⟨_, mem_GenInterface_outputs hp hdir, rfl⟩
    obtain ⟨inp, hinp, e⟩ := List.mem_map.1 hv
    obtain ⟨e', he'⟩ := setupInstances_dangling
      { env := env, core_mod := env m, core_def := d }
      { name := (env m).name, inputs := (GenInterface (env m)).1,
        outputs := (GenInterface (env m)).2, is_definition := true }
      (genInstanceMap d.instances) (genInstanceMap_find hnd hj) hdang d.instances insts0 hc
      ⟨inst0, hinst0, inp, hinp, (Prod.mk.inj e).1, (Prod.mk.inj e).2⟩
    rw [he'] at hs1
    cases hs1

/-- A run of `ProcessModules` registers composite modules without dangling inputs only. -/
theorem ProcessModules_checked (env : Nat → CoreModule) :
    ∀ fuel m st st2, ProcessModules env fuel m st = .ok st2 →
      Registry env st → Checked env st → Checked env st2 := by
  apply ProcessModules_induct env
    (fun _ st st2 => Registry env st → Checked env st → Checked env st2)
  · intro m st _ _ h
    exact h
  · intro m st _ hd _ hc x hx d hxd
    rw [(ProcessPrimitive_extends (env m) m st).2] at hx
    rcases List.mem_cons.1 hx with e | e
    · subst e
      rw [hd] at hxd
      cases hxd
    · exact hc x e d hxd
  · intro m d st st1 st2 _ hd hl hb hreg hc x hx d' hxd
    have both : Registry env st1 ∧ Checked env st1 :=
      LoopRun.preserves (I := fun s => Registry env s ∧ Checked env s)
        (fun c s s1 hr hi => by
          obtain ⟨⟨fuel, hrun⟩, hp⟩ := hr
          exact ⟨ProcessModules_registry env fuel c s s1 hrun hi.1, hp hi.1 hi.2⟩)
        hl ⟨hreg, hc⟩
    rw [(buildComposite_extends hb).2] at hx
    rcases List.mem_cons.1 hx with e | e
    · subst e
      rw [hd] at hxd
      cases hxd
      exact buildComposite_noDangling both.1 hb
    · exact both.2 x e d' hxd

/-! ## Every input is connected exactly once -/

theorem GenInterface_fresh (core_mod : CoreModule) :
    ∀ inp ∈ (GenInterface core_mod).1, inp.Fresh := by
  rw [GenInterface_eq]
  intro inp h
  obtain ⟨p, _, rfl⟩ := List.mem_map.1 h
  exact ⟨rfl, rfl⟩

theorem makeInstance_fresh (defn : Definition) (idx : Nat) (name : String) :
    ∀ inp ∈ (defn.makeInstance idx name).interface.inputs, inp.Fresh := by
  intro inp h
  obtain ⟨v, _, rfl⟩ := List.mem_map.1 h
  exact ⟨rfl, rfl⟩

/-- Below `2^31` the conversion to `int` keeps the number. -/
theorem toInt_of_lt {n : Nat} (h : n < 2147483648) : toInt n = (n : Int) := by
  unfold toInt
  rw [Nat.mod_eq_of_lt (by omega)]
  simp [h]

theorem eq_of_nodup_fst {α β : Type} :
    ∀ {l : List (α × β)}, (l.map Prod.fst).Nodup → ∀ {p q : α × β}, p ∈ l → q ∈ l →
      p.1 = q.1 → p = q := by
  intro l hnd p q hp hq hpq
  exact List.inj_on_of_nodup_map hnd hp hq hpq

theorem lookupPort_mem {record : List (String × CType)} {s : String} {t : CType}
    (h : lookupPort record s = some t) : (s, t) ∈ record := by
  unfold lookupPort at h
  cases hf : record.find? (fun rpair => rpair.1 == s) with
  | none => simp [hf] at h
  | some p =>
    simp only [hf, Option.map_some', Option.some.injEq] at h
    have h1 := List.mem_of_find?_eq_some hf
    have h2 := List.find?_some hf
    have h3 : p.1 = s := by simpa using h2
    have : p = (s, t) := Prod.ext h3 h
    rw [← this]
    exact h1

theorem lookupPort_of_mem {record : List (String × CType)} (hnd : (record.map Prod.fst).Nodup)
    {p : String × CType} (hp : p ∈ record) : lookupPort record p.1 = some p.2 := by
  cases hl : lookupPort record p.1 with
  | none =>
    unfold lookupPort at hl
    simp only [Option.map_eq_none'] at hl
    have := List.find?_eq_none.1 hl p hp
    simp at this
  | some t =>
    have := eq_of_nodup_fst hnd (lookupPort_mem hl) hp rfl
    rw [← this]

theorem getOutput_mem {iface : IFace} {s : String} {v : Value}
    (h : iface.getOutput s = some v) : v ∈ iface.outputs ∧ v.name = s := by
  unfold IFace.getOutput at h
  exact ⟨List.mem_of_find?_eq_some h, by simpa using List.find?_some h⟩

/-- An output of the definition's interface has the size of the port of its name. -/
theorem defn_output_width {core_mod : CoreModule}
    (hnd : (core_mod.record.map Prod.fst).Nodup) {v : Value}
    (hv : v ∈ (GenInterface core_mod).2) {t : CType}
    (ht : lookupPort core_mod.record v.name = some t) : v.width = toInt t.getSize := by
  rw [GenInterface_eq] at hv
  obtain ⟨p, hp, rfl⟩ := List.mem_map.1 hv
  have hmem := (List.mem_filter.1 hp).1
  have := eq_of_nodup_fst hnd (lookupPort_mem ht) hmem rfl
  rw [← this]

/-- An output of an instance's interface has the size of the port of its name. -/
theorem inst_output_width {core_mod : CoreModule}
    (hnd : (core_mod.record.map Prod.fst).Nodup) {v : Value}
    (hv : v ∈ (GenInterface core_mod).1.map (fun i => Value.mk i.name i.width)) {t : CType}
    (ht : lookupPort core_mod.record v.name = some t) : v.width = toInt t.getSize := by
  rw [GenInterface_eq] at hv
  obtain ⟨i, hi, rfl⟩ := List.mem_map.1 hv
  obtain ⟨p, hp, rfl⟩ := List.mem_map.1 hi
  have hmem := (List.mem_filter.1 hp).1
  have := eq_of_nodup_fst hnd (lookupPort_mem ht) hmem rfl
  rw [← this]
  rfl

/-- The entry of `getInstances()` that `getType` finds for an instance name is the entry
whose instance the instance map gives. -/
theorem instance_of_name {env : Nat → CoreModule} {m : Nat} {d : ModuleDef}
    (hnames : (d.instances.map (fun c => c.name)).Nodup) {defn_iface : IFace}
    {instances : List Instance}
    (hagree : IFacesAgree { env := env, core_mod := env m, core_def := d } defn_iface instances)
    {n : String} {k : Nat} {inst : Instance}
    (hfind : (genInstanceMap d.instances).find n = some k) (hinst : instances[k]? = some inst)
    {ci : CoreInstance} (hci : d.instances.find? (fun c => c.name == n) = some ci) :
    d.instances[k]? = some ci ∧
    inst.interface.outputs =
      (GenInterface (env ci.moduleRef)).1.map (fun i => Value.mk i.name i.width) ∧
    inputShapes inst.interface.inputs =
      (GenInterface (env ci.moduleRef)).2.map (fun v => (v.name, v.width)) := by
  have hmem := List.mem_of_find?_eq_some hci
  have hname : ci.name = n := by simpa using List.find?_some hci
  obtain ⟨j, hj⟩ := List.getElem?_of_mem hmem
  have hfj := genInstanceMap_find hnames hj
  rw [hname, hfind] at hfj
  cases hfj
  obtain ⟨inst', hinst', hshape⟩ := forall₂_pointwise hagree.2 k ci hj
  rw [hinst] at hinst'
  cases hinst'
  exact ⟨hj, hshape.1, hshape.2⟩

/-- The value a slice reads has the size of the port it is the output of, and that port is
a port of a module of the netlist. -/
theorem source_width {env : Nat → CoreModule} {m : Nat} {d : ModuleDef}
    (hports : ∀ m2, ((env m2).record.map Prod.fst).Nodup)
    (hnames : (d.instances.map (fun c => c.name)).Nodup) {defn_iface : IFace}
    {instances : List Instance}
    (hagree : IFacesAgree { env := env, core_mod := env m, core_def := d } defn_iface instances)
    {parent_w : Wireable} {selStr : String} {ref : IFaceRef} {v : Value}
    (hsrc : (parent_w = .iface ∧ ref = .defn ∧ defn_iface.getOutput selStr = some v) ∨
      ∃ n k inst, parent_w = .inst n ∧ ref = .inst k ∧
        (genInstanceMap d.instances).find n = some k ∧ instances[k]? = some inst ∧
        inst.interface.getOutput selStr = some v)
    {t : CType}
    (ht : CoreCtx.getType { env := env, core_mod := env m, core_def := d }
      (.sel parent_w selStr) = some t) :
    v.width = toInt t.getSize ∧ ∃ m2, (selStr, t) ∈ (env m2).record := by
  rcases hsrc with ⟨rfl, _, hv⟩ | ⟨n, k, inst, rfl, _, hfind, hinst, hv⟩
  · simp only [CoreCtx.getType] at ht
    obtain ⟨hmem, hname⟩ := getOutput_mem hv
    rw [hagree.1] at hmem
    subst hname
    exact ⟨defn_output_width (hports m) hmem ht, m, lookupPort_mem ht⟩
  · simp only [CoreCtx.getType] at ht
    cases hci : d.instances.find? (fun c => c.name == n) with
    | none => simp [hci] at ht
    | some ci =>
      simp only [hci] at ht
      obtain ⟨_, hout, _⟩ := instance_of_name hnames hagree hfind hinst hci
      obtain ⟨hmem, hname⟩ := getOutput_mem hv
      rw [hout] at hmem
      subst hname
      exact ⟨inst_output_width (hports ci.moduleRef) hmem ht, ci.moduleRef,
        lookupPort_mem ht⟩

/-- The slice `CreateSlice` makes in interfaces that agree with the netlist is the slice of
its driver. -/
theorem CreateSlice_fromDriver {env : Nat → CoreModule} {m : Nat} {d : ModuleDef}
    (hports : ∀ m2, ((env m2).record.map Prod.fst).Nodup)
    (hnames : (d.instances.map (fun c => c.name)).Nodup) {defn_iface : IFace}
    {instances : List Instance}
    (hagree : IFacesAgree { env := env, core_mod := env m, core_def := d } defn_iface instances)
    {source_w : Wireable} {s : ValueSlice}
    (hcs : CreateSlice { env := env, core_mod := env m, core_def := d } source_w defn_iface
      instances (genInstanceMap d.instances) = .ok s) :
    s.FromDriver { env := env, core_mod := env m, core_def := d } source_w := by
  obtain ⟨parent_w, selStr, ref, v, hsrc, hcase⟩ := CreateSlice_ok hcs
  rcases hcase with ⟨hk, hsl, hfrom⟩ | ⟨hk, idx, parent_w2, selStr2, hidx, hpar, hsl, hfrom⟩
  · refine ⟨parent_w, selStr, v, hsrc, by rw [hsl]; rfl, by rw [hsl]; rfl, ?_, ?_⟩
    · intro _
      refine ⟨by rw [hsl]; rfl, by rw [hsl]; rfl, by rw [hsl]; simp [ValueSlice.create],
        by rw [hsl]; simp [ValueSlice.create], ?_⟩
      intro t ht
      rw [hsrc] at ht
      exact (source_width hports hnames hagree hfrom ht).1
    · intro hk2
      rw [hk] at hk2
      cases hk2
  · refine ⟨parent_w, selStr, v, hsrc, by rw [hsl]; rfl, by rw [hsl]; rfl, ?_, ?_⟩
    · intro hk2
      rw [hk] at hk2
      cases hk2
    · intro _
      subst hpar
      simp only [CoreCtx.isArrayKind] at hk
      cases hp : CoreCtx.getType { env := env, core_mod := env m, core_def := d }
          (.sel parent_w2 selStr2) with
      | none => simp [hp] at hk
      | some tp =>
        cases tp with
        | bit => simp [hp, CType.isArray] at hk
        | bitIn => simp [hp, CType.isArray] at hk
        | array len elem =>
          have hv : v.width = toInt (len * elem.getSize) :=
            (source_width hports hnames hagree hfrom hp).1
          refine ⟨idx, len, elem, hidx, rfl, hv, by rw [hsl]; rfl, by rw [hsl]; rfl, ?_⟩
          intro hlt hpos hsmall
          have hle : len * 1 ≤ len * elem.getSize := Nat.mul_le_mul_left len hpos
          have hoff : s.offset = (idx : Int) := by
            rw [hsl]
            exact toInt_of_lt (by omega)
          have hwid : s.width = 1 := by rw [hsl]; rfl
          rw [hoff, hwid, hv, toInt_of_lt hsmall]
          refine ⟨rfl, ?_⟩
          have h3 : idx + 1 ≤ len * elem.getSize := by omega
          exact_mod_cast h3

/-- The slice `CreateSlice` makes for a driver has the width of the driver's type, and
width 1 for a driver that is an element of an array. -/
theorem CreateSlice_width {env : Nat → CoreModule} {m : Nat} {d : ModuleDef}
    (hwt : WellTyped env) (hd : (env m).getDef = some d) {defn_iface : IFace}
    {instances : List Instance}
    (hagree : IFacesAgree { env := env, core_mod := env m, core_def := d } defn_iface instances)
    {w : Wireable} {s : ValueSlice}
    (h : CreateSlice { env := env, core_mod := env m, core_def := d } w defn_iface instances
      (genInstanceMap d.instances) = .ok s)
    {t : CType}
    (ht : CoreCtx.getType { env := env, core_mod := env m, core_def := d } w = some t) :
    (CoreCtx.isElement { env := env, core_mod := env m, core_def := d } w = false →
      s.width = toInt t.getSize) ∧
    (CoreCtx.isElement { env := env, core_mod := env m, core_def := d } w = true →
      s.width = 1) := by
  obtain ⟨parent_w, selStr, ref, v, rfl, hcase⟩ := CreateSlice_ok h
  rcases hcase with ⟨harr, hs, hsrc⟩ | ⟨harr, i, parent_w2, selStr2, _, rfl, hs, hsrc⟩
  · constructor
    · intro _
      rw [hs]
      exact (source_width hwt.ports_nodup (hwt.instances_nodup m d hd) hagree hsrc ht).1
    · intro hel
      simp only [CoreCtx.isElement] at hel
      rw [harr] at hel
      cases hel
  · constructor
    · intro hel
      simp only [CoreCtx.isElement] at hel
      rw [harr] at hel
      cases hel
    · intro _
      rw [hs]
      rfl

/-- The slice of a driver that fits a sink is as wide as the sink. -/
theorem CreateSlice_fits {env : Nat → CoreModule} {m : Nat} {d : ModuleDef}
    (hwt : WellTyped env) (hd : (env m).getDef = some d) {defn_iface : IFace}
    {instances : List Instance}
    (hagree : IFacesAgree { env := env, core_mod := env m, core_def := d } defn_iface instances)
    {w : Wireable} {s : ValueSlice}
    (h : CreateSlice { env := env, core_mod := env m, core_def := d } w defn_iface instances
      (genInstanceMap d.instances) = .ok s)
    {t : CType} (hfit : Fits { env := env, core_mod := env m, core_def := d } w t) :
    s.width = toInt t.getSize := by
  obtain ⟨t2, ht2, hsz, hone⟩ := hfit
  obtain ⟨h1, h2⟩ := CreateSlice_width hwt hd hagree h ht2
  cases hel : CoreCtx.isElement { env := env, core_mod := env m, core_def := d } w with
  | false => rw [h1 hel, hsz]
  | true =>
    rw [h2 hel, ← hsz, hone hel]
    rfl

theorem sum_widths_of_forall₂ {l : List Nat} {slices : List ValueSlice}
    (h : List.Forall₂ (fun (_ : Nat) sl => sl.width = 1) l slices) :
    (slices.map ValueSlice.width).sum = (l.length : Int) := by
  induction h with
  | nil => rfl
  | cons hab _ ih =>
    simp only [List.map_cons, List.sum_cons, hab, ih, List.length_cons]
    push_cast
    ring

/-- In a well-typed netlist, the loop body of the connection pass gives an input that has
the size of its port a select of that width. -/
theorem connectInput_widthOK {env : Nat → CoreModule} {m : Nat} {d : ModuleDef}
    (hwt : WellTyped env) (hd : (env m).getDef = some d) {defn_iface : IFace}
    {instances : List Instance}
    (hagree : IFacesAgree { env := env, core_mod := env m, core_def := d } defn_iface instances)
    {core_w : Wireable} {inp inp2 : Input} {t : CType}
    (ht : CoreCtx.getType { env := env, core_mod := env m, core_def := d }
      (.sel core_w inp.name) = some t)
    (hw : inp.width = toInt t.getSize)
    (hwired : PortWired { env := env, core_mod := env m, core_def := d } core_w inp.name t)
    (h : connectInput { env := env, core_mod := env m, core_def := d } core_w defn_iface
      instances (genInstanceMap d.instances) inp = .ok inp2) : inp2.WidthOK := by
  unfold connectInput at h
  split at h
  · rename_i hnone
    split at h
    · rename_i harr
      split at h
      · rename_i slices hsl
        have e : inp2 = inp.connect (Select.ofSlices slices) := (Except.ok.inj h).symm
        subst e
        intro s hs
        have : s = Select.ofSlices slices := by
          simp only [Input.connect, Option.some.injEq] at hs
          exact hs.symm
        subst this
        show ((compressSlices slices).map ValueSlice.width).sum = inp.width
        rw [compressSlices_width]
        simp only [CoreCtx.isArrayKind, ht] at harr
        cases t with
        | bit => simp [CType.isArray] at harr
        | bitIn => simp [CType.isArray] at harr
        | array len elem =>
          obtain ⟨hbound, hbeyond, hfit⟩ := hwired.2 hnone len elem rfl
          have hwidth : inp.width = ((len * elem.getSize : Nat) : Int) := by
            rw [hw]
            exact toInt_of_lt hbound
          have hnat : inp.width.toNat = len * elem.getSize := by
            rw [hwidth]
            exact Int.toNat_natCast _
          rw [hnat] at hsl
          have hall := elementSlices_spec _ _ hsl
          have hle : len * elem.getSize ≤ len := by
            by_contra hc
            obtain ⟨sl, _, w, hcon, _⟩ := forall₂_pointwise hall len len
              (by simp [List.getElem?_range, Nat.lt_of_not_le hc])
            rw [hbeyond (Nat.lt_of_not_le hc)] at hcon
            cases hcon
          by_cases hzero : len * elem.getSize = 0
          · rw [hzero] at hall
            cases hall
            rw [hwidth, hzero]
            rfl
          · have hone : elem.getSize = 1 := by
              have hpos : 0 < len := Nat.pos_of_ne_zero (fun h0 => hzero (by rw [h0]; simp))
              have hpos2 : 0 < elem.getSize :=
                Nat.pos_of_ne_zero (fun h0 => hzero (by rw [h0]; simp))
              have : elem.getSize ≤ 1 :=
                Nat.le_of_mul_le_mul_left (by simpa using hle) hpos
              omega
            have hall2 : List.Forall₂ (fun (_ : Nat) sl => sl.width = 1)
                (List.range (len * elem.getSize)) slices := by
              refine List.Forall₂.imp ?_ hall
              rintro i sl ⟨w, hcon, hcs⟩
              rw [CreateSlice_fits hwt hd hagree hcs (hfit i w hcon), hone]
              rfl
            rw [sum_widths_of_forall₂ hall2, List.length_range, hwidth]
      · simp at h
    · simp at h
  · rename_i w hcon
    split at h
    · rename_i slice hcs
      have e : inp2 = inp.connect (Select.ofSlice slice) := (Except.ok.inj h).symm
      subst e
      intro s hs
      have : s = Select.ofSlice slice := by
        simp only [Input.connect, Option.some.injEq] at hs
        exact hs.symm
      subst this
      show ([slice].map ValueSlice.width).sum = inp.width
      simp [CreateSlice_fits hwt hd hagree hcs (hwired.1 w hcon), hw]
    · simp at h
  · simp at h

theorem connectInputs_widthOK {env : Nat → CoreModule} {m : Nat} {d : ModuleDef}
    (hwt : WellTyped env) (hd : (env m).getDef = some d) {defn_iface : IFace}
    {instances : List Instance}
    (hagree : IFacesAgree { env := env, core_mod := env m, core_def := d } defn_iface instances)
    {core_w : Wireable} :
    ∀ {inputs inputs2 : List Input},
      (∀ inp ∈ inputs, ∃ t,
        CoreCtx.getType { env := env, core_mod := env m, core_def := d }
          (.sel core_w inp.name) = some t ∧
        inp.width = toInt t.getSize ∧
        PortWired { env := env, core_mod := env m, core_def := d } core_w inp.name t) →
      connectInputs { env := env, core_mod := env m, core_def := d } core_w defn_iface
        instances (genInstanceMap d.instances) inputs = .ok inputs2 →
      ∀ inp2 ∈ inputs2, inp2.WidthOK := by
  intro inputs
  induction inputs with
  | nil =>
    intro inputs2 _ h
    simp [connectInputs] at h
    subst h
    intro inp2 hin
    cases hin
  | cons a rest ih =>
    intro inputs2 htyped h
    simp only [connectInputs] at h
    split at h
    · rename_i b hb
      split at h
      · rename_i bs hbs
        have e : inputs2 = b :: bs := (Except.ok.inj h).symm
        subst e
        intro inp2 hin
        rcases List.mem_cons.1 hin with e | e
        · subst e
          obtain ⟨t, ht, hw, hwired⟩ := htyped a (by simp)
          exact connectInput_widthOK hwt hd hagree ht hw hwired hb
        · exact ih (fun x hx => htyped x (by simp [hx])) hbs inp2 e
      · simp at h
    · simp at h

theorem defn_inputs_typed {env : Nat → CoreModule} (hwt : WellTyped env) {m : Nat}
    {d : ModuleDef} (hd : (env m).getDef = some d) :
    ∀ inp ∈ (GenInterface (env m)).1, ∃ t,
      CoreCtx.getType { env := env, core_mod := env m, core_def := d }
        (.sel .iface inp.name) = some t ∧
      inp.width = toInt t.getSize ∧
      PortWired { env := env, core_mod := env m, core_def := d } .iface inp.name t := by
  intro inp hin
  rw [GenInterface_eq] at hin
  obtain ⟨p, hp, rfl⟩ := List.mem_map.1 hin
  have hmem := (List.mem_filter.1 hp).1
  have hdir : p.2.isInput = false := by simpa using (List.mem_filter.1 hp).2
  exact ⟨p.2, by simpa [CoreCtx.getType] using lookupPort_of_mem (hwt.ports_nodup m) hmem,
    rfl, hwt.wired_iface m d hd p hmem hdir⟩

theorem inst_inputs_typed {env : Nat → CoreModule} (hwt : WellTyped env) {m : Nat}
    {d : ModuleDef} (hd : (env m).getDef = some d) {c : CoreInstance} (hc : c ∈ d.instances)
    {inputs : List Input}
    (hshape : inputShapes inputs =
      (GenInterface (env c.moduleRef)).2.map (fun v => (v.name, v.width))) :
    ∀ inp ∈ inputs, ∃ t,
      CoreCtx.getType { env := env, core_mod := env m, core_def := d }
        (.sel (.inst c.name) inp.name) = some t ∧
      inp.width = toInt t.getSize ∧
      PortWired { env := env, core_mod := env m, core_def := d } (.inst c.name) inp.name
        t := by
  intro inp hin
  have h1 : (inp.name, inp.width) ∈ inputShapes inputs := List.mem_map.2 ⟨inp, hin, rfl⟩
  rw [hshape, GenInterface_eq] at h1
  obtain ⟨v, hv, e⟩ := List.mem_map.1 h1
  obtain ⟨p, hp, rfl⟩ := List.mem_map.1 hv
  have hmem := (List.mem_filter.1 hp).1
  have hdir : p.2.isInput = true := by simpa using (List.mem_filter.1 hp).2
  have hn : p.1 = inp.name := (Prod.mk.inj e).1
  have hw : toInt p.2.getSize = inp.width := (Prod.mk.inj e).2
  cases hci : d.instances.find? (fun x => x.name == c.name) with
  | none =>
    have := List.find?_eq_none.1 hci c hc
    simp at this
  | some ci =>
    have hcin := List.mem_of_find?_eq_some hci
    have hname : ci.name = c.name := by simpa using List.find?_some hci
    have hcc : ci = c :=
      List.inj_on_of_nodup_map (hwt.instances_nodup m d hd) hcin hc hname
    subst hcc
    refine ⟨p.2, ?_, hw.symm, hn ▸ hwt.wired_instances m d hd ci hc p hmem hdir⟩
    simp only [CoreCtx.getType, hci]
    rw [← hn]
    exact lookupPort_of_mem (hwt.ports_nodup ci.moduleRef) hmem

theorem forall₂_set {α β : Type} {R : α → β → Prop} {l1 : List α} {l2 : List β}
    (h : List.Forall₂ R l1 l2) {k : Nat} {a : α} (ha : l1[k]? = some a) {b : β} (hr : R a b) :
    List.Forall₂ R l1 (l2.set k b) := by
  apply forall₂_of_pointwise _ _ (by simp [h.length_eq])
  intro j x hx
  obtain ⟨y, hy, hxy⟩ := forall₂_pointwise h j x hx
  by_cases hjk : k = j
  · subst hjk
    rw [ha] at hx
    cases hx
    have hlt : k < l2.length := by
      by_contra hc
      rw [List.getElem?_eq_none (by omega)] at hy
      cases hy
    exact ⟨b, by simp [List.getElem?_set, hlt], hr⟩
  · exact ⟨y, by simp [List.getElem?_set, hjk, hy], hxy⟩

/-- In a well-typed netlist the loop over the instances keeps the interfaces in agreement
with the netlist and every select of the width of its input. -/
theorem setupInstances_widthOK {env : Nat → CoreModule} {m : Nat} {d : ModuleDef}
    (hwt : WellTyped env) (hd : (env m).getDef = some d) {defn_iface : IFace} :
    ∀ (cs : List CoreInstance) (instances insts : List Instance),
      (∀ c ∈ cs, c ∈ d.instances) →
      IFacesAgree { env := env, core_mod := env m, core_def := d } defn_iface instances →
      (∀ inst ∈ instances, ∀ inp ∈ inst.interface.inputs, inp.WidthOK) →
      setupInstances { env := env, core_mod := env m, core_def := d } defn_iface
        (genInstanceMap d.instances) cs instances = .ok insts →
      IFacesAgree { env := env, core_mod := env m, core_def := d } defn_iface insts ∧
      ∀ inst ∈ insts, ∀ inp ∈ inst.interface.inputs, inp.WidthOK := by
  intro cs
  induction cs with
  | nil =>
    intro instances insts _ hagree hok h
    simp [setupInstances] at h
    subst h
    exact ⟨hagree, hok⟩
  | cons c0 rest ih =>
    intro instances insts hsub hagree hok h
    simp only [setupInstances] at h
    split at h
    · simp at h
    · rename_i k0 hk0
      split at h
      · simp at h
      · rename_i jit hjit
        split at h
        · rename_i iface hiface
          have hc0 : c0 ∈ d.instances := hsub c0 (by simp)
          obtain ⟨j, hj⟩ := List.getElem?_of_mem hc0
          have hfj := genInstanceMap_find (hwt.instances_nodup m d hd) hj
          rw [hk0] at hfj
          cases hfj
          obtain ⟨jit', hjit', hshape⟩ := forall₂_pointwise hagree.2 k0 c0 hj
          rw [hjit] at hjit'
          cases hjit'
          obtain ⟨_, hout, _, hci⟩ := SetupIFaceConnections_ok hiface
          have hnew : ∀ inp ∈ iface.inputs, inp.WidthOK :=
            connectInputs_widthOK hwt hd hagree (inst_inputs_typed hwt hd hc0 hshape.2) hci
          apply ih _ insts (fun c hc => hsub c (by simp [hc])) ?_ ?_ h
          · refine ⟨hagree.1, forall₂_set hagree.2 hj ⟨?_, ?_⟩⟩
            · show iface.outputs = _
              rw [hout]
              exact hshape.1
            · show inputShapes iface.inputs = _
              rw [inputShapes_of_bumped (connectInputs_bumped hci)]
              exact hshape.2
          · intro inst hinst
            rcases List.mem_or_eq_of_mem_set hinst with e | e
            · exact hok inst e
            · subst e
              exact hnew
        · simp at h

theorem GenInstances_fresh {d : ModuleDef} {definitions : List Definition}
    {mod_map : UMap Nat Nat} {insts0 : List Instance} {imap : UMap String Nat}
    (h : GenInstances d definitions mod_map = .ok (insts0, imap)) :
    ∀ inst ∈ insts0, ∀ inp ∈ inst.interface.inputs, inp.Fresh := by
  unfold GenInstances at h
  cases hl : genInstancesLoop definitions mod_map d.instances with
  | error e => simp [hl] at h
  | ok insts0' =>
    simp only [hl] at h
    obtain ⟨rfl, _⟩ : insts0' = insts0 ∧ genInstanceMap d.instances = imap := by
      simpa using h
    intro inst hinst
    obtain ⟨k, hk⟩ := List.getElem?_of_mem hinst
    obtain ⟨c, _, idx, defn, _, _, rfl⟩ := forall₂_pointwise (genInstancesLoop_spec hl).flip
      k inst hk
    exact makeInstance_fresh defn idx c.name

theorem widthOK_of_fresh {inp : Input} (h : inp.Fresh) : inp.WidthOK := by
  intro s hs
  have := h.1
  simp [Input.isConnected, hs] at this

/-- In a well-typed netlist a successful `buildComposite` appends a definition whose
selects have the widths of their inputs. -/
theorem buildComposite_widthOK {env : Nat → CoreModule} {m : Nat} {d : ModuleDef}
    {st st2 : BuildState} (hwt : WellTyped env) (hreg : Registry env st)
    (hd : (env m).getDef = some d) (h : buildComposite env m d st = .ok st2) :
    ∃ dfn, st2.definitions = st.definitions ++ [dfn] ∧ dfn.WidthOK := by
  obtain ⟨insts0, _, hg, _, _, _, _, hinsts, _⟩ := buildComposite_spec hreg h
  obtain ⟨insts0', imap, iface, insts, hg', hs, e⟩ := buildComposite_ok h
  rw [hg] at hg'
  obtain ⟨rfl, rfl⟩ : insts0 = insts0' ∧ genInstanceMap d.instances = imap := by
    simpa using hg'
  obtain ⟨hs1, hs2⟩ := SetupModuleConnections_ok hs
  have hagree0 : IFacesAgree { env := env, core_mod := env m, core_def := d }
      { name := (env m).name, inputs := (GenInterface (env m)).1,
        outputs := (GenInterface (env m)).2, is_definition := true } insts0 :=
    ⟨rfl, List.Forall₂.imp (fun _ _ hi => ⟨hi.2.2.2.1, hi.2.2.2.2⟩) hinsts⟩
  obtain ⟨hagree, hok⟩ := setupInstances_widthOK hwt hd d.instances insts0 insts
    (fun _ hc => hc) hagree0
    (fun inst hinst inp hinp => widthOK_of_fresh (GenInstances_fresh hg inst hinst inp hinp))
    hs1
  obtain ⟨_, _, _, hci⟩ := SetupIFaceConnections_ok hs2
  refine ⟨{ name := (env m).name, interface := iface, instances := insts }, by rw [e],
    ?_, hok⟩
  exact connectInputs_widthOK hwt hd hagree (defn_inputs_typed hwt hd) hci

/-- In a well-typed netlist a run of `ProcessModules` keeps every select of every
definition of the width of its input. -/
theorem ProcessModules_widthOK (env : Nat → CoreModule) (hwt : WellTyped env) :
    ∀ fuel m st st2, ProcessModules env fuel m st = .ok st2 →
      Registry env st → (∀ dfn ∈ st.definitions, dfn.WidthOK) →
      ∀ dfn ∈ st2.definitions, dfn.WidthOK := by
  apply ProcessModules_induct env
    (fun _ st st2 => Registry env st → (∀ dfn ∈ st.definitions, dfn.WidthOK) →
      ∀ dfn ∈ st2.definitions, dfn.WidthOK)
  · intro m st _ _ h
    exact h
  · intro m st _ _ _ hall dfn hdfn
    simp only [ProcessPrimitive, List.mem_append, List.mem_singleton] at hdfn
    rcases hdfn with h1 | rfl
    · exact hall dfn h1
    · exact ⟨fun inp hinp => widthOK_of_fresh (GenInterface_fresh (env m) inp hinp),
        fun inst hinst => by cases hinst⟩
  · intro m d st st1 st2 _ hd hl hb hreg hall dfn hdfn
    have both : Registry env st1 ∧ ∀ dfn ∈ st1.definitions, dfn.WidthOK :=
      LoopRun.preserves (I := fun s => Registry env s ∧ ∀ dfn ∈ s.definitions, dfn.WidthOK)
        (fun c s s1 hr hi => by
          obtain ⟨⟨fuel, hrun⟩, hp⟩ := hr
          exact ⟨ProcessModules_registry env fuel c s s1 hrun hi.1, hp hi.1 hi.2⟩)
        hl ⟨hreg, hall⟩
    obtain ⟨dnew, e, hnew⟩ := buildComposite_widthOK hwt both.1 hd hb
    rw [e] at hdfn
    rcases List.mem_append.1 hdfn with h1 | h1
    · exact both.2 dfn h1
    · rw [List.mem_singleton.1 h1]
      exact hnew

/-! ## Properties of the build and of the engine -/

/-- C1: `BuildFromCoreIR` deduplicates by source-module identity.  The definitions of the
resulting circuit are, one for one, the definitions of the distinct modules reachable from
the root: there is a duplicate-free list of modules, holding exactly the reachable ones,
that pairs off with the definitions of the circuit, however many instances reference a
module. -/
theorem definitions_deduplicated (env : Nat → CoreModule) (fuel root : Nat) (c : Circuit)
    (h : BuildFromCoreIR env fuel root = .ok c) :
    ∃ mods : List Nat, mods.Nodup ∧ (∀ m, m ∈ mods ↔ Reachable env root m) ∧
      List.Forall₂ (IsDefinitionOf env) mods c.definitions := by
  unfold BuildFromCoreIR at h
  cases hs : buildState env fuel root with
  | error e => simp [hs] at h
  | ok st =>
    simp only [hs] at h
    have hc : c = Circuit.create st.definitions := (Except.ok.inj h).symm
    subst hc
    exact ⟨st.keys.reverse, buildState_definitions hs⟩

/-- Witness of C1: the AND primitive instantiated twice in `and3` yields one definition for
`and` and one for `and3`. -/
theorem definitions_deduplicated_witness :
    BuildFromCoreIR and3Env 2 0 = .ok and3Circuit ∧ and3Circuit.definitions.length = 2 ∧
      ∃ mods : List Nat, mods.Nodup ∧ (∀ m, m ∈ mods ↔ Reachable and3Env 0 m) ∧
        List.Forall₂ (IsDefinitionOf and3Env) mods and3Circuit.definitions :=
  ⟨by rfl, by decide, definitions_deduplicated and3Env 2 0 and3Circuit (by rfl)⟩

/-- C2: for every acyclic module graph (the finitely many modules reachable from the
root, none of which reaches itself through instantiations), `ProcessModules` terminates:
with more fuel than there are modules the build does not run out of fuel.  When it yields
a circuit, the definitions are in post-order: they pair off with a list `mods` of modules
in which every module comes after the modules it instantiates, every instance of a
definition points to an earlier definition, the sequence is not empty, and its last
element, which the `Circuit` constructor takes as top, is the definition of the root. -/
theorem definitions_post_order (env : Nat → CoreModule) (root N : Nat)
    (hacyclic : Acyclic env root N) (fuel : Nat) (hfuel : N < fuel) :
    BuildFromCoreIR env fuel root ≠ .error .outOfFuel ∧
    ∀ c, BuildFromCoreIR env fuel root = .ok c →
      ∃ mods : List Nat, List.Forall₂ (IsDefinitionOf env) mods c.definitions ∧
        (∀ (i m : Nat), mods[i]? = some m → ∀ b, Child env m b →
          ∃ j, j < i ∧ mods[j]? = some b) ∧
        (∀ (i : Nat) dfn, c.definitions[i]? = some dfn →
          ∀ inst ∈ dfn.instances, inst.defn < i) ∧
        c.definitions ≠ [] ∧ mods.getLast? = some root ∧
        ∃ top, c.top_defn = some top ∧ c.definitions.getLast? = some top ∧
          IsDefinitionOf env root top := by
  have hterm : buildState env fuel root ≠ .error .outOfFuel :=
    ProcessModules_fuel env root N hacyclic.1 hacyclic.2 fuel root _ [root]
      Relation.ReflTransGen.refl (by simp)
      (by
        intro x hx
        rw [List.mem_singleton.1 hx]
        exact ⟨Relation.ReflTransGen.refl, Relation.ReflTransGen.refl⟩)
      (by simp) (by simp only [List.length_singleton]; omega)
  constructor
  · unfold BuildFromCoreIR
    cases hs : buildState env fuel root with
    | error e =>
      intro h
      apply hterm
      rw [hs, Except.error.inj h]
    | ok st => simp
  · intro c h
    unfold BuildFromCoreIR at h
    cases hs : buildState env fuel root with
    | error e => simp [hs] at h
    | ok st =>
      simp only [hs] at h
      have hc : c = Circuit.create st.definitions := (Except.ok.inj h).symm
      subst hc
      have hreg := buildState_registry hs
      obtain ⟨_, _, hall⟩ := buildState_definitions hs
      obtain ⟨rest, hhead⟩ := ProcessModules_head env fuel root _ st hs
        (by simp [BuildState.keys])
      have hlast : st.keys.reverse.getLast? = some root := by
        rw [List.getLast?_reverse, hhead]; rfl
      have hne : st.definitions ≠ [] := by
        intro he
        have := hall.length_eq
        rw [he, hhead] at this
        simp at this
      obtain ⟨top, htop⟩ : ∃ top, st.definitions.getLast? = some top := by
        cases hl : st.definitions.getLast? with
        | none => exact absurd (List.getLast?_eq_none_iff.1 hl) hne
        | some top => exact ⟨top, rfl⟩
      refine ⟨st.keys.reverse, hall, fun i m hi b hb => hreg.children_before hi hb,
        fun i dfn hi => hreg.instances_before hi, hne, hlast, top, htop, htop, ?_⟩
      have hk : st.keys.reverse[st.keys.reverse.length - 1]? = some root := by
        rw [← List.getLast?_eq_getElem?]; exact hlast
      obtain ⟨dfn, h1, h2⟩ := forall₂_pointwise hall _ root hk
      rw [hall.length_eq, ← List.getLast?_eq_getElem?, htop] at h1
      cases h1
      exact h2

/-- In the netlist of `and3` the only instantiations are those of module 1 by module 0. -/
theorem and3_child {a b : Nat} (h : Child and3Env a b) : a = 0 ∧ b = 1 := by
  obtain ⟨d, inst, hd, hi, rfl⟩ := h
  by_cases ha : a = 0
  · subst ha
    have : d = and3Def := by
      simp [and3Env, and3Module] at hd
      exact hd.symm
    subst this
    simp [and3Def] at hi
    rcases hi with rfl | rfl <;> simp
  · simp [and3Env, ha, andModule] at hd

/-- The netlist of `and3` is acyclic, with two modules under the root. -/
theorem and3_acyclic : Acyclic and3Env 0 2 := by
  constructor
  · intro x hx
    induction hx with
    | refl => decide
    | tail _ hbc _ => rw [(and3_child hbc).2]; decide
  · intro x _ hcyc
    obtain ⟨y, hxy, _⟩ := Relation.TransGen.head'_iff.1 hcyc
    obtain ⟨z, _, hzx⟩ := Relation.TransGen.tail'_iff.1 hcyc
    have h1 := (and3_child hxy).1
    have h2 := (and3_child hzx).2
    omega

/-- Witness of C2: `and3` instantiates only the primitive `and`; the build with fuel 3
terminates with the definition of `and` first and the definition of `and3` last. -/
theorem definitions_post_order_witness :
    BuildFromCoreIR and3Env 3 0 = .ok and3Circuit ∧
    and3Circuit.definitions.map (fun d => d.name) = ["and", "and3"] ∧
    (BuildFromCoreIR and3Env 3 0 ≠ .error .outOfFuel ∧
    ∀ c, BuildFromCoreIR and3Env 3 0 = .ok c →
      ∃ mods : List Nat, List.Forall₂ (IsDefinitionOf and3Env) mods c.definitions ∧
        (∀ (i m : Nat), mods[i]? = some m → ∀ b, Child and3Env m b →
          ∃ j, j < i ∧ mods[j]? = some b) ∧
        (∀ (i : Nat) dfn, c.definitions[i]? = some dfn →
          ∀ inst ∈ dfn.instances, inst.defn < i) ∧
        c.definitions ≠ [] ∧ mods.getLast? = some 0 ∧
        ∃ top, c.top_defn = some top ∧ c.definitions.getLast? = some top ∧
          IsDefinitionOf and3Env 0 top) :=
  ⟨by rfl, by decide, definitions_post_order and3Env 0 2 and3_acyclic 3 (by decide)⟩

/-- Counterexample to C5: the leaf module `leaf` has two ports of width 0 and the build
succeeds, with an `Input` of width 0 and a `Value` of width 0 in its definition; the module
`zero`, which has a definition, has an output of width 0 and its build succeeds with that
`Input` of width 0 connected to a `Select` without slices. -/
theorem zero_width_port_accepted :
    (∀ port ∈ zeroLeaf.record, port.2.getSize = 0) ∧
    BuildFromCoreIR (fun _ => zeroLeaf) 1 0 = .ok zeroLeafCircuit ∧
    zeroLeafCircuit.definitions.map (fun d => (d.interface.inputs, d.interface.outputs))
      = [([Input.create "p" 0], [Value.mk "q" 0])] ∧
    (∃ port ∈ zeroModule.record, port.2.getSize = 0) ∧
    BuildFromCoreIR zeroEnv 1 0 = .ok zeroCircuit ∧
    zeroCircuit.definitions.map (fun d => d.interface.inputs)
      = [[{ name := "p", width := 0, select := some { slices := [] }, connects := 1 }]] :=
  ⟨by decide, by rfl, by decide,
    ⟨("p", .array 0 .bit), by simp [zeroModule], rfl⟩, by rfl, by decide⟩

/-- C5, amended: interface generation does not reject a port of width 0.  `GenInterface`
creates a `Value` of width 0 for it when its type is an input and an `Input` of width 0
otherwise, and the connection pass connects a zero-width array input without a whole-port
driver to the `Select` of an empty slice list. -/
theorem zero_width_port_kept (core_mod : CoreModule) (port : String × CType)
    (hport : port ∈ core_mod.record) (hzero : port.2.getSize = 0) :
    (port.2.isInput = true → Value.mk port.1 0 ∈ (GenInterface core_mod).2) ∧
    (port.2.isInput = false → Input.create port.1 0 ∈ (GenInterface core_mod).1) ∧
    ∀ (ctx : CoreCtx) (core_w : Wireable) (defn_iface : IFace) (instances : List Instance)
      (inst_map : UMap String Nat),
      ctx.isArrayKind (.sel core_w port.1) = true →
      ctx.core_def.connected (.sel core_w port.1) = [] →
      connectInput ctx core_w defn_iface instances inst_map (Input.create port.1 0)
        = .ok ((Input.create port.1 0).connect (Select.ofSlices [])) := by
  rw [GenInterface_eq]
  refine ⟨?_, ?_, ?_⟩
  · intro hin
    simp only [List.mem_map, List.mem_filter]
    exact ⟨port, ⟨hport, hin⟩, by rw [hzero]; rfl⟩
  · intro hin
    simp only [List.mem_map, List.mem_filter]
    exact ⟨port, ⟨hport, by simp [hin]⟩, by rw [hzero]; rfl⟩
  · intro ctx core_w defn_iface instances inst_map harr hnone
    simp [connectInput, Input.create, hnone, harr, elementSlices]

/-- Witness of the amended C5: the port `p` of `zeroModule`. -/
theorem zero_width_port_kept_witness :
    (("p", CType.array 0 .bit).2.isInput = true →
      Value.mk "p" 0 ∈ (GenInterface zeroModule).2) ∧
    (("p", CType.array 0 .bit).2.isInput = false →
      Input.create "p" 0 ∈ (GenInterface zeroModule).1) ∧
    ∀ (ctx : CoreCtx) (core_w : Wireable) (defn_iface : IFace) (instances : List Instance)
      (inst_map : UMap String Nat),
      ctx.isArrayKind (.sel core_w "p") = true →
      ctx.core_def.connected (.sel core_w "p") = [] →
      connectInput ctx core_w defn_iface instances inst_map (Input.create "p" 0)
        = .ok ((Input.create "p" 0).connect (Select.ofSlices [])) :=
  zero_width_port_kept zeroModule ("p", .array 0 .bit) (by simp [zeroModule]) rfl

/-- C6: compaction is idempotent.  For every `Select`, running the compaction pass on its
compacted slice list leaves the list unchanged: `compact(compact(S)) = compact(S)`. -/
theorem compaction_idempotent (S : Select) :
    compressSlices (compressSlices S.slices) = compressSlices S.slices ∧
    Select.ofSlices (Select.ofSlices S.slices).slices = Select.ofSlices S.slices :=
  ⟨compressSlices_idem S.slices, by simp [Select.ofSlices, compressSlices_idem]⟩

/-- Counterexample to C8: the output `o` of `wordPair` is an array of two elements, has no
whole-port driver, and each of its two elements has exactly one driver that `CreateSlice`
accepts; the connection pass does not assemble a slice list but fails at index 2, and so
does the build. -/
theorem word_array_not_sliced :
    wordCtx.getType (.sel .iface "o") = some (.array 2 (.array 4 .bit)) ∧
    wordPairDef.connected (.sel .iface "o") = [] ∧
    (∀ i, i < 2 → ∃ w sl,
      wordPairDef.connected (.sel (.sel .iface "o") (toString i)) = [w] ∧
      CreateSlice wordCtx w wordIFace wordInstances (genInstanceMap wordPairDef.instances)
        = .ok sl) ∧
    connectInput wordCtx .iface wordIFace wordInstances (genInstanceMap wordPairDef.instances)
      (Input.create "o" 8) = .error (.assertion 128) ∧
    BuildFromCoreIR wordEnv 2 0 = .error (.assertion 128) := by
  refine ⟨by rfl, by rfl, ?_, by rfl, by rfl⟩
  intro i hi
  have : i = 0 ∨ i = 1 := by omega
  rcases this with rfl | rfl
  · exact ⟨_, _, rfl, rfl⟩
  · exact ⟨_, _, rfl, rfl⟩

/-- C8, amended: for every array-typed `Input` that has no whole-port driver and whose
every index below the input's width has exactly one driver that `CreateSlice` accepts (for
an array of one-bit elements these indices are the elements), the connection pass
assembles a raw slice list with exactly one `ValueSlice` per index, in increasing index
order (the `i`-th slice is the one created from the driver of index `i`), each of width 1
or of the width of its source `Value`, and connects the input to the `Select` of it. -/
theorem element_slices_in_order (ctx : CoreCtx) (core_w : Wireable) (defn_iface : IFace)
    (instances : List Instance) (inst_map : UMap String Nat) (new_input : Input)
    (harr : ctx.isArrayKind (.sel core_w new_input.name) = true)
    (hnone : ctx.core_def.connected (.sel core_w new_input.name) = [])
    (hdrv : ∀ i : Nat, (i : Int) < new_input.width → ∃ w sl,
      ctx.core_def.connected (.sel (.sel core_w new_input.name) (toString i)) = [w] ∧
      CreateSlice ctx w defn_iface instances inst_map = .ok sl) :
    ∃ slices,
      elementSlices ctx (.sel core_w new_input.name) defn_iface instances inst_map
        (List.range new_input.width.toNat) = .ok slices ∧
      connectInput ctx core_w defn_iface instances inst_map new_input
        = .ok (new_input.connect (Select.ofSlices slices)) ∧
      slices.length = new_input.width.toNat ∧
      ∀ i : Nat, (i : Int) < new_input.width → ∃ w sl,
        ctx.core_def.connected (.sel (.sel core_w new_input.name) (toString i)) = [w] ∧
        CreateSlice ctx w defn_iface instances inst_map = .ok sl ∧ slices[i]? = some sl ∧
        (sl.width = 1 ∨ ∃ v, sl.val = some v ∧ sl.width = v.width) := by
  obtain ⟨slices, hs⟩ := elementSlices_complete ctx (.sel core_w new_input.name) defn_iface
    instances inst_map (List.range new_input.width.toNat)
    (fun i hi => hdrv i (by have := List.mem_range.1 hi; omega))
  have hall := elementSlices_spec _ _ hs
  have hlen : slices.length = new_input.width.toNat := by
    rw [← hall.length_eq, List.length_range]
  refine ⟨slices, hs, by simp [connectInput, hnone, harr, hs], hlen, ?_⟩
  intro i hi
  have hi2 : i < new_input.width.toNat := by omega
  obtain ⟨sl, hsl, w, hw, hc⟩ := forall₂_pointwise hall i i (by simp [List.getElem?_range, hi2])
  refine ⟨w, sl, hw, hc, hsl, ?_⟩
  obtain ⟨_, _, ref, v, _, h | h⟩ := CreateSlice_ok hc
  · exact Or.inr ⟨v, by rw [h.2.1]; rfl, by rw [h.2.1]; rfl⟩
  · obtain ⟨_, _, _, _, _, _, hsl2, _⟩ := h
    exact Or.inl (by rw [hsl2]; rfl)

/-- Witness of the amended C8: the three-bit output `o` of `bitCopy`, driven bit by bit
from the input `a`, gets the three one-bit slices of `a` in order. -/
theorem element_slices_in_order_witness :
    ∃ slices,
      elementSlices bitCopyCtx (.sel .iface "o") bitCopyIFace [] [] (List.range 3)
        = .ok slices ∧
      connectInput bitCopyCtx .iface bitCopyIFace [] [] (Input.create "o" 3)
        = .ok ((Input.create "o" 3).connect (Select.ofSlices slices)) ∧
      slices.length = 3 ∧
      ∀ i : Nat, (i : Int) < 3 → ∃ w sl,
        bitCopyDef.connected (.sel (.sel .iface "o") (toString i)) = [w] ∧
        CreateSlice bitCopyCtx w bitCopyIFace [] [] = .ok sl ∧ slices[i]? = some sl ∧
        (sl.width = 1 ∨ ∃ v, sl.val = some v ∧ sl.width = v.width) :=
  element_slices_in_order bitCopyCtx .iface bitCopyIFace [] [] (Input.create "o" 3)
    (by rfl) (by rfl)
    (by
      intro i hi
      have : i = 0 ∨ i = 1 ∨ i = 2 := by
        have h3 : (i : Int) < 3 := hi
        omega
      rcases this with rfl | rfl | rfl
      · exact ⟨_, _, rfl, rfl⟩
      · exact ⟨_, _, rfl, rfl⟩
      · exact ⟨_, _, rfl, rfl⟩)

/-- Counterexample to C9.  In `emptyTop` the driver is element 1 of the output `o` of the
instance `p`, an array of two (empty) elements: `CreateSlice` gives offset 1 and width 1
inside a source `Value` of width 0, and the built circuit holds that slice.  In
`hugeModule` the drivers are elements of the input `i`, an array of `2^31 + 1` bits whose
`Value` has the width `-2147483647`: element 0 gives offset 0 and width 1, beyond that
width, and element `2147483648` gives the offset `-2147483648`, not its index. -/
theorem empty_element_slice_out_of_range :
    emptyCtx.getType (.sel (.inst "p") "o") = some (.array 2 (.array 0 .bit)) ∧
    stoul "1" = some 1 ∧
    CreateSlice emptyCtx (.sel (.sel (.inst "p") "o") "1") emptyIFace [emptyInstance]
        (genInstanceMap emptyTopDef.instances)
      = .ok (ValueSlice.create (.inst 0) (Value.mk "o" 0) 1 1) ∧
    ¬ ((ValueSlice.create (.inst 0) (Value.mk "o" 0) 1 1).offset
        + (ValueSlice.create (.inst 0) (Value.mk "o" 0) 1 1).width ≤ (Value.mk "o" 0).width) ∧
    BuildFromCoreIR emptyEnv 2 0 = .ok emptyCircuit ∧
    (emptyCircuit.definitions.map (fun d => d.instances.map (fun inst =>
        inst.interface.inputs.map (fun i => i.select))))
      = [[], [[some { slices := [ValueSlice.create (.inst 0) (Value.mk "o" 0) 1 1] }]]] ∧
    hugeCtx.getType (.sel .iface "i") = some (.array 2147483649 .bitIn) ∧
    CreateSlice hugeCtx (.sel (.sel .iface "i") "0") hugeIFace [] []
      = .ok (ValueSlice.create .defn (Value.mk "i" (-2147483647)) 0 1) ∧
    ¬ ((ValueSlice.create .defn (Value.mk "i" (-2147483647)) 0 1).offset
        + (ValueSlice.create .defn (Value.mk "i" (-2147483647)) 0 1).width
          ≤ (Value.mk "i" (-2147483647)).width) ∧
    stoul "2147483648" = some 2147483648 ∧
    CreateSlice hugeCtx (.sel (.sel .iface "i") "2147483648") hugeIFace [] []
      = .ok (ValueSlice.create .defn (Value.mk "i" (-2147483647)) (-2147483648) 1) :=
  ⟨by rfl, by decide, by rfl, by decide, by rfl, by decide, by rfl, by rfl, by decide,
    by decide, by rfl⟩

/-- C9, amended: for every driver handed to `CreateSlice`, with port names and instance
names distinct, the resulting slice has an explicit offset and width (`FromDriver`).  A
driver that is not an array element gives offset 0 and the width of the source value, which
is the size of the driver's type converted to `int`: a whole-value slice, within the value.
A driver that is element `idx` of an array-typed source gives width 1 and the offset `idx`
converted to `int`, the source value having the size of the array converted to `int`; when
the array has more than `idx` elements, none of them empty, and fewer than `2^31` bits, the
offset is `idx` and `offset + width` does not exceed the width of the source value.  This
holds for every call with interfaces that agree with the netlist, and they do in every
build: a circuit that `BuildFromCoreIR` builds holds, for every reachable module with a
definition, a definition whose interfaces agree with the netlist, and `CreateSlice` gives
such a slice in all interfaces with the outputs of that definition and of its instances,
which the interfaces are that `SetupIFaceConnections` passes while it is constructed. -/
theorem create_slice_offset_width (env : Nat → CoreModule)
    (hports : ∀ m, ((env m).record.map Prod.fst).Nodup)
    (hnames : ∀ m d, (env m).getDef = some d → (d.instances.map (fun c => c.name)).Nodup) :
    (∀ (m : Nat) (d : ModuleDef) (defn_iface : IFace) (instances : List Instance)
      (source_w : Wireable) (s : ValueSlice), (env m).getDef = some d →
      IFacesAgree { env := env, core_mod := env m, core_def := d } defn_iface instances →
      CreateSlice { env := env, core_mod := env m, core_def := d } source_w defn_iface
        instances (genInstanceMap d.instances) = .ok s →
      s.FromDriver { env := env, core_mod := env m, core_def := d } source_w) ∧
    ∀ (fuel root : Nat) (c : Circuit), BuildFromCoreIR env fuel root = .ok c →
      ∀ (m : Nat) (d : ModuleDef), Reachable env root m → (env m).getDef = some d →
        ∃ (k : Nat) (dfn : Definition), c.definitions[k]? = some dfn ∧
          IsDefinitionOf env m dfn ∧
          IFacesAgree { env := env, core_mod := env m, core_def := d } dfn.interface
            dfn.instances ∧
          ∀ (defn_iface : IFace) (instances : List Instance) (source_w : Wireable)
            (s : ValueSlice),
            defn_iface.outputs = dfn.interface.outputs →
            List.Forall₂ (fun a b => a.interface.outputs = b.interface.outputs)
              instances dfn.instances →
            CreateSlice { env := env, core_mod := env m, core_def := d } source_w defn_iface
              instances (genInstanceMap d.instances) = .ok s →
            s.FromDriver { env := env, core_mod := env m, core_def := d } source_w := by
  constructor
  · intro m d defn_iface instances source_w s hd hagree hcs
    exact CreateSlice_fromDriver hports (hnames m d hd) hagree hcs
  · intro fuel root c h m d hreach hd
    unfold BuildFromCoreIR at h
    cases hs : buildState env fuel root with
    | error e => simp [hs] at h
    | ok st =>
      simp only [hs] at h
      have hc : c = Circuit.create st.definitions := (Except.ok.inj h).symm
      subst hc
      have hreg := buildState_registry hs
      have hm : m ∈ st.keys := (buildState_keys hs m).2 hreach
      obtain ⟨e, he, hfst⟩ := List.mem_map.1 hm
      obtain ⟨m2, k⟩ := e
      simp only at hfst
      subst hfst
      obtain ⟨dfn, h1, b1, b2, b3, b4⟩ := hreg.built m2 k he
      simp only [hd] at b4
      have hagree : IFacesAgree { env := env, core_mod := env m2, core_def := d }
          dfn.interface dfn.instances :=
        ⟨b2, List.Forall₂.imp (fun _ _ hi => ⟨hi.2.2.2.1, hi.2.2.2.2⟩) b4⟩
      refine ⟨k, dfn, h1, ⟨b1, b2, b3⟩, hagree, ?_⟩
      intro defn_iface instances source_w s hout hinsts hcs
      rw [CreateSlice_congr hout hinsts] at hcs
      exact CreateSlice_fromDriver hports (hnames m2 d hd) hagree hcs

/-- In the netlist of `bitCopy` instance names are distinct. -/
theorem bitCopy_names (m : Nat) (d : ModuleDef)
    (hd : ((fun _ => bitCopy) m : CoreModule).getDef = some d) :
    (d.instances.map (fun c => c.name)).Nodup := by
  have : d = bitCopyDef := by
    simp [bitCopy] at hd
    exact hd.symm
  subst this
  decide

/-- Witness of the amended C9: in the build of `bitCopy`, bit 2 of the three-bit input `a`
gives the slice of offset 2 and width 1 of the value `a`, of width 3. -/
theorem create_slice_offset_width_witness :
    BuildFromCoreIR (fun _ => bitCopy) 1 0 = .ok bitCopyCircuit ∧
    CreateSlice bitCopyCtx (.sel (.sel .iface "a") "2") bitCopyIFace [] [] =
      .ok (bitCopySlice 2) ∧
    ((bitCopySlice 2).offset, (bitCopySlice 2).width, (bitCopySlice 2).val)
      = (2, 1, some (Value.mk "a" 3)) ∧
    (∀ (m : Nat) (d : ModuleDef) (defn_iface : IFace) (instances : List Instance)
      (source_w : Wireable) (s : ValueSlice),
      ((fun _ => bitCopy) m : CoreModule).getDef = some d →
      IFacesAgree { env := fun _ => bitCopy, core_mod := bitCopy, core_def := d } defn_iface
        instances →
      CreateSlice { env := fun _ => bitCopy, core_mod := bitCopy, core_def := d } source_w
        defn_iface instances (genInstanceMap d.instances) = .ok s →
      s.FromDriver { env := fun _ => bitCopy, core_mod := bitCopy, core_def := d }
        source_w) ∧
    ∃ (k : Nat) (dfn : Definition), bitCopyCircuit.definitions[k]? = some dfn ∧
      IsDefinitionOf (fun _ => bitCopy) 0 dfn ∧
      IFacesAgree bitCopyCtx dfn.interface dfn.instances ∧
      ∀ (defn_iface : IFace) (instances : List Instance) (source_w : Wireable)
        (s : ValueSlice),
        defn_iface.outputs = dfn.interface.outputs →
        List.Forall₂ (fun a b => a.interface.outputs = b.interface.outputs)
          instances dfn.instances →
        CreateSlice bitCopyCtx source_w defn_iface instances
          (genInstanceMap bitCopyDef.instances) = .ok s →
        s.FromDriver bitCopyCtx source_w :=
  ⟨by rfl, by rfl, by decide,
    (create_slice_offset_width (fun _ => bitCopy)
      (fun _ => (by decide : (List.map Prod.fst bitCopy.record).Nodup)) bitCopy_names).1,
    (create_slice_offset_width (fun _ => bitCopy)
      (fun _ => (by decide : (List.map Prod.fst bitCopy.record).Nodup)) bitCopy_names).2
      1 0 bitCopyCircuit (by rfl) 0 bitCopyDef Relation.ReflTransGen.refl rfl⟩

/-- Counterexample to C3.  In `bankTop` the four-bit input `i` of the instance `p` is driven
by word 2 of the output `o`, a wireable of the same size; the build succeeds and attaches
to `i`, of declared width 4, a select whose slice widths sum to 1.  In `hugeModule` the
output `o` has `2^31 + 1` bits and no driver; the build succeeds and attaches to `o`, of
declared width `-2147483647`, a select without slices, of total width 0. -/
theorem word_element_select_too_narrow :
    bankCtx.getType (.sel (.inst "p") "i") = some (.array 4 .bitIn) ∧
    bankCtx.getType (.sel (.sel (.inst "p") "o") "2") = some (.array 4 .bit) ∧
    bankTopDef.connected (.sel (.inst "p") "i") = [.sel (.sel (.inst "p") "o") "2"] ∧
    BuildFromCoreIR bankEnv 2 0 = .ok bankCircuit ∧
    bankCircuit.definitions.map (fun d => d.instances.map (fun inst =>
        inst.interface.inputs.map (fun i => (i.name, i.width, i.select.map Select.totalWidth))))
      = [[], [[("i", 4, some 1)]]] ∧
    hugeCtx.getType (.sel .iface "o") = some (.array 2147483649 .bit) ∧
    BuildFromCoreIR hugeEnv 1 0 = .ok hugeCircuit ∧
    hugeCircuit.definitions.map (fun d =>
        d.interface.inputs.map (fun i => (i.name, i.width, i.select.map Select.totalWidth)))
      = [[("o", -2147483647, some 0)]] :=
  ⟨by rfl, by rfl, by rfl, by rfl, by decide, by rfl, by rfl, by decide⟩

/-- C3, amended: for a netlist wired within what the builder represents (distinct port and
instance names; every driver of an input of the size of what it drives; every driver that
is an element of an array one bit wide; every array input driven element by element of
fewer than `2^31` bits), for every definition built by `BuildFromCoreIR` and every input
that the connection pass connects (inputs of child instances and of the definition's own
interface), the widths of the slices in the select attached to that input sum to the
input's declared width. -/
theorem select_width_matches_input (env : Nat → CoreModule) (hwt : WellTyped env)
    (fuel root : Nat) (c : Circuit) (h : BuildFromCoreIR env fuel root = .ok c) :
    ∀ dfn ∈ c.definitions,
      (∀ inp ∈ dfn.interface.inputs, ∀ s, inp.select = some s → s.totalWidth = inp.width) ∧
      (∀ inst ∈ dfn.instances, ∀ inp ∈ inst.interface.inputs, ∀ s,
        inp.select = some s → s.totalWidth = inp.width) := by
  unfold BuildFromCoreIR at h
  cases hs : buildState env fuel root with
  | error e => simp [hs] at h
  | ok st =>
    simp only [hs] at h
    have hc : c = Circuit.create st.definitions := (Except.ok.inj h).symm
    subst hc
    intro dfn hdfn
    exact ProcessModules_widthOK env hwt fuel root _ st hs (Registry.empty env)
      (by intro x hx; cases hx) dfn hdfn

theorem mem_connectedIn {cs : List (Wireable × Wireable)} {sink w : Wireable}
    (h : w ∈ connectedIn cs sink) :
    ∃ c ∈ cs, (c.1 = sink ∧ c.2 = w) ∨ (c.2 = sink ∧ c.1 = w) := by
  unfold connectedIn at h
  obtain ⟨c, hc, hw⟩ := List.mem_filterMap.1 h
  refine ⟨c, hc, ?_⟩
  by_cases h1 : c.1 = sink
  · simp only [h1, if_true, Option.some.injEq] at hw
    exact Or.inl ⟨h1, hw⟩
  · by_cases h2 : c.2 = sink
    · simp only [h1, h2, if_true, if_false, Option.some.injEq] at hw
      exact Or.inr ⟨h2, hw⟩
    · simp [h1, h2] at hw

/-- The netlist of `bitCopy` is well typed. -/
theorem bitCopy_wellTyped : WellTyped (fun _ => bitCopy) := by
  refine ⟨fun _ => (by decide : (List.map Prod.fst bitCopy.record).Nodup), bitCopy_names,
    ?_, ?_⟩
  · intro m d hd p hp hdir
    have : d = bitCopyDef := by
      simp [bitCopy] at hd
      exact hd.symm
    subst this
    simp only [bitCopy, List.mem_cons, List.mem_singleton, List.not_mem_nil, or_false] at hp
    rcases hp with rfl | rfl
    · cases hdir
    · constructor
      · intro w hcon
        have hnone : bitCopyDef.connected (.sel .iface "o") = [] := by rfl
        rw [hnone] at hcon
        cases hcon
      · intro _ len elem ht
        cases ht
        refine ⟨by decide, fun hlt => absurd hlt (by decide), ?_⟩
        intro i w hcon
        have hmem : w ∈ bitCopyDef.connected (.sel (.sel .iface "o") (toString i)) := by
          rw [hcon]
          simp
        obtain ⟨c, hc, hcase⟩ := mem_connectedIn hmem
        simp only [List.mem_cons, List.mem_singleton, List.not_mem_nil, or_false] at hc
        rcases hc with rfl | rfl | rfl <;> rcases hcase with ⟨_, rfl⟩ | ⟨h2, _⟩
        all_goals
          first
          | exact ⟨.bitIn, by rfl, rfl, fun _ => rfl⟩
          | exact absurd h2 (by simp)
  · intro m d hd c hc
    have : d = bitCopyDef := by
      simp [bitCopy] at hd
      exact hd.symm
    subst this
    cases hc

/-- The netlist of `wordCopy`, whose ports are arrays of words connected as a whole, is
well typed. -/
theorem wordCopy_wellTyped : WellTyped (fun _ => wordCopy) := by
  have hdef : ∀ (m : Nat) (d : ModuleDef),
      ((fun _ => wordCopy) m : CoreModule).getDef = some d → d = wordCopyDef := by
    intro m d hd
    simp [wordCopy] at hd
    exact hd.symm
  refine ⟨fun _ => (by decide : (List.map Prod.fst wordCopy.record).Nodup), ?_, ?_, ?_⟩
  · intro m d hd
    rw [hdef m d hd]
    decide
  · intro m d hd p hp hdir
    rw [hdef m d hd]
    simp only [wordCopy, List.mem_cons, List.mem_singleton, List.not_mem_nil, or_false] at hp
    rcases hp with rfl | rfl
    · cases hdir
    · constructor
      · intro w hcon
        have hone : wordCopyDef.connected (.sel .iface "o") = [.sel .iface "a"] := by rfl
        rw [hone] at hcon
        cases hcon
        exact ⟨.array 2 (.array 2 .bitIn), by rfl, rfl, fun hel => by cases hel⟩
      · intro hnone
        have hone : wordCopyDef.connected (.sel .iface "o") = [.sel .iface "a"] := by rfl
        rw [hone] at hnone
        cases hnone
  · intro m d hd c hc
    rw [hdef m d hd] at hc
    cases hc

/-- Witness of the amended C3: in the circuit of `bitCopy` the three-bit output `o`, driven
bit by bit, has a select whose slice widths sum to 3; in the circuit of `wordCopy` the
output `o`, an array of two two-bit words driven as a whole, has a select of width 4. -/
theorem select_width_matches_input_witness :
    BuildFromCoreIR (fun _ => bitCopy) 1 0 = .ok bitCopyCircuit ∧
    bitCopyCircuit.definitions.map (fun d =>
        d.interface.inputs.map (fun i => (i.name, i.width, i.select.map Select.totalWidth)))
      = [[("o", 3, some 3)]] ∧
    (∀ dfn ∈ bitCopyCircuit.definitions,
      (∀ inp ∈ dfn.interface.inputs, ∀ s, inp.select = some s → s.totalWidth = inp.width) ∧
      (∀ inst ∈ dfn.instances, ∀ inp ∈ inst.interface.inputs, ∀ s,
        inp.select = some s → s.totalWidth = inp.width)) ∧
    BuildFromCoreIR (fun _ => wordCopy) 1 0 = .ok wordCopyCircuit ∧
    wordCopyCircuit.definitions.map (fun d =>
        d.interface.inputs.map (fun i => (i.name, i.width, i.select.map Select.totalWidth)))
      = [[("o", 4, some 4)]] ∧
    ∀ dfn ∈ wordCopyCircuit.definitions,
      (∀ inp ∈ dfn.interface.inputs, ∀ s, inp.select = some s → s.totalWidth = inp.width) ∧
      (∀ inst ∈ dfn.instances, ∀ inp ∈ inst.interface.inputs, ∀ s,
        inp.select = some s → s.totalWidth = inp.width) :=
  ⟨by rfl, by decide,
    select_width_matches_input (fun _ => bitCopy) bitCopy_wellTyped 1 0 bitCopyCircuit
      (by rfl),
    by rfl, by decide,
    select_width_matches_input (fun _ => wordCopy) wordCopy_wellTyped 1 0 wordCopyCircuit
      (by rfl)⟩

/-- Counterexample to C4.  The builds of two modules whose dangling outputs are named `a`
and `b` end in the same failure, the assertion at line 122, which carries no port name:
no reading of the failure gives back the name of the offending port.  And the output `o`
of `hugeModule`, an array of `2^31 + 1` bits none of whose elements has a driver, does not
make the build fail: its width is negative, no element is looked at, and the input is
connected to a select without slices. -/
theorem dangling_failure_names_no_port :
    BuildFromCoreIR (danglingEnv "a") 1 0 = .error (.assertion 122) ∧
    BuildFromCoreIR (danglingEnv "b") 1 0 = .error (.assertion 122) ∧
    (¬ ∃ portOf : BuildError → String,
      (∀ e, BuildFromCoreIR (danglingEnv "a") 1 0 = .error e → portOf e = "a") ∧
      (∀ e, BuildFromCoreIR (danglingEnv "b") 1 0 = .error e → portOf e = "b")) ∧
    hugeCtx.getType (.sel .iface "o") = some (.array 2147483649 .bit) ∧
    (∀ w, hugeCtx.core_def.connected w = []) ∧
    BuildFromCoreIR hugeEnv 1 0 = .ok hugeCircuit ∧
    hugeCircuit.definitions.map (fun d => d.interface.inputs)
      = [[{ name := "o", width := -2147483647, select := some { slices := [] },
            connects := 1 }]] := by
  refine ⟨by rfl, by rfl, ?_, by rfl, fun _ => rfl, by rfl, by decide⟩
  rintro ⟨portOf, ha, hb⟩
  have h1 := ha (.assertion 122) (by rfl)
  have h2 := hb (.assertion 122) (by rfl)
  rw [h1] at h2
  exact absurd h2 (by decide)

/-- C4, amended: an `Input` without a connected driver (a non-array input with zero
connected wireables, or an array input without a whole-port driver one of whose indices
below its width, the size of its type converted to `int`, does not have exactly one
connected wireable) makes the build fail with a failed assertion that carries no port
name.  When a module reachable from the root has such an input, on its own interface or
(the instances having distinct names) on the interface of one of its instances,
`BuildFromCoreIR` produces no circuit, whatever the fuel; and the loop body of the
connection pass fails on such an input, by the assertion at line 122 when the port is not
an array, as does the pass over any interface holding it. -/
theorem dangling_input_aborts (env : Nat → CoreModule) (root m : Nat) (d : ModuleDef)
    (hreach : Reachable env root m) (hdef : (env m).getDef = some d)
    (hdang :
      (∃ p ∈ (env m).record, p.2.isInput = false ∧
        Dangling { env := env, core_mod := env m, core_def := d } .iface p.1
          (toInt p.2.getSize)) ∨
      ((d.instances.map (fun c => c.name)).Nodup ∧
        ∃ c ∈ d.instances, ∃ p ∈ (env c.moduleRef).record, p.2.isInput = true ∧
          Dangling { env := env, core_mod := env m, core_def := d } (.inst c.name) p.1
            (toInt p.2.getSize))) :
    (∀ fuel, ∃ e, BuildFromCoreIR env fuel root = .error e) ∧
    ∀ (ctx : CoreCtx) (core_w : Wireable) (defn_iface : IFace) (instances : List Instance)
      (inst_map : UMap String Nat) (inp : Input),
      Dangling ctx core_w inp.name inp.width →
      (∃ e, connectInput ctx core_w defn_iface instances inst_map inp = .error e ∧
        (ctx.isArrayKind (.sel core_w inp.name) = false → e = .assertion 122)) ∧
      ∀ iface : IFace, inp ∈ iface.inputs →
        ∃ e, SetupIFaceConnections ctx core_w iface defn_iface instances inst_map
          = .error e := by
  constructor
  · intro fuel
    unfold BuildFromCoreIR
    cases hs : buildState env fuel root with
    | error e => exact ⟨e, rfl⟩
    | ok st =>
      exfalso
      have hchk : Checked env st :=
        ProcessModules_checked env fuel root _ st hs (Registry.empty env)
          (by intro x hx; simp [BuildState.keys] at hx)
      obtain ⟨h1, h2⟩ := hchk m ((buildState_keys hs m).2 hreach) d hdef
      rcases hdang with ⟨p, hp, hdir, hd⟩ | ⟨hnd, c, hc, p, hp, hdir, hd⟩
      · exact h1 p hp hdir hd
      · exact h2 hnd c hc p hp hdir hd
  · intro ctx core_w defn_iface instances inst_map inp hd
    exact ⟨connectInput_dangling ctx core_w defn_iface instances inst_map hd,
      fun iface hmem =>
        SetupIFaceConnections_dangling ctx core_w iface defn_iface instances inst_map
          ⟨inp, hmem, hd⟩⟩

/-- Witness of the amended C4: the module with the dangling one-bit output `a`. -/
theorem dangling_input_aborts_witness :
    (∀ fuel, ∃ e, BuildFromCoreIR (danglingEnv "a") fuel 0 = .error e) ∧
    ∀ (ctx : CoreCtx) (core_w : Wireable) (defn_iface : IFace) (instances : List Instance)
      (inst_map : UMap String Nat) (inp : Input),
      Dangling ctx core_w inp.name inp.width →
      (∃ e, connectInput ctx core_w defn_iface instances inst_map inp = .error e ∧
        (ctx.isArrayKind (.sel core_w inp.name) = false → e = .assertion 122)) ∧
      ∀ iface : IFace, inp ∈ iface.inputs →
        ∃ e, SetupIFaceConnections ctx core_w iface defn_iface instances inst_map
          = .error e :=
  dangling_input_aborts (danglingEnv "a") 0 0 { instances := [], connected := fun _ => [] }
    Relation.ReflTransGen.refl rfl
    (Or.inl ⟨("a", .bit), by simp [danglingEnv, danglingModule], rfl, rfl, Or.inl rfl⟩)

/-- C7: submitting a lazy generator never invokes the generator and never adds an entry to
the live-module map by itself, and for every sequence of operations after it that contains
no first call through the stub of that name and no `precompileIR` (resolution of the name
is allowed), the unit is never compiled: the name is not live at the end and its generator
has been invoked no more often than before the submission. -/
theorem lazy_submission_does_not_compile (j : JIT) (name : String) (ops : List JITOp)
    (hfresh : j.isLive name = false)
    (hops : ∀ op ∈ ops, op ≠ .callThrough name ∧ op ≠ .precompileIR) :
    (j.step (.addLazyModule name)).generated = j.generated ∧
    (j.step (.addLazyModule name)).live_modules = j.live_modules ∧
    ((j.step (.addLazyModule name)).run ops).isLive name = false ∧
    ((j.step (.addLazyModule name)).run ops).generated.count name
      = j.generated.count name := by
  have hsub1 : (j.step (.addLazyModule name)).generated = j.generated := by
    simp only [JIT.step]; split <;> rfl
  have hsub2 : (j.step (.addLazyModule name)).live_modules = j.live_modules := by
    simp only [JIT.step]; split <;> rfl
  have hpend : (j.step (.addLazyModule name)).isPending name = true := by
    simp only [JIT.step]
    split
    · rename_i hc
      simpa [hfresh] using hc
    · simp [JIT.isPending]
  have hlive : (j.step (.addLazyModule name)).isLive name = false := by
    simp only [JIT.isLive, hsub2]; exact hfresh
  refine ⟨hsub1, hsub2, ?_⟩
  rw [← hsub1]
  generalize j.step (.addLazyModule name) = s at hpend hlive
  clear hsub1 hsub2 hfresh
  induction ops generalizing s with
  | nil => exact ⟨hlive, rfl⟩
  | cons op rest ih =>
    have hop := hops op (by simp)
    have hrest : ∀ op' ∈ rest, op' ≠ .callThrough name ∧ op' ≠ .precompileIR :=
      fun op' h' => hops op' (by simp [h'])
    have key : (s.step op).isPending name = true ∧ (s.step op).isLive name = false ∧
        (s.step op).generated.count name = s.generated.count name := by
      cases op with
      | addModule n =>
        by_cases hn : n = name
        · subst hn
          simp [JIT.step, hpend, hlive]
        · simp only [JIT.step]
          split
          · exact ⟨hpend, hlive, rfl⟩
          · refine ⟨hpend, ?_, rfl⟩
            simp only [JIT.isLive, JIT.link, List.any_cons] at hlive ⊢
            simp [hn, hlive]
      | addLazyModule n =>
        simp only [JIT.step]
        split
        · exact ⟨hpend, hlive, rfl⟩
        · refine ⟨?_, hlive, rfl⟩
          simp only [JIT.isPending, List.contains_cons] at hpend ⊢
          have hmem : name ∈ s.callback_addrs := by simpa using hpend
          simp [hmem]
      | getSymbolAddress n => exact ⟨hpend, hlive, rfl⟩
      | callThrough n =>
        have hn : n ≠ name := fun e => hop.1 (by rw [e])
        simp only [JIT.step]
        split
        · refine ⟨?_, ?_, ?_⟩
          · simp only [JIT.isPending, JIT.compileLazy, JIT.link] at hpend ⊢
            simp only [List.contains_eq_any_beq, List.any_eq_true, List.mem_filter] at hpend ⊢
            obtain ⟨x, hx, hxe⟩ := hpend
            have hxn : x = name := by
              have := hxe
              simp at this
              exact this.symm
            subst hxn
            exact ⟨x, ⟨hx, by simpa using fun e => hn e.symm⟩, by simp⟩
          · simp only [JIT.isLive, JIT.compileLazy, JIT.link, List.any_cons] at hlive ⊢
            simp [hn, hlive]
          · simp [JIT.compileLazy, JIT.link, List.count_cons, hn]
        · exact ⟨hpend, hlive, rfl⟩
      | precompileIR => exact absurd rfl hop.2
      | removeModule n =>
        refine ⟨hpend, ?_, rfl⟩
        simp only [JIT.isLive, JIT.step] at hlive ⊢
        rw [Bool.eq_false_iff] at hlive ⊢
        intro hc
        apply hlive
        rw [List.any_eq_true] at hc ⊢
        obtain ⟨x, hx, hxe⟩ := hc
        exact ⟨x, (List.mem_filter.1 hx).1, hxe⟩
    have := ih hrest (s.step op) key.1 key.2.1
    simp only [JIT.run, List.foldl_cons] at this ⊢
    exact ⟨this.1, this.2.trans key.2.2⟩

/-- Witness of C7: after the lazy submission of `f`, an eager submission of `g`, a
resolution of `f` and a removal of `g` leave `f` uncompiled. -/
theorem lazy_submission_does_not_compile_witness :
    ((JIT.mk [] [] [] 0).step (.addLazyModule "f")).generated = [] ∧
    ((JIT.mk [] [] [] 0).step (.addLazyModule "f")).live_modules = [] ∧
    (((JIT.mk [] [] [] 0).step (.addLazyModule "f")).run
        [.addModule "g", .getSymbolAddress "f", .removeModule "g"]).isLive "f" = false ∧
    (((JIT.mk [] [] [] 0).step (.addLazyModule "f")).run
        [.addModule "g", .getSymbolAddress "f", .removeModule "g"]).generated.count "f"
      = ([] : List String).count "f" :=
  lazy_submission_does_not_compile (JIT.mk [] [] [] 0) "f"
    [.addModule "g", .getSymbolAddress "f", .removeModule "g"] (by decide) (by decide)

/-- Counterexample to C11: the ports of `hugeModule` have `2^31 + 1` bits each, and
`GenInterface` gives the `Value` made from `i` and the `Input` made from `o` the width
`-2147483647`, which is not the size of their type. -/
theorem huge_port_width_wraps :
    hugeModule.record.map (fun p => (p.1, p.2.getSize))
      = [("i", 2147483649), ("o", 2147483649)] ∧
    GenInterface hugeModule
      = ([Input.create "o" (-2147483647)], [Value.mk "i" (-2147483647)]) ∧
    ¬ ∀ v ∈ (GenInterface hugeModule).2, ∃ p ∈ hugeModule.record,
      v.name = p.1 ∧ v.width = (p.2.getSize : Int) :=
  ⟨by decide, by rfl, by decide⟩

/-- C11, amended: for every module port list, `GenInterface` places each port in exactly
one of its two result lists.  The outputs (`Value`) list is the ports whose type is an
input and the inputs (`Input`) list is every other port, each in the order of the port
list, each entry with the port's name and, as width, the size of the port's type
converted to `int` (the inputs unconnected), which is the size itself for a port of fewer
than `2^31` bits; so the two lists together have exactly as many entries as the module has
ports. -/
theorem gen_interface_partitions (core_mod : CoreModule) :
    (GenInterface core_mod).2
      = (core_mod.record.filter (fun p => p.2.isInput)).map
          (fun p => Value.mk p.1 (toInt p.2.getSize)) ∧
    (GenInterface core_mod).1
      = (core_mod.record.filter (fun p => !p.2.isInput)).map
          (fun p => Input.create p.1 (toInt p.2.getSize)) ∧
    (GenInterface core_mod).1.length + (GenInterface core_mod).2.length
      = core_mod.record.length ∧
    (∀ p ∈ core_mod.record,
      (p.2.isInput = true → Value.mk p.1 (toInt p.2.getSize) ∈ (GenInterface core_mod).2) ∧
      (p.2.isInput = false →
        Input.create p.1 (toInt p.2.getSize) ∈ (GenInterface core_mod).1)) ∧
    (∀ v ∈ (GenInterface core_mod).2, ∃ p ∈ core_mod.record,
      p.2.isInput = true ∧ v.name = p.1 ∧ v.width = toInt p.2.getSize ∧
      (p.2.getSize < 2147483648 → v.width = (p.2.getSize : Int))) ∧
    (∀ i ∈ (GenInterface core_mod).1, ∃ p ∈ core_mod.record,
      p.2.isInput = false ∧ i.name = p.1 ∧ i.width = toInt p.2.getSize ∧
      (p.2.getSize < 2147483648 → i.width = (p.2.getSize : Int)) ∧ i.select = none) := by
  rw [GenInterface_eq]
  refine ⟨rfl, rfl, ?_, ?_, ?_, ?_⟩
  · simp only [List.length_map]
    have h := List.length_eq_length_filter_add (l := core_mod.record) (fun p => p.2.isInput)
    omega
  · intro p hp
    constructor
    · intro hdir
      exact List.mem_map.2 ⟨p, List.mem_filter.2 ⟨hp, hdir⟩, rfl⟩
    · intro hdir
      exact List.mem_map.2 ⟨p, List.mem_filter.2 ⟨hp, by simp [hdir]⟩, rfl⟩
  · intro v hv
    obtain ⟨p, hp, rfl⟩ := List.mem_map.1 hv
    exact ⟨p, (List.mem_filter.1 hp).1, (List.mem_filter.1 hp).2, rfl, rfl,
      fun hlt => toInt_of_lt hlt⟩
  · intro i hi
    obtain ⟨p, hp, rfl⟩ := List.mem_map.1 hi
    exact ⟨p, (List.mem_filter.1 hp).1, by simpa using (List.mem_filter.1 hp).2, rfl, rfl,
      fun hlt => toInt_of_lt hlt, rfl⟩

/-- Witness of the amended C11: the ports of `bitCopy`, the three-bit input `a` and the
three-bit output `o`, give the `Value` `a` and the `Input` `o`, both of width 3. -/
theorem gen_interface_partitions_witness :
    GenInterface bitCopy = ([Input.create "o" 3], [Value.mk "a" 3]) ∧
    ((GenInterface bitCopy).2
      = (bitCopy.record.filter (fun p => p.2.isInput)).map
          (fun p => Value.mk p.1 (toInt p.2.getSize)) ∧
    (GenInterface bitCopy).1
      = (bitCopy.record.filter (fun p => !p.2.isInput)).map
          (fun p => Input.create p.1 (toInt p.2.getSize)) ∧
    (GenInterface bitCopy).1.length + (GenInterface bitCopy).2.length
      = bitCopy.record.length ∧
    (∀ p ∈ bitCopy.record,
      (p.2.isInput = true → Value.mk p.1 (toInt p.2.getSize) ∈ (GenInterface bitCopy).2) ∧
      (p.2.isInput = false →
        Input.create p.1 (toInt p.2.getSize) ∈ (GenInterface bitCopy).1)) ∧
    (∀ v ∈ (GenInterface bitCopy).2, ∃ p ∈ bitCopy.record,
      p.2.isInput = true ∧ v.name = p.1 ∧ v.width = toInt p.2.getSize ∧
      (p.2.getSize < 2147483648 → v.width = (p.2.getSize : Int))) ∧
    (∀ i ∈ (GenInterface bitCopy).1, ∃ p ∈ bitCopy.record,
      p.2.isInput = false ∧ i.name = p.1 ∧ i.width = toInt p.2.getSize ∧
      (p.2.getSize < 2147483648 → i.width = (p.2.getSize : Int)) ∧ i.select = none)) :=
  ⟨by rfl, gen_interface_partitions bitCopy⟩

end JITSim
